import Mathlib

/-!
Deadlock prevention engine: embedding and verified properties.

A shallow embedding of `MLAugmentedDeadlockPrevention` and `SimpleNeuralNetwork`
(deadlock_prevention.cpp / .hpp) and of the scenario driver `DeadlockTrainer`
(deadlock_trainer.cpp).

Modelling conventions
* `std::vector<int>` is `List Int`, `std::vector<std::vector<int>>` is `List (List Int)`.
  C++ `int` arithmetic is taken over the unbounded integers (signed overflow is undefined
  in the source and is not modelled).
* Process and resource ids are natural numbers: a negative id indexes outside every vector.
* Reading a vector outside its bounds is undefined in the source.  The model reads `0`
  there and a write outside the bounds leaves the vector unchanged; theorems are stated
  for engines of the constructed shape and in-range arguments, where neither happens.
* `allocate_resources` and `release_resources` take their vector as
  `const std::vector<int>&` and write members between two reads of it, so their argument
  is a reference (`VecRef`) that is read in the current state at each use: it may be a
  separate vector or a member handed out by `get_available()`, `get_allocated()` or
  `get_max_need()`.  The other methods read their vector without writing any member (or
  copy it), and take its entries.
* `double` is modelled by `Rat` (exact arithmetic, no rounding); `exp` of the C library is
  a parameter of everything that calls `sigmoid`.
* A `while` loop carries a fuel argument; running out of fuel is `none`.
* A call either returns or throws: methods that the public interface exposes as state
  changes return `Except Exception _`.
* The file system is a map from file names to contents; the random generator is the
  stream of the values it returns.
-/

namespace Deadlock

/-! ## Vectors and matrices -/

/-- Read `v[i]`. -/
def rd (v : List Int) (i : Nat) : Int := v.getD i 0

/-- Read `m[i][j]`. -/
def rd2 (m : List (List Int)) (i j : Nat) : Int := (m.getD i []).getD j 0

/-- Write `v[i] = x`. -/
def wr (v : List Int) (i : Nat) (x : Int) : List Int := v.set i x

/-- Write `m[i][j] = x`. -/
def wr2 (m : List (List Int)) (i j : Nat) (x : Int) : List (List Int) :=
  m.set i ((m.getD i []).set j x)

/-- Read `v[i]` in a vector of doubles. -/
def rdD (v : List Rat) (i : Nat) : Rat := v.getD i 0

/-- Read `m[i][j]` in a matrix of doubles. -/
def rdD2 (m : List (List Rat)) (i j : Nat) : Rat := (m.getD i []).getD j 0

/-! ## The risk model -/

/-- Fields of `class SimpleNeuralNetwork`. -/
structure SimpleNeuralNetwork where
  weights1 : List (List Rat)
  weights2 : List (List Rat)
  bias1 : List Rat
  bias2 : List Rat

/-- Method `SimpleNeuralNetwork::sigmoid`: `1.0 / (1.0 + exp(-x))`. -/
def sigmoid (exp : Rat → Rat) (x : Rat) : Rat := 1 / (1 + exp (-x))

/-- Hidden unit `i` of `SimpleNeuralNetwork::predict`: the bias plus the weighted
inputs, through `sigmoid`. -/
def hidden_unit (exp : Rat → Rat) (net : SimpleNeuralNetwork) (input : List Rat) (i : Nat) : Rat :=
  sigmoid exp ((List.range input.length).foldl
    (fun h j => h + rdD input j * rdD2 net.weights1 j i) (rdD net.bias1 i))

/-- Method `SimpleNeuralNetwork::predict`. -/
def SimpleNeuralNetwork.predict (exp : Rat → Rat) (net : SimpleNeuralNetwork)
    (input : List Rat) : Rat :=
  let hidden := (List.range net.bias1.length).map (hidden_unit exp net input)
  let output := (List.range hidden.length).foldl
    (fun o i => o + rdD hidden i * rdD2 net.weights2 i 0) (rdD net.bias2 0)
  sigmoid exp output

/-! ## Engine state -/

/-- The `struct TrainingExample`. -/
structure TrainingExample where
  features : List Rat
  led_to_deadlock : Bool

/-- Fields of `class MLAugmentedDeadlockPrevention`.  `rag` maps a process id to its
ordered set of successors (`unordered_map<int, set<int>>`, absent key = empty set). -/
structure Engine where
  num_resources : Nat
  num_processes : Nat
  available : List Int
  allocated : List (List Int)
  max_need : List (List Int)
  risk_model : SimpleNeuralNetwork
  rag : Nat → List Nat
  history : List TrainingExample

/-- The exceptions the source can raise: `unordered_map::at` throws `std::out_of_range`. -/
inductive Exception where
  | out_of_range
  deriving DecidableEq

/-- The shape the constructor gives the state: `available` has `num_resources` entries,
`allocated` and `max_need` have `num_processes` rows of `num_resources` entries. -/
def Engine.Shaped (s : Engine) : Prop :=
  s.available.length = s.num_resources ∧
  s.allocated.length = s.num_processes ∧
  (∀ q < s.num_processes, (s.allocated.getD q []).length = s.num_resources) ∧
  s.max_need.length = s.num_processes ∧
  (∀ q < s.num_processes, (s.max_need.getD q []).length = s.num_resources)

instance (s : Engine) : Decidable s.Shaped := by
  unfold Engine.Shaped; infer_instance

/-! ## allocate / release -/

/-- What a parameter of type `const std::vector<int>&` is bound to at a call: a vector
that is no member of the engine, or one of the members that the getters hand out by
reference: `get_available()`, `get_allocated()[q]`, `get_max_need()[q]`. -/
inductive VecRef where
  | vector (v : List Int)
  | available
  | allocated (q : Nat)
  | max_need (q : Nat)
  deriving DecidableEq

/-- The entries that are read through a reference in the state `s`. -/
def VecRef.deref (ref : VecRef) (s : Engine) : List Int :=
  match ref with
  | VecRef.vector v => v
  | VecRef.available => s.available
  | VecRef.allocated q => s.allocated.getD q []
  | VecRef.max_need q => s.max_need.getD q []

/-- One iteration of the loop of `allocate_resources`:
`available[i] -= resources[i]; allocated[process_id][i] += resources[i];`.
The parameter `resources` is a reference, so each of the two statements reads
`resources[i]` in the state the statement before it left. -/
def allocate_step (process_id : Nat) (resources : VecRef) (s : Engine) (i : Nat) : Engine :=
  let s1 : Engine :=
    { s with available := wr s.available i (rd s.available i - rd (resources.deref s) i) }
  { s1 with
    allocated := wr2 s1.allocated process_id i
      (rd2 s1.allocated process_id i + rd (resources.deref s1) i) }

/-- Method `MLAugmentedDeadlockPrevention::allocate_resources`.  The body has no check and no
`throw`: the call always returns. -/
def allocate_resources (s : Engine) (process_id : Nat) (resources : VecRef) :
    Except Exception Engine :=
  Except.ok ((List.range s.num_resources).foldl (allocate_step process_id resources) s)

/-- One iteration of the loop of `release_resources`:
`available[i] += resources[i]; allocated[process_id][i] -= resources[i];`,
with `resources` read through the reference at each statement. -/
def release_step (process_id : Nat) (resources : VecRef) (s : Engine) (i : Nat) : Engine :=
  let s1 : Engine :=
    { s with available := wr s.available i (rd s.available i + rd (resources.deref s) i) }
  { s1 with
    allocated := wr2 s1.allocated process_id i
      (rd2 s1.allocated process_id i - rd (resources.deref s1) i) }

/-- Method `MLAugmentedDeadlockPrevention::release_resources`.  No check and no `throw`. -/
def release_resources (s : Engine) (process_id : Nat) (resources : VecRef) :
    Except Exception Engine :=
  Except.ok ((List.range s.num_resources).foldl (release_step process_id resources) s)

/-- The iteration of `allocate_step` when the entries behind the reference are not
written by the loop: both statements read the same amount `rd v i`. -/
def allocate_value_step (process_id : Nat) (v : List Int) (s : Engine) (i : Nat) : Engine :=
  { s with
    available := wr s.available i (rd s.available i - rd v i)
    allocated := wr2 s.allocated process_id i (rd2 s.allocated process_id i + rd v i) }

/-- The iteration of `release_step` when the entries behind the reference are not
written by the loop. -/
def release_value_step (process_id : Nat) (v : List Int) (s : Engine) (i : Nat) : Engine :=
  { s with
    available := wr s.available i (rd s.available i + rd v i)
    allocated := wr2 s.allocated process_id i (rd2 s.allocated process_id i - rd v i) }

/-! ## Banker's safe-state test -/

/-- The inner feasibility loop of `can_complete`: `can_allocate` stays true iff no `j`
has `max_need[i][j] - allocated[i][j] > work[j]`. -/
def can_allocate (s : Engine) (allocated : List (List Int)) (work : List Int) (i : Nat) : Bool :=
  (List.range s.num_resources).all
    (fun j => !decide (rd2 s.max_need i j - rd2 allocated i j > rd work j))

/-- Loop `for j: work[j] += allocated[i][j]` of `can_complete`. -/
def reclaim (s : Engine) (allocated : List (List Int)) (work : List Int) (i : Nat) : List Int :=
  (List.range s.num_resources).foldl (fun w j => wr w j (rd w j + rd2 allocated i j)) work

/-- Local variables of `can_complete` that the loops change. -/
structure Scan where
  work : List Int
  finished : List Bool
  count : Nat
  found : Bool

/-- Body of the `for i` loop of `can_complete`. -/
def scan_step (s : Engine) (allocated : List (List Int)) (st : Scan) (i : Nat) : Scan :=
  if !st.finished.getD i false then
    if can_allocate s allocated st.work i then
      { work := reclaim s allocated st.work i
        finished := st.finished.set i true
        count := st.count + 1
        found := true }
    else st
  else st

/-- One iteration of the `while` body up to the `break` test: `found = false`, then the
`for i` loop over all processes. -/
def scan_pass (s : Engine) (allocated : List (List Int)) (st : Scan) : Scan :=
  (List.range s.num_processes).foldl (scan_step s allocated) { st with found := false }

/-- The `while(count < num_processes)` loop of `can_complete`, with fuel. -/
def scan_loop (s : Engine) (allocated : List (List Int)) : Nat → Scan → Option Scan
  | fuel, st =>
    if st.count < s.num_processes then
      match fuel with
      | 0 => none
      | fuel + 1 =>
        let st1 := scan_pass s allocated st
        if !st1.found then some st1 else scan_loop s allocated fuel st1
    else some st

/-- Method `MLAugmentedDeadlockPrevention::can_complete`.  Every pass that does not `break`
raises `count`, so `num_processes` passes are enough fuel. -/
def can_complete (s : Engine) (_process_id : Nat) (work : List Int)
    (allocated : List (List Int)) : Option Bool :=
  (scan_loop s allocated s.num_processes
    { work := work, finished := List.replicate s.num_processes false, count := 0, found := false }).map
    (fun st => decide (st.count = s.num_processes))

/-- The "simulate allocation" loop of `is_safe_state` over the remaining indices;
`none` is the early `return false`. -/
def simulate_allocation (process_id : Nat) (requested : List Int) :
    List Nat → List Int × List (List Int) → Option (List Int × List (List Int))
  | [], st => some st
  | i :: rest, (work, temp_allocated) =>
    if rd requested i > rd work i then none
    else simulate_allocation process_id requested rest
      (wr work i (rd work i - rd requested i),
       wr2 temp_allocated process_id i (rd2 temp_allocated process_id i + rd requested i))

/-- Method `MLAugmentedDeadlockPrevention::is_safe_state`. -/
def is_safe_state (s : Engine) (process_id : Nat) (requested : List Int) : Option Bool :=
  match simulate_allocation process_id requested (List.range s.num_resources)
      (s.available, s.allocated) with
  | none => some false
  | some (work, temp_allocated) => can_complete s process_id work temp_allocated

/-! ## Risk prediction and the Banker decision -/

/-- The feature vector of `predict_deadlock_risk`: every row of `allocated`, then
`available`, converted to doubles. -/
def features (s : Engine) : List Rat :=
  (s.allocated.foldl
      (fun f (proc_alloc : List Int) => f ++ proc_alloc.map (fun (x : Int) => (x : Rat))) []) ++
    s.available.map (fun (x : Int) => (x : Rat))

/-- Method `MLAugmentedDeadlockPrevention::predict_deadlock_risk` (the printing is dropped). -/
def predict_deadlock_risk (exp : Rat → Rat) (s : Engine) (_process_id : Nat)
    (_requested_resources : List Int) : Rat :=
  s.risk_model.predict exp (features s)

/-- Method `MLAugmentedDeadlockPrevention::ml_augmented_bankers_check`. -/
def ml_augmented_bankers_check (exp : Rat → Rat) (s : Engine) (process_id : Nat)
    (requested_resources : List Int) : Option Bool :=
  match is_safe_state s process_id requested_resources with
  | none => none
  | some traditional_safe =>
    let risk := predict_deadlock_risk exp s process_id requested_resources
    some (traditional_safe && decide (risk < 1 / 2))

/-! ## Wait-for graph -/

/-- The `std::set<int>::insert` on the ascending list of the elements. -/
def set_insert (x : Nat) : List Nat → List Nat
  | [] => [x]
  | y :: ys =>
    if x < y then x :: y :: ys
    else if x = y then y :: ys
    else y :: set_insert x ys

/-- Method `MLAugmentedDeadlockPrevention::update_rag`: `rag[process_id].insert(resource_id)`. -/
def update_rag (s : Engine) (process_id resource_id : Nat) : Engine :=
  { s with rag := fun n => if n = process_id then set_insert resource_id (s.rag n) else s.rag n }

/-- Variables captured by reference in the `dfs` lambda of `detect_cycles`. -/
structure Dfs where
  visited : List Bool
  path : List Nat
  cycles : List (List Nat)

/-- The `else` branch of the edge loop: the suffix of `path` from the first occurrence
of `next` (`std::find`), pushed onto `cycles` when it is not empty. -/
def record_cycle (st : Dfs) (next : Nat) : Dfs :=
  let cycle := st.path.dropWhile (fun v => v != next)
  if !cycle.isEmpty then { st with cycles := st.cycles ++ [cycle] } else st

/-- Body of `for(int next : rag[node])`, given the recursive call. -/
def dfs_edge (call : Nat → Dfs → Option Dfs) (acc : Option Dfs) (next : Nat) : Option Dfs :=
  match acc with
  | none => none
  | some st =>
    if !st.visited.getD next false then call next st
    else some (record_cycle st next)

/-- The recursive lambda `dfs` of `detect_cycles`; the fuel bounds the recursion depth. -/
def dfs (rag : Nat → List Nat) : Nat → Nat → Dfs → Option Dfs
  | 0, _, _ => none
  | fuel + 1, node, st =>
    let st1 : Dfs := { st with visited := st.visited.set node true, path := st.path ++ [node] }
    match (rag node).foldl (dfs_edge (fun next st2 => dfs rag fuel next st2)) (some st1) with
    | none => none
    | some st3 =>
      some { st3 with path := st3.path.dropLast, visited := st3.visited.set node false }

/-- Body of the root loop `for i: if(!visited[i]) dfs(i)`. -/
def dfs_root (s : Engine) (acc : Option Dfs) (i : Nat) : Option Dfs :=
  match acc with
  | none => none
  | some st => if !st.visited.getD i false then dfs s.rag s.num_processes i st else some st

/-- Method `MLAugmentedDeadlockPrevention::detect_cycles`.  A path never repeats a vertex, so
the recursion is at most `num_processes` deep. -/
def detect_cycles (s : Engine) : Option (List (List Nat)) :=
  ((List.range s.num_processes).foldl (dfs_root s)
    (some { visited := List.replicate s.num_processes false, path := [], cycles := [] })).map
    (fun st => st.cycles)

/-- The engine of `main`: 3 resources, 5 processes, available (10,5,7). -/
def main_engine (net : SimpleNeuralNetwork) : Engine where
  num_resources := 3
  num_processes := 5
  available := [10, 5, 7]
  allocated := List.replicate 5 [0, 0, 0]
  max_need := [[7, 5, 3], [3, 2, 2], [9, 0, 2], [2, 2, 2], [4, 3, 3]]
  risk_model := net
  rag := fun _ => []
  history := []

/-- A network with no weights. -/
def empty_net : SimpleNeuralNetwork := ⟨[], [], [], []⟩

/-! ## Calls of the public interface, in sequence -/

/-- A call of `allocate_resources` or `release_resources`. -/
inductive Call where
  | allocate (process_id : Nat) (resources : VecRef)
  | release (process_id : Nat) (resources : VecRef)

/-- The process id a call names. -/
def Call.process_id : Call → Nat
  | .allocate p _ => p
  | .release p _ => p

/-- The vector argument of a call. -/
def Call.resources : Call → VecRef
  | .allocate _ v => v
  | .release _ v => v

/-- Perform one call. -/
def Call.run (s : Engine) : Call → Except Exception Engine
  | .allocate p v => allocate_resources s p v
  | .release p v => release_resources s p v

/-- Perform calls one after the other; an exception ends the sequence. -/
def run_calls (s : Engine) : List Call → Except Exception Engine
  | [] => Except.ok s
  | c :: rest =>
    match c.run s with
    | Except.ok s1 => run_calls s1 rest
    | Except.error e => Except.error e

/-- The total inventory of resource `r`: `available[r]` plus column `r` of `allocated`
summed over the processes. -/
def inventory (s : Engine) (r : Nat) : Int :=
  rd s.available r + ((List.range s.num_processes).map (fun q => rd2 s.allocated q r)).sum

/-- The invariant `0 <= allocation[q][r] <= max_need[q][r]` for all `(q, r)`. -/
def WithinMaxNeed (s : Engine) : Prop :=
  ∀ q < s.num_processes, ∀ r < s.num_resources,
    0 ≤ rd2 s.allocated q r ∧ rd2 s.allocated q r ≤ rd2 s.max_need q r

instance (s : Engine) : Decidable (WithinMaxNeed s) := by
  unfold WithinMaxNeed; infer_instance

/-- A network for two inputs and ten hidden units, all weights zero, output bias `-1`. -/
def unit_net : SimpleNeuralNetwork where
  weights1 := List.replicate 2 (List.replicate 10 0)
  weights2 := List.replicate 10 [0]
  bias1 := List.replicate 10 0
  bias2 := [-1]

/-- An engine with one resource and one process. -/
def unit_engine (avail alloc need : Int) : Engine where
  num_resources := 1
  num_processes := 1
  available := [avail]
  allocated := [[alloc]]
  max_need := [[need]]
  risk_model := unit_net
  rag := fun _ => []
  history := []

/-! ## Safe orderings -/

/-- Free units after the simulated grant: `W = available - req`. -/
def grant_work (s : Engine) (req : List Int) (r : Nat) : Int := rd s.available r - rd req r

/-- Holdings after the simulated grant: `allocation` with `req` added to row `p`. -/
def grant_alloc (s : Engine) (p : Nat) (req : List Int) (q r : Nat) : Int :=
  if q = p then rd2 s.allocated q r + rd req r else rd2 s.allocated q r

/-- Each process of `order`, in turn, can be satisfied: wherever `order` splits as
`earlier ++ q :: later`, for every resource `r < R` the remaining need
`need q r - A q r` is at most `W r` plus the holdings `A e r` of the processes `e`
earlier in the ordering. -/
def SafeOrder (R : Nat) (need A : Nat → Nat → Int) (W : Nat → Int) (order : List Nat) : Prop :=
  ∀ earlier q later, order = earlier ++ q :: later →
    ∀ r < R, need q r - A q r ≤ W r + (earlier.map (fun e => A e r)).sum

/-- The state after granting `req` to `p` is safe: some ordering of all `P` processes
is a safe order for `max_need`, the holdings after the grant and the free units after
the grant. -/
def SafeAfterGrant (s : Engine) (p : Nat) (req : List Int) : Prop :=
  ∃ order : List Nat, order.Perm (List.range s.num_processes) ∧
    SafeOrder s.num_resources (rd2 s.max_need) (grant_alloc s p req) (grant_work s req) order

/-- What the scan of `can_complete` maintains: `order` lists the finished processes in
the order they finished. -/
def ScanInv (s : Engine) (A : List (List Int)) (W0 : List Int) (st : Scan)
    (order : List Nat) : Prop :=
  order.Nodup ∧ (∀ q, q ∈ order ↔ st.finished.getD q false = true) ∧
  st.count = order.length ∧ st.finished.length = s.num_processes ∧
  st.work.length = s.num_resources ∧
  (∀ r < s.num_resources, rd st.work r = rd W0 r + (order.map (fun q => rd2 A q r)).sum) ∧
  SafeOrder s.num_resources (rd2 s.max_need) (rd2 A) (rd W0) order

/-! ## Cycles of the wait-for graph -/

/-- The wait-for graph has the edge `a -> b`. -/
def Edge (rag : Nat → List Nat) (a b : Nat) : Prop := b ∈ rag a

/-- The graph has a directed cycle: some vertex reaches itself along one edge or more
(a self-loop is a cycle of length 1). -/
def HasCycle (rag : Nat → List Nat) : Prop := ∃ v, Relation.TransGen (Edge rag) v v

/-- Both endpoints of every edge lie in `[0,P)`. -/
def EdgesInRange (rag : Nat → List Nat) (P : Nat) : Prop :=
  ∀ a b, b ∈ rag a → a < P ∧ b < P

/-- What holds of the captured variables between two steps of `dfs`: `visited` has `P`
entries and flags exactly the vertices of `path`, which has no repetition. -/
def PathInv (P : Nat) (st : Dfs) : Prop :=
  st.visited.length = P ∧ st.path.Nodup ∧ ∀ q, st.visited.getD q false = true ↔ q ∈ st.path

/-- The cycles one edge `node -> next` contributes, `path1` being the path up to and
including `node`. -/
def edge_cycles (call : Nat → List (List Nat)) (path1 : List Nat) (next : Nat) :
    List (List Nat) :=
  if next ∈ path1 then [path1.dropWhile (fun v => v != next)] else call next

/-- The cycles a call `dfs(node)` pushes, as a function of the path on entry. -/
def emitted (rag : Nat → List Nat) : Nat → Nat → List Nat → List (List Nat)
  | 0, _, _ => []
  | fuel + 1, node, path =>
    (rag node).flatMap
      (edge_cycles (fun next => emitted rag fuel next (path ++ [node])) (path ++ [node]))

/-- The engine of `main` after `update_rag(0, 1)`, `update_rag(1, 2)`, `update_rag(2, 0)`. -/
def ring_engine : Engine :=
  update_rag (update_rag (update_rag (main_engine empty_net) 0 1) 1 2) 2 0

/-! ## Calls that hand the engine state back -/

/-- State-passing reading of `SimpleNeuralNetwork::predict`: the body assigns only to its
locals `hidden` and `output`, so the network comes back as it went in. -/
def SimpleNeuralNetwork.predict_call (exp : Rat → Rat) (net : SimpleNeuralNetwork)
    (input : List Rat) : Rat × SimpleNeuralNetwork :=
  (net.predict exp input, net)

/-- State-passing reading of `predict_deadlock_risk`: the local `features` is built from
`allocated` and `available`, `risk_model.predict` is called on it, and the prediction is
returned together with the engine. -/
def predict_deadlock_risk_call (exp : Rat → Rat) (s : Engine) (_process_id : Nat)
    (_requested_resources : List Int) : Rat × Engine :=
  let r := s.risk_model.predict_call exp (features s)
  (r.1, { s with risk_model := r.2 })

/-! ## Wait-Die -/

/-- The call `timestamp.at(id)` on the `unordered_map<int, double>`, read as a partial
function on ids: the mapped value, or `std::out_of_range` when the key is absent. -/
def timestamp_at (timestamp : Nat → Option Rat) (id : Nat) : Except Exception Rat :=
  match timestamp id with
  | some t => Except.ok t
  | none => Except.error Exception.out_of_range

/-- Method `MLAugmentedDeadlockPrevention::ml_augmented_wait_die`: what the call gives
(a boolean, or the exception that leaves it) and the engine state after it. -/
def ml_augmented_wait_die (exp : Rat → Rat) (s : Engine)
    (requesting_process holding_process : Nat) (timestamp : Nat → Option Rat) :
    Except Exception Bool × Engine :=
  match timestamp_at timestamp requesting_process with
  | Except.error e => (Except.error e, s)
  | Except.ok t_requesting =>
    match timestamp_at timestamp holding_process with
    | Except.error e => (Except.error e, s)
    | Except.ok t_holding =>
      let should_wait := decide (t_requesting < t_holding)
      let dummy_request : List Int := List.replicate s.num_resources 1
      let r := predict_deadlock_risk_call exp s requesting_process dummy_request
      (Except.ok (should_wait && decide (r.1 < 7 / 10)), r.2)

/-- The timestamps `0:0.0, 1:1.0, 2:2.0` of concrete scenario 4. -/
def scenario_timestamps : Nat → Option Rat :=
  fun i => if i < 3 then some (i : Rat) else none

/-! ## Training the risk model -/

/-- Write `v[i] = x` in a vector of doubles. -/
def wrD (v : List Rat) (i : Nat) (x : Rat) : List Rat := v.set i x

/-- Write `m[i][j] = x` in a matrix of doubles. -/
def wrD2 (m : List (List Rat)) (i j : Nat) (x : Rat) : List (List Rat) :=
  m.set i ((m.getD i []).set j x)

/-- Body of the sample loop of `SimpleNeuralNetwork::train`: forward pass, then the update
of the output layer, then the update of the hidden layer (which reads the `weights2`
already updated). -/
def train_sample (exp : Rat → Rat) (net : SimpleNeuralNetwork) (input : List Rat)
    (target : Rat) : SimpleNeuralNetwork :=
  let learning_rate : Rat := 1 / 10
  let hidden := (List.range net.bias1.length).map (hidden_unit exp net input)
  let output := sigmoid exp ((List.range hidden.length).foldl
    (fun o i => o + rdD hidden i * rdD2 net.weights2 i 0) (rdD net.bias2 0))
  let output_error := output - target
  let output_delta := output_error * output * (1 - output)
  let net1 : SimpleNeuralNetwork :=
    { net with
      bias2 := wrD net.bias2 0 (rdD net.bias2 0 - learning_rate * output_delta)
      weights2 := (List.range hidden.length).foldl
        (fun w i => wrD2 w i 0 (rdD2 w i 0 - learning_rate * output_delta * rdD hidden i))
        net.weights2 }
  (List.range hidden.length).foldl
    (fun n i =>
      let hidden_error := rdD2 n.weights2 i 0 * output_delta
      let hidden_delta := hidden_error * rdD hidden i * (1 - rdD hidden i)
      { n with
        bias1 := wrD n.bias1 i (rdD n.bias1 i - learning_rate * hidden_delta)
        weights1 := (List.range input.length).foldl
          (fun w j => wrD2 w j i (rdD2 w j i - learning_rate * hidden_delta * rdD input j))
          n.weights1 })
    net1

/-- Method `SimpleNeuralNetwork::train`: one update per sample, in order. -/
def SimpleNeuralNetwork.train (exp : Rat → Rat) (net : SimpleNeuralNetwork)
    (X : List (List Rat)) (y : List Rat) : SimpleNeuralNetwork :=
  (List.range X.length).foldl
    (fun n sample => train_sample exp n (X.getD sample []) (rdD y sample)) net

/-- Method `MLAugmentedDeadlockPrevention::add_training_example`. -/
def add_training_example (s : Engine) (features : List Rat) (led_to_deadlock : Bool) : Engine :=
  { s with history := s.history ++ [{ features := features, led_to_deadlock := led_to_deadlock }] }

/-- Method `MLAugmentedDeadlockPrevention::train_risk_model`. -/
def train_risk_model (exp : Rat → Rat) (s : Engine) : Engine :=
  if s.history.isEmpty then s
  else
    let X := s.history.map (fun ex => ex.features)
    let y := s.history.map (fun ex => if ex.led_to_deadlock then (1 : Rat) else 0)
    { s with risk_model := s.risk_model.train exp X y }

/-! ## Construction and the setters -/

/-- The constructor `MLAugmentedDeadlockPrevention(num_res, num_proc)`: zeroed vectors
and matrices of the given sizes.  The weights of the risk model are drawn at random in
the source and are a parameter here. -/
def construct (num_res num_proc : Nat) (risk_model : SimpleNeuralNetwork) : Engine where
  num_resources := num_res
  num_processes := num_proc
  available := List.replicate num_res 0
  allocated := List.replicate num_proc (List.replicate num_res 0)
  max_need := List.replicate num_proc (List.replicate num_res 0)
  risk_model := risk_model
  rag := fun _ => []
  history := []

/-- Setter `set_available`: `available = resources`. -/
def set_available (s : Engine) (resources : List Int) : Engine :=
  { s with available := resources }

/-- Setter `set_max_need`: `max_need = need`. -/
def set_max_need (s : Engine) (need : List (List Int)) : Engine :=
  { s with max_need := need }

/-- A call of one of the public operations that change the engine. -/
inductive Op where
  | set_available (resources : List Int)
  | set_max_need (need : List (List Int))
  | allocate_resources (process_id : Nat) (resources : VecRef)
  | release_resources (process_id : Nat) (resources : VecRef)
  | update_rag (process_id resource_id : Nat)
  | add_training_example (features : List Rat) (led_to_deadlock : Bool)
  | train_risk_model

/-- Perform one public operation. -/
def Op.run (exp : Rat → Rat) (s : Engine) : Op → Except Exception Engine
  | Op.set_available v => Except.ok (Deadlock.set_available s v)
  | Op.set_max_need m => Except.ok (Deadlock.set_max_need s m)
  | Op.allocate_resources p v => Deadlock.allocate_resources s p v
  | Op.release_resources p v => Deadlock.release_resources s p v
  | Op.update_rag p q => Except.ok (Deadlock.update_rag s p q)
  | Op.add_training_example f b => Except.ok (Deadlock.add_training_example s f b)
  | Op.train_risk_model => Except.ok (Deadlock.train_risk_model exp s)

/-- Perform public operations one after the other; an exception ends the sequence. -/
def run_ops (exp : Rat → Rat) (s : Engine) : List Op → Except Exception Engine
  | [] => Except.ok s
  | op :: rest =>
    match op.run exp s with
    | Except.ok s1 => run_ops exp s1 rest
    | Except.error e => Except.error e

/-- A vector argument has `R` entries in every state these calls reach: a vector of `R`
entries that is no member of the engine, the engine's own `available`, or row `q < P` of
its allocation.  (A row of `max_need` has the length `set_max_need` gave it.) -/
def VecRef.WellFormed (R P : Nat) : VecRef → Prop
  | VecRef.vector v => v.length = R
  | VecRef.available => True
  | VecRef.allocated q => q < P
  | VecRef.max_need _ => False

/-- A call is well-formed for an engine of `R` resources and `P` processes when it stays
inside what the source defines: `set_available` passes `R` entries, `allocate_resources`
and `release_resources` name a process in `[0,P)` and pass `R` entries, and every
training example has `R * P + R` features. -/
def Op.WellFormed (R P : Nat) : Op → Prop
  | Op.set_available v => v.length = R
  | Op.set_max_need _ => True
  | Op.allocate_resources p v => p < P ∧ v.WellFormed R P
  | Op.release_resources p v => p < P ∧ v.WellFormed R P
  | Op.update_rag _ _ => True
  | Op.add_training_example f _ => f.length = R * P + R
  | Op.train_risk_model => True

/-- The row-major concatenation of rows `0 .. P-1` of `allocated`, then `available`. -/
def row_major_features (s : Engine) : List Rat :=
  (List.range s.num_processes).flatMap
      (fun q => (s.allocated.getD q []).map (fun (x : Int) => (x : Rat))) ++
    s.available.map (fun (x : Int) => (x : Rat))

/-- A network for `inputs` inputs and ten hidden units with all weights and biases zero. -/
def zero_net (inputs : Nat) : SimpleNeuralNetwork where
  weights1 := List.replicate inputs (List.replicate 10 0)
  weights2 := List.replicate 10 [0]
  bias1 := List.replicate 10 0
  bias2 := [0]

/-! ## Saving and loading the model -/

/-- The files a run can see: the bytes of each file by name, `none` for a file that
does not exist. -/
abbrev Files : Type := String → Option (List Nat)

/-- Method `MLAugmentedDeadlockPrevention::save_model`: the output stream is opened, which
creates the file or empties it, and closed again; the body between is a placeholder
comment and writes no parameter.  (If the file cannot be opened nothing happens at all.) -/
def save_model (s : Engine) (files : Files) (filename : String) : Engine × Files :=
  (s, fun f => if f = filename then some [] else files f)

/-- Method `MLAugmentedDeadlockPrevention::load_model`: the input stream is opened and,
if that worked, closed again; nothing is read and no member is assigned. -/
def load_model (s : Engine) (files : Files) (filename : String) : Engine :=
  match files filename with
  | some _ => s
  | none => s

/-! ## The scenario driver (deadlock_trainer.cpp) -/

/-- The generator `std::mt19937 rng`: the stream of values it will return, and how many
of them have been drawn. -/
structure Rng where
  draws : Nat → Nat
  pos : Nat

/-- One call `rng()`. -/
def Rng.next (g : Rng) : Nat × Rng := (g.draws g.pos, { g with pos := g.pos + 1 })

/-- Method `DeadlockTrainer::generate_random_request`: one entry `rng() % (max_resources + 1)`
for each entry of `available`. -/
def generate_random_request (s : Engine) (max_resources : Nat) (g : Rng) : List Int × Rng :=
  (List.range s.available.length).foldl
    (fun (acc : List Int × Rng) _ =>
      let d := acc.2.next
      (acc.1 ++ [((d.1 % (max_resources + 1) : Nat) : Int)], d.2))
    ([], g)

/-- Body of the `for` loop of `simulate_scenario`; `none` is a loop of the engine that
ran out of fuel, `error` an exception passing through. -/
def scenario_step (exp : Rat → Rat) (num_processes : Nat)
    (acc : Option (Except Exception (Engine × Rng))) (_i : Nat) :
    Option (Except Exception (Engine × Rng)) :=
  match acc with
  | none => none
  | some (Except.error e) => some (Except.error e)
  | some (Except.ok (s, g)) =>
    let d := g.next
    let process_id := d.1 % num_processes
    let request := generate_random_request s 5 d.2
    match ml_augmented_bankers_check exp s process_id request.1 with
    | none => none
    | some was_safe =>
      match (if was_safe then allocate_resources s process_id (VecRef.vector request.1)
          else Except.ok s) with
      | Except.error e => some (Except.error e)
      | Except.ok s1 =>
        let d2 := request.2.next
        if d2.1 % 2 = 0 then
          let release := generate_random_request s1 3 d2.2
          match release_resources s1 process_id (VecRef.vector release.1) with
          | Except.error e => some (Except.error e)
          | Except.ok s2 => some (Except.ok (s2, release.2))
        else some (Except.ok (s1, d2.2))

/-- Method `DeadlockTrainer::simulate_scenario`: the label, the engine and the generator
after the scenario. -/
def simulate_scenario (exp : Rat → Rat) (s : Engine) (g : Rng) :
    Option (Except Exception (Bool × Engine × Rng)) :=
  let num_processes := s.allocated.length
  match (List.range num_processes).foldl (scenario_step exp num_processes)
      (some (Except.ok (s, g))) with
  | none => none
  | some (Except.error e) => some (Except.error e)
  | some (Except.ok (s1, g1)) =>
    match detect_cycles s1 with
    | none => none
    | some cycles => some (Except.ok (!cycles.isEmpty, s1, g1))

/-- Body of the probe loop of `calculate_accuracy`. -/
def accuracy_probe (exp : Rat → Rat) (s : Engine) (acc : Option (Nat × Rng)) (_i : Nat) :
    Option (Nat × Rng) :=
  match acc with
  | none => none
  | some (correct_predictions, g) =>
    let d := g.next
    let process_id := d.1 % s.allocated.length
    let test_request := generate_random_request s 5 d.2
    match ml_augmented_bankers_check exp s process_id test_request.1 with
    | none => none
    | some bankers_safe =>
      let predicted_risk := predict_deadlock_risk exp s process_id test_request.1
      let ml_safe := decide (predicted_risk < 1 / 2)
      some (if ml_safe = bankers_safe then correct_predictions + 1 else correct_predictions,
        test_request.2)

/-- Method `DeadlockTrainer::calculate_accuracy`: `(correct_predictions * 100.0) / 100`,
and the generator after the 100 probes. -/
def calculate_accuracy (exp : Rat → Rat) (s : Engine) (g : Rng) : Option (Rat × Rng) :=
  match (List.range 100).foldl (accuracy_probe exp s) (some (0, g)) with
  | none => none
  | some (correct_predictions, g1) => some ((correct_predictions : Rat) * 100 / 100, g1)

/-- A call the loop of `train_continuously` makes. -/
inductive TrainerCall where
  | save_checkpoint (scenarios_count : Nat) (file : String)
  | train_risk_model
  deriving DecidableEq

/-- The constant `CHECKPOINT_INTERVAL`. -/
def CHECKPOINT_INTERVAL : Nat := 10000

/-- What the loop of `train_continuously` works on: the engine, the generator, the files,
the local `scenarios_count`, and (for stating the cadence) the list of the calls of
`save_checkpoint` and `train_risk_model` the loop has made. -/
structure Trainer where
  prevention : Engine
  rng : Rng
  files : Files
  scenarios_count : Nat
  loop_calls : List TrainerCall

/-- The file name `save_checkpoint` builds:
`"model_checkpoint_" + std::to_string(scenarios_count) + ".dat"`. -/
def checkpoint_file (scenarios_count : Nat) : String :=
  ("model_checkpoint_" ++ Nat.repr scenarios_count) ++ ".dat"

/-- Method `DeadlockTrainer::save_checkpoint`. -/
def save_checkpoint (t : Trainer) (scenarios_count : Nat) : Trainer :=
  let r := save_model t.prevention t.files (checkpoint_file scenarios_count)
  { t with
    prevention := r.1
    files := r.2
    loop_calls := t.loop_calls ++
      [TrainerCall.save_checkpoint scenarios_count (checkpoint_file scenarios_count)] }

/-- Body of the `while(g_running)` loop of `train_continuously`.  The source has no
statement that changes `scenarios_count`. -/
def train_iteration (exp : Rat → Rat) (t : Trainer) : Option (Except Exception Trainer) :=
  let features := features t.prevention
  match simulate_scenario exp t.prevention t.rng with
  | none => none
  | some (Except.error e) => some (Except.error e)
  | some (Except.ok (led_to_deadlock, s1, g1)) =>
    let t1 : Trainer :=
      { t with prevention := add_training_example s1 features led_to_deadlock, rng := g1 }
    let t2 : Trainer :=
      if t1.scenarios_count % CHECKPOINT_INTERVAL = 0 then save_checkpoint t1 t1.scenarios_count
      else t1
    if t2.scenarios_count % 1000 = 0 then
      let s3 := train_risk_model exp t2.prevention
      match calculate_accuracy exp s3 t2.rng with
      | none => none
      | some (_, g2) =>
        some (Except.ok { t2 with
          prevention := s3
          rng := g2
          loop_calls := t2.loop_calls ++ [TrainerCall.train_risk_model] })
    else some (Except.ok t2)

/-- The loop of `train_continuously`, for the number of iterations it runs before the
stop flag is seen at the loop head. -/
def train_loop (exp : Rat → Rat) : Nat → Trainer → Option (Except Exception Trainer)
  | 0, t => some (Except.ok t)
  | n + 1, t =>
    match train_iteration exp t with
    | none => none
    | some (Except.error e) => some (Except.error e)
    | some (Except.ok t1) => train_loop exp n t1

/-- The file name of the final save. -/
def final_model_file : String := "final_model.dat"

/-- Method `DeadlockTrainer::train_continuously`: `scenarios_count = 0`, the loop, then
the final `train_risk_model` and `save_model`. -/
def train_continuously (exp : Rat → Rat) (prevention : Engine) (rng : Rng) (files : Files)
    (iterations : Nat) : Option (Except Exception Trainer) :=
  match train_loop exp iterations
      { prevention := prevention, rng := rng, files := files, scenarios_count := 0,
        loop_calls := [] } with
  | none => none
  | some (Except.error e) => some (Except.error e)
  | some (Except.ok t) =>
    let r := save_model (train_risk_model exp t.prevention) t.files final_model_file
    some (Except.ok { t with prevention := r.1, files := r.2 })

/-- The trainer of `train_main` at the start of the loop, with a zero network, a generator
that returns 0 and no files. -/
def train_main_trainer : Trainer where
  prevention := main_engine (zero_net 18)
  rng := { draws := fun _ => 0, pos := 0 }
  files := fun _ => none
  scenarios_count := 0
  loop_calls := []

/-- The calls `n` iterations make when each of them checkpoints to
`model_checkpoint_0.dat` and trains. -/
def stuck_calls : Nat → List TrainerCall
  | 0 => []
  | n + 1 =>
    [TrainerCall.save_checkpoint 0 "model_checkpoint_0.dat", TrainerCall.train_risk_model] ++
      stuck_calls n

/-- The part of the constructed shape the feature vector depends on: `available` has
`num_resources` entries and `allocated` has `num_processes` rows of `num_resources`
entries. -/
def FeatureShaped (s : Engine) : Prop :=
  s.available.length = s.num_resources ∧
  s.allocated.length = s.num_processes ∧
  ∀ q < s.num_processes, (s.allocated.getD q []).length = s.num_resources

/-! ## Statements about the safe-state call and the reported cycles -/

/-- State-passing reading of `is_safe_state`: `work` and `temp_allocated` are local
copies, `can_complete` changes only that `work`, and no member is assigned, so the
engine comes back as it went in. -/
def is_safe_state_call (s : Engine) (process_id : Nat) (requested : List Int) :
    Option Bool × Engine :=
  (is_safe_state s process_id requested, s)

/-- The sequence `c` is a cycle of the graph: it is not empty, its vertices are pairwise
distinct, consecutive vertices are joined by an edge, and an edge leads from the last
vertex back to the first. -/
def GenuineCycle (rag : Nat → List Nat) (c : List Nat) : Prop :=
  c ≠ [] ∧ c.Nodup ∧ List.Chain' (Edge rag) c ∧
    ∀ a ∈ c.getLast?, ∀ b ∈ c.head?, Edge rag a b

/-! ## The probes of calculate_accuracy -/

/-- The probe `(process_id, test_request)` one pass of the probe loop of
`calculate_accuracy` draws, and the generator after it. -/
def draw_probe (s : Engine) (g : Rng) : (Nat × List Int) × Rng :=
  let d := g.next
  let test_request := generate_random_request s 5 d.2
  ((d.1 % s.allocated.length, test_request.1), test_request.2)

/-- The first `n` probes drawn from the generator `g`. -/
def generated_probes (s : Engine) : Nat → Rng → List (Nat × List Int)
  | 0, _ => []
  | n + 1, g => (draw_probe s g).1 :: generated_probes s n (draw_probe s g).2

/-- Agreement as the accuracy claim counts it: the Banker predicate `is_safe_state` equals
the thresholded risk verdict `risk < 0.5`. -/
def banker_agrees (exp : Rat → Rat) (s : Engine) (probe : Nat × List Int) : Bool :=
  decide (is_safe_state s probe.1 probe.2 =
    some (decide (predict_deadlock_risk exp s probe.1 probe.2 < 1 / 2)))

/-- Agreement as the source counts it: `ml_augmented_bankers_check`, which is itself
`is_safe_state && risk < 0.5`, equals the thresholded risk verdict. -/
def policy_agrees (exp : Rat → Rat) (s : Engine) (probe : Nat × List Int) : Bool :=
  decide (ml_augmented_bankers_check exp s probe.1 probe.2 =
    some (decide (predict_deadlock_risk exp s probe.1 probe.2 < 1 / 2)))

/-- A generator that returns 0 at every call. -/
def zero_rng : Rng where
  draws := fun _ => 0
  pos := 0

/-! ## The safe-state procedure as the specification words it -/

/-- Step 2 of the specified procedure: for each `r`, if `req[r] > W[r]` return false
(`none`), else `W[r] -= req[r]` and `A[p][r] += req[r]`. -/
def spec_grant (p : Nat) (req : List Int) :
    List Nat → List Int × List (List Int) → Option (List Int × List (List Int))
  | [], WA => some WA
  | r :: rest, (W, A) =>
    if rd req r > rd W r then none
    else spec_grant p req rest (wr W r (rd W r - rd req r), wr2 A p r (rd2 A p r + rd req r))

/-- The test of step 3: for every `r`, `max_need[q][r] - A[q][r] <= W[r]`. -/
def spec_feasible (s : Engine) (A : List (List Int)) (W : List Int) (q : Nat) : Bool :=
  (List.range s.num_resources).all (fun r => decide (rd2 s.max_need q r - rd2 A q r ≤ rd W r))

/-- One scan of step 3: the first unfinished process, in ascending id order, that passes
the test. -/
def spec_first_feasible (s : Engine) (A : List (List Int)) (W : List Int)
    (finished : List Bool) : Option Nat :=
  (List.range s.num_processes).find?
    (fun q => !finished.getD q false && spec_feasible s A W q)

/-- Step 3, "add `A[q][*]` back to `W`". -/
def spec_add_row (s : Engine) (A : List (List Int)) (W : List Int) (q : Nat) : List Int :=
  (List.range s.num_resources).map (fun r => rd W r + rd2 A q r)

/-- Step 3 of the specified procedure: scan; if a process is found, add its row back,
mark it finished and restart the scan; if a full scan finds nothing, terminate.  The
fuel counts scans. -/
def spec_scan (s : Engine) (A : List (List Int)) : Nat → List Int → List Bool →
    Option (List Bool)
  | 0, _, _ => none
  | fuel + 1, W, finished =>
    match spec_first_feasible s A W finished with
    | none => some finished
    | some q => spec_scan s A fuel (spec_add_row s A W q) (finished.set q true)

/-- The specified procedure `is_safe(p, req)` of section 4.3.1: copy, simulate the grant,
run the restarting scan (at most `P` processes finish, so `P + 1` scans suffice), and
return true iff every process is finished. -/
def spec_is_safe (s : Engine) (p : Nat) (req : List Int) : Option Bool :=
  match spec_grant p req (List.range s.num_resources) (s.available, s.allocated) with
  | none => some false
  | some (W, A) =>
    (spec_scan s A (s.num_processes + 1) W (List.replicate s.num_processes false)).map
      (fun finished => (List.range s.num_processes).all (fun q => finished.getD q false))

/-- An engine state with a negative holding, as `release_resources` can leave it:
one resource, three processes, `available = (0)`, allocation `(-5)`, `(1)`, `(0)`,
`max_need` `(-4)`, `(1)`, `(1)`. -/
def negative_holding_engine : Engine where
  num_resources := 1
  num_processes := 3
  available := [0]
  allocated := [[-5], [1], [0]]
  max_need := [[-4], [1], [1]]
  risk_model := zero_net 4
  rag := fun _ => []
  history := []

/-! ## The search with its calls recorded -/

/-- The captured variables of `dfs` together with a record of the calls made so far: for
each call `dfs(node)`, the node and the path on entry.  The record is not in the source;
it is kept to state where the recursion goes. -/
structure DfsTrace where
  st : Dfs
  calls : List (Nat × List Nat)

/-- The edge-loop body `dfs_edge` on recorded states. -/
def dfs_edge_traced (call : Nat → DfsTrace → Option DfsTrace) (acc : Option DfsTrace)
    (next : Nat) : Option DfsTrace :=
  match acc with
  | none => none
  | some t =>
    if !t.st.visited.getD next false then call next t
    else some { t with st := record_cycle t.st next }

/-- The lambda `dfs` on recorded states: as `dfs`, and each call is appended to the
record on entry. -/
def dfs_traced (rag : Nat → List Nat) : Nat → Nat → DfsTrace → Option DfsTrace
  | 0, _, _ => none
  | fuel + 1, node, t =>
    let t1 : DfsTrace :=
      { st := { t.st with visited := t.st.visited.set node true, path := t.st.path ++ [node] }
        calls := t.calls ++ [(node, t.st.path)] }
    match (rag node).foldl (dfs_edge_traced (fun next t2 => dfs_traced rag fuel next t2))
        (some t1) with
    | none => none
    | some t3 =>
      some { t3 with
        st := { t3.st with path := t3.st.path.dropLast, visited := t3.st.visited.set node false } }

/-- The root-loop body `dfs_root` on recorded states. -/
def dfs_root_traced (s : Engine) (acc : Option DfsTrace) (i : Nat) : Option DfsTrace :=
  match acc with
  | none => none
  | some t =>
    if !t.st.visited.getD i false then dfs_traced s.rag s.num_processes i t else some t

/-- The run of `detect_cycles` on recorded states. -/
def detect_cycles_traced (s : Engine) : Option DfsTrace :=
  (List.range s.num_processes).foldl (dfs_root_traced s)
    (some { st := { visited := List.replicate s.num_processes false, path := [], cycles := [] }
            calls := [] })

/-- Every recorded call entered a vertex of `[0,P)` that was not on the path, and the
path with that vertex added has no repetition and at most `P` vertices. -/
def GoodCalls (P : Nat) (calls : List (Nat × List Nat)) : Prop :=
  ∀ c ∈ calls, c.1 < P ∧ c.1 ∉ c.2 ∧ (c.2 ++ [c.1]).Nodup ∧ (c.2 ++ [c.1]).length ≤ P

/-! # Theorems -/

/-! ## Reading and writing vectors -/

theorem rd_wr (v : List Int) (i : Nat) (x : Int) (j : Nat) :
    rd (wr v i x) j = if i = j ∧ i < v.length then x else rd v j := by
  simp only [rd, wr, List.getD_eq_getElem?_getD, List.getElem?_set]
  by_cases hij : i = j
  · subst hij
    by_cases hi : i < v.length
    · simp [hi]
    · have hnone : v[i]? = none := by simp; omega
      simp [hi, hnone]
  · simp [hij]

theorem length_wr (v : List Int) (i : Nat) (x : Int) : (wr v i x).length = v.length := by
  simp [wr]

theorem length_wr2 (m : List (List Int)) (i j : Nat) (x : Int) :
    (wr2 m i j x).length = m.length := by
  simp [wr2]

theorem row_wr2 (m : List (List Int)) (i j : Nat) (x : Int) (a : Nat) :
    (wr2 m i j x).getD a [] = if i = a ∧ i < m.length then wr (m.getD i []) j x else m.getD a [] := by
  simp only [wr2, wr, List.getD_eq_getElem?_getD, List.getElem?_set]
  by_cases hia : i = a
  · subst hia
    by_cases hi : i < m.length
    · simp [hi]
    · simp [hi]
      have : m[i]? = none := by simp; omega
      simp [this]
  · simp [hia]

theorem row_length_wr2 (m : List (List Int)) (i j : Nat) (x : Int) (a : Nat) :
    ((wr2 m i j x).getD a []).length = (m.getD a []).length := by
  rw [row_wr2]
  split_ifs with h
  · rw [length_wr, h.1]
  · rfl

theorem rd2_wr2 (m : List (List Int)) (i j : Nat) (x : Int) (a b : Nat) :
    rd2 (wr2 m i j x) a b =
      if i = a ∧ j = b ∧ i < m.length ∧ j < (m.getD i []).length then x else rd2 m a b := by
  unfold rd2
  rw [row_wr2]
  by_cases hia : i = a
  · subst hia
    by_cases hi : i < m.length
    · have := rd_wr (m.getD i []) j x b
      simp only [rd] at this
      simp only [hi, and_self, if_true, true_and, and_true, this]
    · simp [hi]
  · simp [hia]

/-! ## The loops of allocate and release -/

/-- What the first `n` iterations of the loop of `allocate_resources` leave behind. -/
theorem allocate_fold_spec (p : Nat) (v : List Int) (s : Engine) (n : Nat) :
    let s1 := (List.range n).foldl (allocate_value_step p v) s
    (s1.num_resources = s.num_resources ∧ s1.num_processes = s.num_processes ∧
      s1.max_need = s.max_need ∧ s1.risk_model = s.risk_model ∧ s1.rag = s.rag ∧
      s1.history = s.history) ∧
    (s1.available.length = s.available.length ∧ s1.allocated.length = s.allocated.length ∧
      ∀ a, (s1.allocated.getD a []).length = (s.allocated.getD a []).length) ∧
    (∀ r, rd s1.available r =
      if r < n ∧ r < s.available.length then rd s.available r - rd v r else rd s.available r) ∧
    (∀ a b, rd2 s1.allocated a b =
      if a = p ∧ b < n ∧ p < s.allocated.length ∧ b < (s.allocated.getD p []).length
      then rd2 s.allocated a b + rd v b else rd2 s.allocated a b) := by
  induction n with
  | zero => simp
  | succ n ih =>
    simp only [List.range_succ, List.foldl_append, List.foldl_cons, List.foldl_nil]
    obtain ⟨⟨h1, h2, h3, h4, h5, h6⟩, ⟨l1, l2, l3⟩, ha, hb⟩ := ih
    refine ⟨⟨h1, h2, h3, h4, h5, h6⟩, ⟨?_, ?_, ?_⟩, ?_, ?_⟩
    · simp only [allocate_value_step, length_wr]; exact l1
    · simp only [allocate_value_step, length_wr2]; exact l2
    · intro a; simp only [allocate_value_step, row_length_wr2]; exact l3 a
    · intro r
      simp only [allocate_value_step, rd_wr, ha, l1]
      by_cases hrn : n = r
      · subst hrn
        by_cases hlen : n < s.available.length
        · simp [hlen]
        · simp [hlen]
      · by_cases hr : r < n
        · have : r < n + 1 := by omega
          simp [hrn, hr, this]
        · have : ¬ r < n + 1 := by omega
          simp [hrn, hr, this]
    · intro a b
      simp only [allocate_value_step, rd2_wr2, hb, l2, l3]
      by_cases hap : a = p
      · subst hap
        by_cases hnb : n = b
        · subst hnb
          by_cases hlen : a < s.allocated.length ∧ n < (s.allocated.getD a []).length
          · simp [hlen.1, hlen.2]
          · simp only [true_and, lt_self_iff_false, false_and, if_false,
              Nat.lt_succ_self]
        · by_cases hb2 : b < n
          · have : b < n + 1 := by omega
            simp [hnb, hb2, this]
          · have : ¬ b < n + 1 := by omega
            simp [hnb, hb2, this]
      · have hpa : ¬ p = a := fun h => hap h.symm
        simp [hap, hpa]

theorem rd_map_neg (v : List Int) (i : Nat) : rd (v.map (fun x => -x)) i = - rd v i := by
  simp only [rd, List.getD_eq_getElem?_getD, List.getElem?_map]
  cases v[i]? <;> simp

/-- Releasing `v` is the loop of allocate run on `-v`. -/
theorem release_fold_eq (p : Nat) (v : List Int) (s : Engine) (l : List Nat) :
    l.foldl (release_value_step p v) s = l.foldl (allocate_value_step p (v.map (fun x => -x))) s := by
  induction l generalizing s with
  | nil => rfl
  | cons i l ih =>
    simp only [List.foldl_cons]
    rw [ih]
    congr 1
    simp only [release_value_step, allocate_value_step, rd_map_neg, sub_neg_eq_add, ← sub_eq_add_neg]

/-- The whole loop of `allocate_resources` on an engine of the constructed shape. -/
theorem allocate_loop_shaped (s : Engine) (hs : s.Shaped) (p : Nat) (hp : p < s.num_processes)
    (v : List Int) :
    let s1 := (List.range s.num_resources).foldl (allocate_value_step p v) s
    s1.Shaped ∧
    (s1.num_resources = s.num_resources ∧ s1.num_processes = s.num_processes ∧
      s1.max_need = s.max_need ∧ s1.risk_model = s.risk_model ∧ s1.rag = s.rag ∧
      s1.history = s.history) ∧
    (∀ r < s.num_resources, rd s1.available r = rd s.available r - rd v r) ∧
    (∀ q r, r < s.num_resources → rd2 s1.allocated q r =
      if q = p then rd2 s.allocated q r + rd v r else rd2 s.allocated q r) := by
  obtain ⟨⟨h1, h2, h3, h4, h5, h6⟩, ⟨l1, l2, l3⟩, ha, hb⟩ :=
    allocate_fold_spec p v s s.num_resources
  obtain ⟨sa, sb, sc, sd, se⟩ := hs
  refine ⟨⟨?_, ?_, ?_, ?_, ?_⟩, ⟨h1, h2, h3, h4, h5, h6⟩, ?_, ?_⟩
  · rw [l1, h1]; exact sa
  · rw [l2, h2]; exact sb
  · intro q hq; rw [l3, h1]; rw [h2] at hq; exact sc q hq
  · rw [h3, h2]; exact sd
  · intro q hq; rw [h3, h1]; rw [h2] at hq; exact se q hq
  · intro r hr
    rw [ha]
    have : r < s.available.length := by rw [sa]; exact hr
    simp [hr, this]
  · intro q r hr
    rw [hb]
    have h1 : p < s.allocated.length := by rw [sb]; exact hp
    have h2 : r < (s.allocated.getD p []).length := by rw [sc p hp]; exact hr
    by_cases hq : q = p
    · rw [if_pos ⟨hq, hr, h1, h2⟩, if_pos hq]
    · rw [if_neg (fun h => hq h.1), if_neg hq]

/-! ## Reading the vector through the reference -/

theorem allocate_step_vector (p : Nat) (v : List Int) :
    allocate_step p (VecRef.vector v) = allocate_value_step p v := rfl

theorem release_step_vector (p : Nat) (v : List Int) :
    release_step p (VecRef.vector v) = release_value_step p v := rfl

/-- Writing `available` does not change what a reference other than `available` reads. -/
theorem deref_set_available (ref : VecRef) (hne : ref ≠ VecRef.available) (s : Engine)
    (a : List Int) : ref.deref { s with available := a } = ref.deref s := by
  cases ref with
  | vector v => rfl
  | available => exact absurd rfl hne
  | allocated q => rfl
  | max_need q => rfl

/-- Through a reference other than `available`, both statements of an iteration of
`allocate_resources` read the same entry. -/
theorem allocate_step_eq_value (p : Nat) (ref : VecRef) (hne : ref ≠ VecRef.available)
    (s : Engine) (i : Nat) :
    allocate_step p ref s i = allocate_value_step p (ref.deref s) s i := by
  have h := deref_set_available ref hne s
    (wr s.available i (rd s.available i - rd (ref.deref s) i))
  simp only [allocate_step, allocate_value_step, h]

theorem release_step_eq_value (p : Nat) (ref : VecRef) (hne : ref ≠ VecRef.available)
    (s : Engine) (i : Nat) :
    release_step p ref s i = release_value_step p (ref.deref s) s i := by
  have h := deref_set_available ref hne s
    (wr s.available i (rd s.available i + rd (ref.deref s) i))
  simp only [release_step, release_value_step, h]

/-- An iteration at index `i` leaves what a reference other than `available` reads at
the other indices: only `available[i]` and `allocated[process_id][i]` are written. -/
theorem rd_deref_after_write (p : Nat) (ref : VecRef) (hne : ref ≠ VecRef.available)
    (s : Engine) (i : Nat) (x y : Int) (j : Nat) (hij : i ≠ j) :
    rd (ref.deref { s with available := wr s.available i x,
                           allocated := wr2 s.allocated p i y }) j = rd (ref.deref s) j := by
  cases ref with
  | vector w => rfl
  | available => exact absurd rfl hne
  | allocated q =>
    show rd2 (wr2 s.allocated p i y) q j = rd2 s.allocated q j
    rw [rd2_wr2, if_neg]
    intro h
    exact hij h.2.1
  | max_need q => rfl

/-- The loop of `allocate_resources` through a reference other than `available` is the
loop on the entries the reference reads at the call. -/
theorem allocate_fold_eq_value (p : Nat) (ref : VecRef) (hne : ref ≠ VecRef.available)
    (v : List Int) (l : List Nat) (hnd : l.Nodup) (s : Engine)
    (hread : ∀ i ∈ l, rd (ref.deref s) i = rd v i) :
    l.foldl (allocate_step p ref) s = l.foldl (allocate_value_step p v) s := by
  induction l generalizing s with
  | nil => rfl
  | cons i rest ih =>
    simp only [List.foldl_cons]
    have hstep : allocate_step p ref s i = allocate_value_step p v s i := by
      rw [allocate_step_eq_value p ref hne]
      simp only [allocate_value_step, hread i (List.mem_cons_self _ _)]
    rw [hstep]
    apply ih (List.nodup_cons.mp hnd).2
    intro j hj
    have hij : i ≠ j := fun h => (List.nodup_cons.mp hnd).1 (h ▸ hj)
    have := rd_deref_after_write p ref hne s i (rd s.available i - rd v i)
      (rd2 s.allocated p i + rd v i) j hij
    rw [← hread j (List.mem_cons_of_mem _ hj), ← this]
    rfl

theorem release_fold_eq_value (p : Nat) (ref : VecRef) (hne : ref ≠ VecRef.available)
    (v : List Int) (l : List Nat) (hnd : l.Nodup) (s : Engine)
    (hread : ∀ i ∈ l, rd (ref.deref s) i = rd v i) :
    l.foldl (release_step p ref) s = l.foldl (release_value_step p v) s := by
  induction l generalizing s with
  | nil => rfl
  | cons i rest ih =>
    simp only [List.foldl_cons]
    have hstep : release_step p ref s i = release_value_step p v s i := by
      rw [release_step_eq_value p ref hne]
      simp only [release_value_step, hread i (List.mem_cons_self _ _)]
    rw [hstep]
    apply ih (List.nodup_cons.mp hnd).2
    intro j hj
    have hij : i ≠ j := fun h => (List.nodup_cons.mp hnd).1 (h ▸ hj)
    have := rd_deref_after_write p ref hne s i (rd s.available i + rd v i)
      (rd2 s.allocated p i - rd v i) j hij
    rw [← hread j (List.mem_cons_of_mem _ hj), ← this]
    rfl

/-- A call of `allocate_resources` with a reference other than `available` is the call
with a copy of the vector. -/
theorem allocate_resources_eq_vector (s : Engine) (p : Nat) (ref : VecRef)
    (hne : ref ≠ VecRef.available) :
    allocate_resources s p ref = allocate_resources s p (VecRef.vector (ref.deref s)) := by
  unfold allocate_resources
  rw [allocate_fold_eq_value p ref hne (ref.deref s) _ (List.nodup_range _) s (fun _ _ => rfl)]
  rfl

theorem release_resources_eq_vector (s : Engine) (p : Nat) (ref : VecRef)
    (hne : ref ≠ VecRef.available) :
    release_resources s p ref = release_resources s p (VecRef.vector (ref.deref s)) := by
  unfold release_resources
  rw [release_fold_eq_value p ref hne (ref.deref s) _ (List.nodup_range _) s (fun _ _ => rfl)]
  rfl

/-! ## The engine's own `available` as the argument -/

theorem rd_of_length_le (v : List Int) (i : Nat) (h : v.length ≤ i) : rd v i = 0 := by
  simp only [rd, List.getD_eq_getElem?_getD]
  rw [List.getElem?_eq_none h]
  rfl

theorem set_getD_self {α : Type} (l : List α) (j : Nat) (d : α) :
    l.set j (l.getD j d) = l := by
  induction l generalizing j with
  | nil => rfl
  | cons x xs ih =>
    cases j with
    | zero => rfl
    | succ j => simp only [List.set_cons_succ, List.getD_cons_succ, ih]

/-- Storing in `m[i][j]` the value it holds changes nothing. -/
theorem wr2_self (m : List (List Int)) (i j : Nat) : wr2 m i j (rd2 m i j) = m := by
  unfold wr2 rd2
  rw [set_getD_self, set_getD_self]

/-- With the engine's own `available` behind the reference, an iteration of
`allocate_resources` stores `0` in `available[i]`, reads that `0` back as
`resources[i]`, and adds it to the allocation. -/
theorem allocate_step_available (p : Nat) (s : Engine) (i : Nat) :
    allocate_step p VecRef.available s i = { s with available := wr s.available i 0 } := by
  have hread : rd (wr s.available i 0) i = 0 := by
    rw [rd_wr]
    split_ifs with h
    · rfl
    · exact rd_of_length_le _ _ (by
        by_contra hlt
        exact h ⟨rfl, by omega⟩)
  simp only [allocate_step, VecRef.deref, sub_self, hread, add_zero, wr2_self]

/-- The first `n` iterations of `allocate_resources` with the engine's own `available`. -/
theorem allocate_fold_available (p : Nat) (s : Engine) (n : Nat) :
    let s1 := (List.range n).foldl (allocate_step p VecRef.available) s
    (s1.num_resources = s.num_resources ∧ s1.num_processes = s.num_processes ∧
      s1.max_need = s.max_need ∧ s1.risk_model = s.risk_model ∧ s1.rag = s.rag ∧
      s1.history = s.history) ∧
    s1.allocated = s.allocated ∧ s1.available.length = s.available.length ∧
    (∀ r, rd s1.available r = if r < n then 0 else rd s.available r) := by
  induction n with
  | zero => simp
  | succ n ih =>
    simp only [List.range_succ, List.foldl_append, List.foldl_cons, List.foldl_nil]
    obtain ⟨⟨h1, h2, h3, h4, h5, h6⟩, hm, hl, ha⟩ := ih
    rw [allocate_step_available]
    refine ⟨⟨h1, h2, h3, h4, h5, h6⟩, hm, ?_, ?_⟩
    · show (wr _ n 0).length = _
      rw [length_wr]; exact hl
    · intro r
      show rd (wr _ n 0) r = _
      rw [rd_wr, ha]
      by_cases hnr : n = r
      · subst hnr
        by_cases hlen : n < s.available.length
        · simp [hlen, hl]
        · have h0 : rd s.available n = 0 := rd_of_length_le _ _ (by omega)
          simp [hlen, hl, h0]
      · by_cases hr : r < n
        · have : r < n + 1 := by omega
          simp [hnr, hr, this]
        · have : ¬ r < n + 1 := by omega
          simp [hnr, hr, this]

/-- The call `allocate_resources(p, get_available())` on an engine of the constructed
shape: every `available[r]` becomes `0` and the allocation is left as it was. -/
theorem allocate_resources_available_spec (s : Engine) (hs : s.Shaped) (p : Nat) :
    ∃ s1, allocate_resources s p VecRef.available = Except.ok s1 ∧ s1.Shaped ∧
      (s1.num_resources = s.num_resources ∧ s1.num_processes = s.num_processes ∧
        s1.max_need = s.max_need ∧ s1.risk_model = s.risk_model ∧ s1.rag = s.rag ∧
        s1.history = s.history) ∧
      (∀ r < s.num_resources, rd s1.available r = 0) ∧ s1.allocated = s.allocated := by
  obtain ⟨⟨h1, h2, h3, h4, h5, h6⟩, hm, hl, ha⟩ :=
    allocate_fold_available p s s.num_resources
  obtain ⟨sa, sb, sc, sd, se⟩ := hs
  refine ⟨_, rfl, ⟨?_, ?_, ?_, ?_, ?_⟩, ⟨h1, h2, h3, h4, h5, h6⟩, ?_, hm⟩
  · rw [hl, h1]; exact sa
  · rw [hm, h2]; exact sb
  · intro q hq; rw [hm, h1]; rw [h2] at hq; exact sc q hq
  · rw [h3, h2]; exact sd
  · intro q hq; rw [h3, h1]; rw [h2] at hq; exact se q hq
  · intro r hr
    rw [ha r, if_pos hr]

/-- The two loops with the engine's own `available` as the argument, on small engines:
allocating leaves `available = (0)` and the allocation as it was; releasing from
`available = (5)`, allocation `(0)` stores `available = (10)` and allocation `(-10)`,
the second statement reading the doubled entry. -/
theorem aliased_calls_evaluated :
    (∃ s1, allocate_resources (main_engine empty_net) 0 VecRef.available = Except.ok s1 ∧
      s1.available = [0, 0, 0] ∧ s1.allocated.getD 0 [] = [0, 0, 0]) ∧
    (∃ s1, allocate_resources (unit_engine (-1) 0 5) 0 VecRef.available = Except.ok s1 ∧
      s1.available = [0] ∧ s1.allocated = [[0]]) ∧
    (∃ s1, release_resources (unit_engine 5 0 5) 0 VecRef.available = Except.ok s1 ∧
      s1.available = [10] ∧ s1.allocated = [[-10]]) :=
  ⟨⟨_, rfl, by decide, by decide⟩, ⟨_, rfl, by decide, by decide⟩,
    ⟨_, rfl, by decide, by decide⟩⟩

/-! ## What the loops keep, whatever the reference reads -/

/-- The loop of `allocate_resources` writes entries of `available` and of rows of
`allocated` only: every length and every other member is kept. -/
theorem allocate_fold_frame (p : Nat) (ref : VecRef) (l : List Nat) (s : Engine) :
    ((l.foldl (allocate_step p ref) s).num_resources = s.num_resources ∧
      (l.foldl (allocate_step p ref) s).num_processes = s.num_processes ∧
      (l.foldl (allocate_step p ref) s).max_need = s.max_need ∧
      (l.foldl (allocate_step p ref) s).risk_model = s.risk_model ∧
      (l.foldl (allocate_step p ref) s).rag = s.rag ∧
      (l.foldl (allocate_step p ref) s).history = s.history) ∧
    (l.foldl (allocate_step p ref) s).available.length = s.available.length ∧
    (l.foldl (allocate_step p ref) s).allocated.length = s.allocated.length ∧
    ∀ a, ((l.foldl (allocate_step p ref) s).allocated.getD a []).length =
      (s.allocated.getD a []).length := by
  induction l generalizing s with
  | nil => exact ⟨⟨rfl, rfl, rfl, rfl, rfl, rfl⟩, rfl, rfl, fun _ => rfl⟩
  | cons i rest ih =>
    simp only [List.foldl_cons]
    obtain ⟨⟨h1, h2, h3, h4, h5, h6⟩, l1, l2, l3⟩ := ih (allocate_step p ref s i)
    refine ⟨⟨h1, h2, h3, h4, h5, h6⟩, ?_, ?_, ?_⟩
    · rw [l1]; simp only [allocate_step, length_wr]
    · rw [l2]; simp only [allocate_step, length_wr2]
    · intro a; rw [l3]; simp only [allocate_step, row_length_wr2]

/-- The loop of `release_resources` keeps every length and every other member. -/
theorem release_fold_frame (p : Nat) (ref : VecRef) (l : List Nat) (s : Engine) :
    ((l.foldl (release_step p ref) s).num_resources = s.num_resources ∧
      (l.foldl (release_step p ref) s).num_processes = s.num_processes ∧
      (l.foldl (release_step p ref) s).max_need = s.max_need ∧
      (l.foldl (release_step p ref) s).risk_model = s.risk_model ∧
      (l.foldl (release_step p ref) s).rag = s.rag ∧
      (l.foldl (release_step p ref) s).history = s.history) ∧
    (l.foldl (release_step p ref) s).available.length = s.available.length ∧
    (l.foldl (release_step p ref) s).allocated.length = s.allocated.length ∧
    ∀ a, ((l.foldl (release_step p ref) s).allocated.getD a []).length =
      (s.allocated.getD a []).length := by
  induction l generalizing s with
  | nil => exact ⟨⟨rfl, rfl, rfl, rfl, rfl, rfl⟩, rfl, rfl, fun _ => rfl⟩
  | cons i rest ih =>
    simp only [List.foldl_cons]
    obtain ⟨⟨h1, h2, h3, h4, h5, h6⟩, l1, l2, l3⟩ := ih (release_step p ref s i)
    refine ⟨⟨h1, h2, h3, h4, h5, h6⟩, ?_, ?_, ?_⟩
    · rw [l1]; simp only [release_step, length_wr]
    · rw [l2]; simp only [release_step, length_wr2]
    · intro a; rw [l3]; simp only [release_step, row_length_wr2]

/-- Adding `x` to one term of a sum over the processes adds `x` to the sum. -/
theorem sum_bump (a : Nat → Int) (x : Int) (p n : Nat) (hp : p < n) :
    ((List.range n).map (fun q => if q = p then a q + x else a q)).sum =
      ((List.range n).map a).sum + x := by
  induction n with
  | zero => omega
  | succ n ih =>
    simp only [List.range_succ, List.map_append, List.sum_append, List.map_cons, List.map_nil,
      List.sum_cons, List.sum_nil, add_zero]
    by_cases hpn : p = n
    · subst hpn
      have hsame : (List.range p).map (fun q => if q = p then a q + x else a q) =
          (List.range p).map a := by
        apply List.map_congr_left
        intro q hq
        have : q ≠ p := by
          have := List.mem_range.mp hq
          omega
        simp [this]
      rw [hsame]
      simp
      ring
    · have hlt : p < n := by omega
      rw [ih hlt]
      have : ¬ n = p := fun h => hpn h.symm
      simp [this]
      ring

/-- The loop of `allocate_resources` keeps the inventory of every resource. -/
theorem allocate_loop_inventory (s : Engine) (hs : s.Shaped) (p : Nat)
    (hp : p < s.num_processes) (v : List Int) (r : Nat) (hr : r < s.num_resources) :
    inventory ((List.range s.num_resources).foldl (allocate_value_step p v) s) r = inventory s r := by
  obtain ⟨_, ⟨_, h2, _⟩, ha, hb⟩ := allocate_loop_shaped s hs p hp v
  unfold inventory
  rw [ha r hr, h2]
  have : (List.range s.num_processes).map
      (fun q => rd2 ((List.range s.num_resources).foldl (allocate_value_step p v) s).allocated q r) =
      (List.range s.num_processes).map
        (fun q => if q = p then rd2 s.allocated q r + rd v r else rd2 s.allocated q r) := by
    apply List.map_congr_left
    intro q _
    exact hb q r hr
  rw [this, sum_bump (fun q => rd2 s.allocated q r) (rd v r) p s.num_processes hp]
  ring

theorem vector_ne_available (v : List Int) : VecRef.vector v ≠ VecRef.available := by
  intro h
  cases h

/-- One valid call whose vector argument is not the engine's own `available` keeps the
shape, the dimensions and the inventory. -/
theorem call_run_inventory (s : Engine) (hs : s.Shaped) (c : Call)
    (hc : c.process_id < s.num_processes) (hne : c.resources ≠ VecRef.available) :
    ∃ s1, c.run s = Except.ok s1 ∧ s1.Shaped ∧ s1.num_resources = s.num_resources ∧
      s1.num_processes = s.num_processes ∧
      ∀ r < s.num_resources, inventory s1 r = inventory s r := by
  cases c with
  | allocate p ref =>
    have hrun : (Call.allocate p ref).run s = Except.ok
        ((List.range s.num_resources).foldl (allocate_value_step p (ref.deref s)) s) :=
      allocate_resources_eq_vector s p ref hne
    obtain ⟨hsh, ⟨h1, h2, _⟩, _, _⟩ := allocate_loop_shaped s hs p hc (ref.deref s)
    exact ⟨_, hrun, hsh, h1, h2, fun r hr => allocate_loop_inventory s hs p hc _ r hr⟩
  | release p ref =>
    have hrun : (Call.release p ref).run s = Except.ok
        ((List.range s.num_resources).foldl (release_value_step p (ref.deref s)) s) :=
      release_resources_eq_vector s p ref hne
    refine ⟨_, hrun, ?_⟩
    rw [release_fold_eq]
    obtain ⟨hsh, ⟨h1, h2, _⟩, _, _⟩ :=
      allocate_loop_shaped s hs p hc ((ref.deref s).map (fun x => -x))
    exact ⟨hsh, h1, h2, fun r hr => allocate_loop_inventory s hs p hc _ r hr⟩

/-- A sequence of valid calls, none with the engine's own `available` as its vector
argument, keeps the shape, the dimensions and the inventory. -/
theorem run_calls_inventory (calls : List Call) (s : Engine) (hs : s.Shaped)
    (hc : ∀ c ∈ calls, c.process_id < s.num_processes ∧ c.resources ≠ VecRef.available) :
    ∃ s1, run_calls s calls = Except.ok s1 ∧ s1.Shaped ∧ s1.num_resources = s.num_resources ∧
      s1.num_processes = s.num_processes ∧
      ∀ r < s.num_resources, inventory s1 r = inventory s r := by
  induction calls generalizing s with
  | nil => exact ⟨s, rfl, hs, rfl, rfl, fun _ _ => rfl⟩
  | cons c rest ih =>
    obtain ⟨s1, hrun, hsh, h1, h2, hinv⟩ :=
      call_run_inventory s hs c (hc c (List.mem_cons_self _ _)).1
        (hc c (List.mem_cons_self _ _)).2
    obtain ⟨s2, hrun2, hsh2, h12, h22, hinv2⟩ := ih s1 hsh (fun c2 hc2 => by
      rw [h2]; exact hc c2 (List.mem_cons_of_mem _ hc2))
    refine ⟨s2, ?_, hsh2, h12.trans h1, h22.trans h2, ?_⟩
    · simp only [run_calls, hrun]; exact hrun2
    · intro r hr
      rw [hinv2 r (by rw [h1]; exact hr), hinv r hr]

/-! ## allocate_resources and release_resources -/

/-- The result of `allocate_resources` on an engine of the constructed shape, for a
vector argument that is not the engine's own `available`. -/
theorem allocate_resources_spec (s : Engine) (hs : s.Shaped) (p : Nat)
    (hp : p < s.num_processes) (ref : VecRef) (hne : ref ≠ VecRef.available) :
    ∃ s1, allocate_resources s p ref = Except.ok s1 ∧ s1.Shaped ∧
      (s1.num_resources = s.num_resources ∧ s1.num_processes = s.num_processes ∧
        s1.max_need = s.max_need ∧ s1.risk_model = s.risk_model ∧ s1.rag = s.rag ∧
        s1.history = s.history) ∧
      (∀ r < s.num_resources, rd s1.available r = rd s.available r - rd (ref.deref s) r) ∧
      (∀ q r, r < s.num_resources → rd2 s1.allocated q r =
        if q = p then rd2 s.allocated q r + rd (ref.deref s) r else rd2 s.allocated q r) :=
  ⟨(List.range s.num_resources).foldl (allocate_value_step p (ref.deref s)) s,
    allocate_resources_eq_vector s p ref hne, allocate_loop_shaped s hs p hp (ref.deref s)⟩

/-- The result of `release_resources` on an engine of the constructed shape, for a
vector argument that is not the engine's own `available`. -/
theorem release_resources_spec (s : Engine) (hs : s.Shaped) (p : Nat)
    (hp : p < s.num_processes) (ref : VecRef) (hne : ref ≠ VecRef.available) :
    ∃ s1, release_resources s p ref = Except.ok s1 ∧ s1.Shaped ∧
      (s1.num_resources = s.num_resources ∧ s1.num_processes = s.num_processes ∧
        s1.max_need = s.max_need ∧ s1.risk_model = s.risk_model ∧ s1.rag = s.rag ∧
        s1.history = s.history) ∧
      (∀ r < s.num_resources, rd s1.available r = rd s.available r + rd (ref.deref s) r) ∧
      (∀ q r, r < s.num_resources → rd2 s1.allocated q r =
        if q = p then rd2 s.allocated q r - rd (ref.deref s) r else rd2 s.allocated q r) := by
  refine ⟨(List.range s.num_resources).foldl (release_value_step p (ref.deref s)) s,
    release_resources_eq_vector s p ref hne, ?_⟩
  rw [release_fold_eq]
  obtain ⟨hsh, hf, ha, hb⟩ :=
    allocate_loop_shaped s hs p hp ((ref.deref s).map (fun x => -x))
  refine ⟨hsh, hf, ?_, ?_⟩
  · intro r hr; rw [ha r hr, rd_map_neg]; ring
  · intro q r hr; rw [hb q r hr, rd_map_neg]; simp only [← sub_eq_add_neg]

/-- The free units after `allocate_resources`, for every vector argument, the engine's
own `available` included: `available[r]` is lowered by the entry read at the call. -/
theorem allocate_resources_available (s : Engine) (hs : s.Shaped) (p : Nat)
    (hp : p < s.num_processes) (ref : VecRef) :
    ∃ s1, allocate_resources s p ref = Except.ok s1 ∧
      ∀ r < s.num_resources, rd s1.available r = rd s.available r - rd (ref.deref s) r := by
  by_cases hne : ref = VecRef.available
  · subst hne
    obtain ⟨s1, h, _, _, ha, _⟩ := allocate_resources_available_spec s hs p
    refine ⟨s1, h, fun r hr => ?_⟩
    rw [ha r hr]
    show (0 : Int) = rd s.available r - rd s.available r
    omega
  · obtain ⟨s1, h, _, _, ha, _⟩ := allocate_resources_spec s hs p hp ref hne
    exact ⟨s1, h, ha⟩

/-- Rows of `allocated` other than `process_id` pass through the loop untouched. -/
theorem allocate_fold_other_rows (p : Nat) (v : List Int) (l : List Nat) (s : Engine) (q : Nat)
    (hq : q ≠ p) : (l.foldl (allocate_value_step p v) s).allocated.getD q [] = s.allocated.getD q [] := by
  induction l generalizing s with
  | nil => rfl
  | cons i l ih =>
    simp only [List.foldl_cons]
    rw [ih]
    simp only [allocate_value_step, row_wr2]
    rw [if_neg (fun h => hq h.1.symm)]

/-- Two loop bodies that agree on the indices visited give the same loop. -/
theorem foldl_congr_on {σ : Type} (f g : σ → Nat → σ) (l : List Nat)
    (h : ∀ i ∈ l, ∀ x, f x i = g x i) (x : σ) : l.foldl f x = l.foldl g x := by
  induction l generalizing x with
  | nil => rfl
  | cons i l ih =>
    simp only [List.foldl_cons]
    rw [h i (List.mem_cons_self _ _) x]
    exact ih (fun j hj => h j (List.mem_cons_of_mem _ hj)) _

theorem rd_take (v : List Int) (n i : Nat) (hi : i < n) : rd (v.take n) i = rd v i := by
  simp only [rd, List.getD_eq_getElem?_getD, List.getElem?_take, hi, if_true]

/-- Inventory conservation for calls whose vector argument is not the engine's own
`available`: on an engine of the constructed shape, `allocate_resources(p, v)` and
`release_resources(p, v)` with `p` in `[0,P)` return a state in which
`available[r] + sum over q of allocation[q][r]` has, for every resource `r`, the value it
had before the call; hence the same holds after any sequence of such calls. -/
theorem inventory_conservation (s : Engine) (hs : s.Shaped) :
    (∀ p < s.num_processes, ∀ v : VecRef, v ≠ VecRef.available →
      (v.deref s).length = s.num_resources →
      ∃ s1, allocate_resources s p v = Except.ok s1 ∧
        ∀ r < s.num_resources, inventory s1 r = inventory s r) ∧
    (∀ p < s.num_processes, ∀ v : VecRef, v ≠ VecRef.available →
      (v.deref s).length = s.num_resources →
      ∃ s1, release_resources s p v = Except.ok s1 ∧
        ∀ r < s.num_resources, inventory s1 r = inventory s r) ∧
    (∀ calls : List Call,
      (∀ c ∈ calls, c.process_id < s.num_processes ∧ c.resources ≠ VecRef.available ∧
        (c.resources.deref s).length = s.num_resources) →
      ∃ s1, run_calls s calls = Except.ok s1 ∧
        ∀ r < s.num_resources, inventory s1 r = inventory s r) := by
  refine ⟨?_, ?_, ?_⟩
  · intro p hp v hne _
    obtain ⟨s1, h, _, _, _, hinv⟩ := call_run_inventory s hs (Call.allocate p v) hp hne
    exact ⟨s1, h, hinv⟩
  · intro p hp v hne _
    obtain ⟨s1, h, _, _, _, hinv⟩ := call_run_inventory s hs (Call.release p v) hp hne
    exact ⟨s1, h, hinv⟩
  · intro calls hc
    obtain ⟨s1, h, _, _, _, hinv⟩ :=
      run_calls_inventory calls s hs (fun c hcm => ⟨(hc c hcm).1, (hc c hcm).2.1⟩)
    exact ⟨s1, h, hinv⟩

/-- On the engine of `main`: allocate (1,0,2) to process 0, then release row 0 of the
allocation (passed by reference) from it; the inventory of resource 0 is still 10. -/
theorem inventory_conservation_example :
    ∃ s1, run_calls (main_engine empty_net)
        [Call.allocate 0 (VecRef.vector [1, 0, 2]), Call.release 0 (VecRef.allocated 0)] =
          Except.ok s1 ∧
      inventory s1 0 = 10 := by
  obtain ⟨s1, h, hinv⟩ := (inventory_conservation (main_engine empty_net) (by decide)).2.2
    [Call.allocate 0 (VecRef.vector [1, 0, 2]), Call.release 0 (VecRef.allocated 0)]
    (by decide)
  exact ⟨s1, h, by rw [hinv 0 (by decide)]; decide⟩

/-- Claim C4, the code on the call `allocate_resources(p, get_available())`: on every
engine of the constructed shape and for every `p` in `[0,P)`, the vector passed is the
engine's own `available` (of length `R`); the call returns, and afterwards
`available[r] + sum over q of allocation[q][r]` is the old value less the old
`available[r]`, so the inventory of every resource that had free units is not conserved.
The same amounts passed as a separate vector are moved to the allocation and conserved. -/
theorem aliased_allocate_loses_inventory (s : Engine) (hs : s.Shaped) (p : Nat)
    (hp : p < s.num_processes) :
    (VecRef.available.deref s).length = s.num_resources ∧
    (∃ s1, allocate_resources s p VecRef.available = Except.ok s1 ∧
      (∀ r < s.num_resources, inventory s1 r = inventory s r - rd s.available r) ∧
      (∀ r < s.num_resources, rd s.available r ≠ 0 → inventory s1 r ≠ inventory s r)) ∧
    (∃ s2, allocate_resources s p (VecRef.vector s.available) = Except.ok s2 ∧
      ∀ r < s.num_resources, inventory s2 r = inventory s r) := by
  refine ⟨hs.1, ?_, ?_⟩
  · obtain ⟨s1, h, _, ⟨_, h2, _⟩, ha, hm⟩ := allocate_resources_available_spec s hs p
    have hinv : ∀ r < s.num_resources, inventory s1 r = inventory s r - rd s.available r := by
      intro r hr
      unfold inventory
      rw [ha r hr, hm, h2]
      ring
    refine ⟨s1, h, hinv, fun r hr hnz => ?_⟩
    rw [hinv r hr]
    omega
  · obtain ⟨s2, h, _, _, _, hinv⟩ := call_run_inventory s hs
      (Call.allocate p (VecRef.vector s.available)) hp (vector_ne_available _)
    exact ⟨s2, h, hinv⟩

/-- Witness for C4 on the engine of `main` (`available = (10,5,7)`, nothing allocated):
after `allocate_resources(0, get_available())` the inventory of resource 0 is 0, not 10. -/
theorem aliased_allocate_loses_inventory_witness :
    inventory (main_engine empty_net) 0 = 10 ∧
    ∃ s1, allocate_resources (main_engine empty_net) 0 VecRef.available = Except.ok s1 ∧
      inventory s1 0 = 0 := by
  obtain ⟨_, ⟨s1, h, hinv, _⟩, _⟩ :=
    aliased_allocate_loses_inventory (main_engine empty_net) (by decide) 0 (by decide)
  exact ⟨by decide, s1, h, by rw [hinv 0 (by decide)]; decide⟩

/-- The postcondition and frame of `allocate_resources` for a vector argument that is not
the engine's own `available`: on an engine of the constructed shape, with `p` in `[0,P)`
and `req` of length `R`, the call returns a state with
`available[r] = old available[r] - req[r]` and
`allocation[p][r] = old allocation[p][r] + req[r]` for every `r`, in which every other
allocation row, `max_need`, the wait-for graph and the training history are unchanged. -/
theorem allocate_postcondition_frame (s : Engine) (hs : s.Shaped) (p : Nat)
    (hp : p < s.num_processes) (req : VecRef) (hne : req ≠ VecRef.available)
    (_hlen : (req.deref s).length = s.num_resources) :
    ∃ s1, allocate_resources s p req = Except.ok s1 ∧
      (∀ r < s.num_resources, rd s1.available r = rd s.available r - rd (req.deref s) r) ∧
      (∀ r < s.num_resources,
        rd2 s1.allocated p r = rd2 s.allocated p r + rd (req.deref s) r) ∧
      s1.available.length = s.available.length ∧
      s1.allocated.length = s.allocated.length ∧
      (s1.allocated.getD p []).length = (s.allocated.getD p []).length ∧
      (∀ q, q ≠ p → s1.allocated.getD q [] = s.allocated.getD q []) ∧
      s1.max_need = s.max_need ∧ s1.rag = s.rag ∧ s1.history = s.history ∧
      s1.risk_model = s.risk_model ∧
      s1.num_resources = s.num_resources ∧ s1.num_processes = s.num_processes := by
  obtain ⟨s1, h, _, ⟨h1, h2, h3, h4, h5, h6⟩, ha, hb⟩ :=
    allocate_resources_spec s hs p hp req hne
  obtain ⟨_, ⟨l1, l2, l3⟩, _, _⟩ := allocate_fold_spec p (req.deref s) s s.num_resources
  have hs1 : s1 = (List.range s.num_resources).foldl (allocate_value_step p (req.deref s)) s := by
    rw [allocate_resources_eq_vector s p req hne] at h
    exact (Except.ok.inj h).symm
  refine ⟨s1, h, ha, ?_, ?_, ?_, ?_, ?_, h3, h5, h6, h4, h1, h2⟩
  · intro r hr; rw [hb p r hr, if_pos rfl]
  · rw [hs1]; exact l1
  · rw [hs1]; exact l2
  · rw [hs1]; exact l3 p
  · intro q hq; rw [hs1]; exact allocate_fold_other_rows p (req.deref s) _ s q hq

/-- On the engine of `main`: allocating (1,0,2) to process 0 leaves `available = (9,5,5)`,
row 0 `= (1,0,2)`, and row 1 as it was. -/
theorem allocate_postcondition_frame_example :
    ∃ s1, allocate_resources (main_engine empty_net) 0 (VecRef.vector [1, 0, 2]) =
        Except.ok s1 ∧
      rd s1.available 0 = 9 ∧ rd2 s1.allocated 0 2 = 2 ∧
      s1.allocated.getD 1 [] = [0, 0, 0] := by
  obtain ⟨s1, h, ha, hb, _, _, _, hrows, _⟩ :=
    allocate_postcondition_frame (main_engine empty_net) (by decide) 0 (by decide)
      (VecRef.vector [1, 0, 2]) (by decide) (by decide)
  refine ⟨s1, h, ?_, ?_, ?_⟩
  · rw [ha 0 (by decide)]; decide
  · rw [hb 2 (by decide)]; decide
  · rw [hrows 1 (by decide)]; decide

/-- Claim C6, the code on the call `allocate_resources(p, get_available())`: on every
engine of the constructed shape and for every `p` in `[0,P)`, with the engine's own
`available` (of length `R`) as the request vector `req`, the call returns a state with
`available[r] = old available[r] - req[r]`, which is `0`, but with the allocation it
had: `allocation[p][r]` is the old `allocation[p][r]`, not
`old allocation[p][r] + req[r]`, at every `r` where `req[r]` is not `0`.  The second
statement of the loop reads `resources[i]` after the first one stored `0` there.  The
same amounts passed as a separate vector are added to `allocation[p]`. -/
theorem aliased_allocate_grants_nothing (s : Engine) (hs : s.Shaped) (p : Nat)
    (hp : p < s.num_processes) :
    (VecRef.available.deref s).length = s.num_resources ∧
    (∃ s1, allocate_resources s p VecRef.available = Except.ok s1 ∧
      (∀ r < s.num_resources,
        rd s1.available r = rd s.available r - rd (VecRef.available.deref s) r) ∧
      (∀ r < s.num_resources, rd s1.available r = 0) ∧
      s1.allocated = s.allocated ∧
      (∀ r < s.num_resources, rd (VecRef.available.deref s) r ≠ 0 →
        rd2 s1.allocated p r ≠ rd2 s.allocated p r + rd (VecRef.available.deref s) r) ∧
      s1.max_need = s.max_need ∧ s1.rag = s.rag ∧ s1.history = s.history) ∧
    (∃ s2, allocate_resources s p (VecRef.vector s.available) = Except.ok s2 ∧
      ∀ r < s.num_resources, rd2 s2.allocated p r = rd2 s.allocated p r + rd s.available r) := by
  refine ⟨hs.1, ?_, ?_⟩
  · obtain ⟨s1, h, _, ⟨_, _, h3, _, h5, h6⟩, ha, hm⟩ :=
      allocate_resources_available_spec s hs p
    refine ⟨s1, h, fun r hr => ?_, ha, hm, fun r _ hnz => ?_, h3, h5, h6⟩
    · rw [ha r hr]
      show (0 : Int) = rd s.available r - rd s.available r
      omega
    · rw [hm]
      intro heq
      apply hnz
      omega
  · obtain ⟨s2, h, _, _, _, hb⟩ :=
      allocate_resources_spec s hs p hp (VecRef.vector s.available) (vector_ne_available _)
    exact ⟨s2, h, fun r hr => by rw [hb p r hr, if_pos rfl]; rfl⟩

/-- Witness for C6 on the engine of `main` (`available = (10,5,7)`, nothing allocated):
after `allocate_resources(0, get_available())` the free units are gone and
`allocation[0][0]` is still `0`, where the postcondition asks for `0 + 10`. -/
theorem aliased_allocate_grants_nothing_witness :
    rd (VecRef.available.deref (main_engine empty_net)) 0 = 10 ∧
    rd2 (main_engine empty_net).allocated 0 0 = 0 ∧
    ∃ s1, allocate_resources (main_engine empty_net) 0 VecRef.available = Except.ok s1 ∧
      rd s1.available 0 = 0 ∧ rd2 s1.allocated 0 0 = 0 := by
  obtain ⟨_, ⟨s1, h, _, ha, hm, _⟩, _⟩ :=
    aliased_allocate_grants_nothing (main_engine empty_net) (by decide) 0 (by decide)
  exact ⟨by decide, by decide, s1, h, ha 0 (by decide), by rw [hm]; decide⟩

/-- Claim C7 as stated fails: on the one-resource engine with `available = (2)`, the
request `(3)` exceeds `available` and the request `(-1)` is negative, yet both calls of
`allocate_resources` return normally with the update applied: `available` becomes `(-1)`
in the first case and the allocation becomes `(-1)` in the second. -/
theorem allocate_accepts_invalid_request :
    (unit_engine 2 0 5).Shaped ∧ 0 < (unit_engine 2 0 5).num_processes ∧
    [(3 : Int)].length = (unit_engine 2 0 5).num_resources ∧
    rd [3] 0 > rd (unit_engine 2 0 5).available 0 ∧ rd [-1] 0 < 0 ∧
    (∃ s1, allocate_resources (unit_engine 2 0 5) 0 (VecRef.vector [3]) = Except.ok s1 ∧
      s1.available = [-1] ∧ s1.allocated = [[3]]) ∧
    (∃ s1, allocate_resources (unit_engine 2 0 5) 0 (VecRef.vector [-1]) = Except.ok s1 ∧
      s1.available = [3] ∧ s1.allocated = [[-1]]) :=
  ⟨by decide, by decide, by decide, by decide, by decide,
    ⟨_, rfl, by decide, by decide⟩, ⟨_, rfl, by decide, by decide⟩⟩

/-- Claim C7, amended: `allocate_resources` validates nothing: on an engine of the constructed
shape, with `p` in `[0,P)` and `req` of length `R`, also when some `req[r] < 0` or some
`req[r] > available[r]`, the call returns normally; when `req` is not the engine's own
`available` passed by reference, `available[r] - req[r]` and `allocation[p][r] + req[r]`
are stored for every `r`, and at an offending `r` the new `available[r]` is negative or
the new `allocation[p][r]` is below the old one. -/
theorem allocate_never_rejects (s : Engine) (hs : s.Shaped) (p : Nat)
    (hp : p < s.num_processes) (req : VecRef) (_hlen : (req.deref s).length = s.num_resources)
    (hbad : ∃ r < s.num_resources,
      rd (req.deref s) r < 0 ∨ rd s.available r < rd (req.deref s) r) :
    ∃ s1, allocate_resources s p req = Except.ok s1 ∧
      (req ≠ VecRef.available →
        (∀ r < s.num_resources, rd s1.available r = rd s.available r - rd (req.deref s) r) ∧
        (∀ r < s.num_resources,
          rd2 s1.allocated p r = rd2 s.allocated p r + rd (req.deref s) r) ∧
        ∃ r < s.num_resources,
          rd s1.available r < 0 ∨ rd2 s1.allocated p r < rd2 s.allocated p r) := by
  refine ⟨_, rfl, fun hne => ?_⟩
  obtain ⟨s1, h, _, _, ha, hb⟩ := allocate_resources_spec s hs p hp req hne
  have hs1 : (List.range s.num_resources).foldl (allocate_step p req) s = s1 :=
    Except.ok.inj h
  rw [hs1]
  have hb2 : ∀ r < s.num_resources,
      rd2 s1.allocated p r = rd2 s.allocated p r + rd (req.deref s) r := by
    intro r hr; rw [hb p r hr, if_pos rfl]
  obtain ⟨r, hr, hcase⟩ := hbad
  refine ⟨ha, hb2, r, hr, ?_⟩
  rw [ha r hr, hb2 r hr]
  rcases hcase with hneg | hover
  · right; omega
  · left; omega

/-- Witness for the amended C7: the request `(3)` against `available = (2)`. -/
theorem allocate_never_rejects_witness :
    ∃ s1, allocate_resources (unit_engine 2 0 5) 0 (VecRef.vector [3]) = Except.ok s1 ∧
      rd s1.available 0 = 2 - 3 := by
  obtain ⟨s1, h, hval⟩ := allocate_never_rejects (unit_engine 2 0 5) (by decide) 0 (by decide)
    (VecRef.vector [3]) (by decide) ⟨0, by decide, Or.inr (by decide)⟩
  exact ⟨s1, h, (hval (by decide)).1 0 (by decide)⟩

/-- Claim C8 as stated fails: on the one-resource engine whose only process holds nothing,
releasing `(1)` exceeds the holding, yet `release_resources` returns normally and the
allocation entry becomes `-1`; the one-call sequence is a sequence of successful release
calls that makes an allocation entry negative. -/
theorem release_accepts_over_release :
    (unit_engine 2 0 5).Shaped ∧ 0 < (unit_engine 2 0 5).num_processes ∧
    [(1 : Int)].length = (unit_engine 2 0 5).num_resources ∧
    rd [1] 0 > rd2 (unit_engine 2 0 5).allocated 0 0 ∧
    (∃ s1, release_resources (unit_engine 2 0 5) 0 (VecRef.vector [1]) = Except.ok s1 ∧
      s1.available = [3] ∧ s1.allocated = [[-1]]) ∧
    (∃ s1, run_calls (unit_engine 2 0 5) [Call.release 0 (VecRef.vector [1])] =
        Except.ok s1 ∧
      rd2 s1.allocated 0 0 < 0) :=
  ⟨by decide, by decide, by decide, by decide, ⟨_, rfl, by decide, by decide⟩,
    ⟨_, rfl, by decide⟩⟩

/-- Claim C8, amended: `release_resources` validates nothing: on an engine of the constructed
shape, with `p` in `[0,P)` and `v` of length `R`, also when some `v[r] > allocation[p][r]`,
the call returns normally; when `v` is not the engine's own `available` passed by
reference, `available[r] + v[r]` and `allocation[p][r] - v[r]` are stored for every `r`,
and at an offending `r` the new `allocation[p][r]` is negative. -/
theorem release_never_rejects (s : Engine) (hs : s.Shaped) (p : Nat)
    (hp : p < s.num_processes) (v : VecRef) (_hlen : (v.deref s).length = s.num_resources)
    (hover : ∃ r < s.num_resources, rd2 s.allocated p r < rd (v.deref s) r) :
    ∃ s1, release_resources s p v = Except.ok s1 ∧
      (v ≠ VecRef.available →
        (∀ r < s.num_resources, rd s1.available r = rd s.available r + rd (v.deref s) r) ∧
        (∀ r < s.num_resources,
          rd2 s1.allocated p r = rd2 s.allocated p r - rd (v.deref s) r) ∧
        ∃ r < s.num_resources, rd2 s1.allocated p r < 0) := by
  refine ⟨_, rfl, fun hne => ?_⟩
  obtain ⟨s1, h, _, _, ha, hb⟩ := release_resources_spec s hs p hp v hne
  have hs1 : (List.range s.num_resources).foldl (release_step p v) s = s1 :=
    Except.ok.inj h
  rw [hs1]
  have hb2 : ∀ r < s.num_resources,
      rd2 s1.allocated p r = rd2 s.allocated p r - rd (v.deref s) r := by
    intro r hr; rw [hb p r hr, if_pos rfl]
  obtain ⟨r, hr, hlt⟩ := hover
  refine ⟨ha, hb2, r, hr, ?_⟩
  rw [hb2 r hr]
  omega

/-- Witness for the amended C8: releasing `(1)` from a process that holds `0`. -/
theorem release_never_rejects_witness :
    ∃ s1, release_resources (unit_engine 2 0 5) 0 (VecRef.vector [1]) = Except.ok s1 ∧
      rd2 s1.allocated 0 0 = 0 - 1 := by
  obtain ⟨s1, h, hval⟩ := release_never_rejects (unit_engine 2 0 5) (by decide) 0
    (by decide) (VecRef.vector [1]) (by decide) ⟨0, by decide, by decide⟩
  exact ⟨s1, h, (hval (by decide)).2.1 0 (by decide)⟩

/-- Claim C9 as stated fails: on the one-resource engine, the vector `(1, 99)` is longer
than `R = 1`, yet `allocate_resources` returns normally and applies the update with its
first entry. -/
theorem allocate_accepts_long_vector :
    (unit_engine 2 0 5).Shaped ∧ 0 < (unit_engine 2 0 5).num_processes ∧
    [(1 : Int), 99].length ≠ (unit_engine 2 0 5).num_resources ∧
    (∃ s1, allocate_resources (unit_engine 2 0 5) 0 (VecRef.vector [1, 99]) = Except.ok s1 ∧
      s1.available = [1] ∧ s1.allocated = [[1]]) :=
  ⟨by decide, by decide, by decide, ⟨_, rfl, by decide, by decide⟩⟩

/-- Claim C9, amended: `allocate_resources` checks no dimension: on an engine of the
constructed shape, with `p` in `[0,P)` and a vector of at least `R` entries (longer ones
included), the call returns normally; when the vector is not the engine's own `available`
passed by reference, the call applies the update for every `r < R` and gives the state
it gives on the first `R` entries of the vector. -/
theorem allocate_ignores_extra_entries (s : Engine) (hs : s.Shaped) (p : Nat)
    (hp : p < s.num_processes) (req : VecRef)
    (_hlen : s.num_resources ≤ (req.deref s).length) :
    ∃ s1, allocate_resources s p req = Except.ok s1 ∧
      (req ≠ VecRef.available →
        allocate_resources s p (VecRef.vector ((req.deref s).take s.num_resources)) =
          Except.ok s1 ∧
        (∀ r < s.num_resources, rd s1.available r = rd s.available r - rd (req.deref s) r) ∧
        (∀ r < s.num_resources,
          rd2 s1.allocated p r = rd2 s.allocated p r + rd (req.deref s) r)) := by
  refine ⟨_, rfl, fun hne => ?_⟩
  obtain ⟨s1, h, _, _, ha, hb⟩ := allocate_resources_spec s hs p hp req hne
  have hs1 : (List.range s.num_resources).foldl (allocate_step p req) s = s1 :=
    Except.ok.inj h
  rw [hs1]
  refine ⟨?_, ha, ?_⟩
  · rw [← h, allocate_resources_eq_vector s p req hne]
    show Except.ok ((List.range s.num_resources).foldl
        (allocate_value_step p ((req.deref s).take s.num_resources)) s) =
      Except.ok ((List.range s.num_resources).foldl (allocate_value_step p (req.deref s)) s)
    congr 1
    apply foldl_congr_on
    intro i hi x
    simp only [allocate_value_step, rd_take (req.deref s) _ i (List.mem_range.mp hi)]
  · intro r hr; rw [hb p r hr, if_pos rfl]

/-- Witness for the amended C9: the two-entry vector `(1, 99)` on the one-resource
engine. -/
theorem allocate_ignores_extra_entries_witness :
    ∃ s1, allocate_resources (unit_engine 2 0 5) 0 (VecRef.vector [1, 99]) = Except.ok s1 ∧
      allocate_resources (unit_engine 2 0 5) 0 (VecRef.vector [1]) = Except.ok s1 := by
  obtain ⟨s1, h, hval⟩ := allocate_ignores_extra_entries (unit_engine 2 0 5) (by decide) 0
    (by decide) (VecRef.vector [1, 99]) (by decide)
  exact ⟨s1, h, (hval (by decide)).1⟩

/-! ## The safe-state loop returns -/

/-- A step of the scan never lowers `count`, and raises it when it sets `found`. -/
theorem scan_step_count (s : Engine) (A : List (List Int)) (st : Scan) (i : Nat) :
    st.count ≤ (scan_step s A st i).count ∧
    ((scan_step s A st i).found = true → st.found = true ∨ st.count < (scan_step s A st i).count) := by
  unfold scan_step
  split_ifs
  · exact ⟨Nat.le_succ _, fun _ => Or.inr (Nat.lt_succ_self _)⟩
  · exact ⟨le_refl _, fun h => Or.inl h⟩
  · exact ⟨le_refl _, fun h => Or.inl h⟩

theorem scan_fold_count (s : Engine) (A : List (List Int)) (l : List Nat) (st : Scan) :
    st.count ≤ (l.foldl (scan_step s A) st).count ∧
    ((l.foldl (scan_step s A) st).found = true →
      st.found = true ∨ st.count < (l.foldl (scan_step s A) st).count) := by
  induction l generalizing st with
  | nil => exact ⟨le_refl _, fun h => Or.inl h⟩
  | cons i l ih =>
    simp only [List.foldl_cons]
    obtain ⟨h1, h2⟩ := scan_step_count s A st i
    obtain ⟨h3, h4⟩ := ih (scan_step s A st i)
    refine ⟨le_trans h1 h3, fun hf => ?_⟩
    rcases h4 hf with h | h
    · rcases h2 h with h | h
      · exact Or.inl h
      · exact Or.inr (lt_of_lt_of_le h h3)
    · exact Or.inr (lt_of_le_of_lt h1 h)

/-- A pass that found a process has raised `count`. -/
theorem scan_pass_found (s : Engine) (A : List (List Int)) (st : Scan)
    (h : (scan_pass s A st).found = true) : st.count < (scan_pass s A st).count := by
  unfold scan_pass at h ⊢
  rcases (scan_fold_count s A (List.range s.num_processes) { st with found := false }).2 h with h | h
  · simp at h
  · exact h

/-- The `while` loop ends within the fuel `can_complete` gives it. -/
theorem scan_loop_returns (s : Engine) (A : List (List Int)) (fuel : Nat) (st : Scan)
    (h : s.num_processes ≤ fuel + st.count) : ∃ st1, scan_loop s A fuel st = some st1 := by
  induction fuel generalizing st with
  | zero =>
    unfold scan_loop
    rw [if_neg (by omega)]
    exact ⟨st, rfl⟩
  | succ fuel ih =>
    unfold scan_loop
    by_cases hc : st.count < s.num_processes
    · rw [if_pos hc]
      simp only
      by_cases hf : (scan_pass s A st).found = true
      · simp only [hf, Bool.not_true, Bool.false_eq_true, if_false]
        exact ih _ (by have := scan_pass_found s A st hf; omega)
      · simp only [hf, Bool.not_false, if_true]
        exact ⟨_, rfl⟩
    · rw [if_neg hc]
      exact ⟨st, rfl⟩

/-- The call `can_complete` returns, whatever its arguments. -/
theorem can_complete_returns (s : Engine) (p : Nat) (work : List Int) (A : List (List Int)) :
    ∃ b, can_complete s p work A = some b := by
  unfold can_complete
  obtain ⟨st1, h⟩ := scan_loop_returns s A s.num_processes
    { work := work, finished := List.replicate s.num_processes false, count := 0, found := false }
    (by simp)
  exact ⟨_, by rw [h]; rfl⟩

/-- The call `is_safe_state` returns, whatever its arguments. -/
theorem is_safe_state_returns (s : Engine) (p : Nat) (req : List Int) :
    ∃ b, is_safe_state s p req = some b := by
  unfold is_safe_state
  split
  · exact ⟨false, rfl⟩
  · exact can_complete_returns s p _ _

/-! ## The Banker decision -/

/-- Claim C10, Banker decision rule: for every engine state, risk model, process id and
request vector, `ml_augmented_bankers_check(p, req)` returns, and it returns true if and
only if `is_safe_state(p, req)` is true and the prediction of the risk model on the
feature vector of the state is strictly less than 0.5; when `is_safe_state` rejects the
request the check returns false. -/
theorem bankers_decision_rule (exp : Rat → Rat) (s : Engine) (p : Nat) (req : List Int) :
    (∃ b, ml_augmented_bankers_check exp s p req = some b) ∧
    (ml_augmented_bankers_check exp s p req = some true ↔
      is_safe_state s p req = some true ∧ s.risk_model.predict exp (features s) < 1 / 2) ∧
    (is_safe_state s p req = some false →
      ml_augmented_bankers_check exp s p req = some false) := by
  obtain ⟨b, hb⟩ := is_safe_state_returns s p req
  simp only [ml_augmented_bankers_check, hb, predict_deadlock_risk]
  refine ⟨⟨_, rfl⟩, ?_, ?_⟩
  · cases b <;> simp
  · intro h
    cases b
    · simp
    · simp at h

/-! ## The max-need bound -/

/-- The risk the zero-weight network `unit_net` reports is `sigmoid(-1)`. -/
theorem unit_net_risk (exp : Rat → Rat) (avail alloc need : Int) :
    (unit_engine avail alloc need).risk_model.predict exp (features (unit_engine avail alloc need))
      = 1 / (1 + exp 1) := by
  simp [SimpleNeuralNetwork.predict, hidden_unit, unit_net, features, unit_engine, sigmoid, rdD,
    rdD2, List.range_succ, List.replicate]

/-- With any `exp` that has `exp 1 > 1` the Banker decision approves the request `(5)` of
the process whose maximum need is `2`. -/
theorem bankers_check_approves_beyond_max_need (exp : Rat → Rat) (hexp : 1 < exp 1) :
    ml_augmented_bankers_check exp (unit_engine 10 0 2) 0 [5] = some true := by
  have hsafe : is_safe_state (unit_engine 10 0 2) 0 [5] = some true := by decide
  have hrisk : (1 : Rat) / (1 + exp 1) < 1 / 2 := by
    rw [div_lt_div_iff₀ (by linarith) (by norm_num)]
    linarith
  simp only [ml_augmented_bankers_check, hsafe, predict_deadlock_risk, unit_net_risk, hrisk,
    decide_True, Bool.and_self]

/-- Claim C5 as stated fails: on the one-resource engine with `available = (10)`,
`allocation = (0)` and `max_need = (2)` the bound `0 <= allocation <= max_need` holds;
`is_safe_state(0, (5))` is true; `allocate_resources(0, (5))` returns normally, and in
the state it returns `allocation[0][0] = 5` exceeds `max_need[0][0] = 2`. -/
theorem allocate_exceeds_max_need :
    (unit_engine 10 0 2).Shaped ∧ WithinMaxNeed (unit_engine 10 0 2) ∧
    is_safe_state (unit_engine 10 0 2) 0 [5] = some true ∧
    ∃ s1, allocate_resources (unit_engine 10 0 2) 0 (VecRef.vector [5]) = Except.ok s1 ∧
      rd2 s1.allocated 0 0 = 5 ∧ rd2 s1.max_need 0 0 = 2 ∧ ¬ WithinMaxNeed s1 :=
  ⟨by decide, by decide, by decide, _, rfl, by decide, by decide, by decide⟩

/-- Claim C5, amended: on an engine of the constructed shape in which
`0 <= allocation[q][r] <= max_need[q][r]` holds for all `(q,r)`, with `p` in `[0,P)` and
`req` of length `R` (a separate vector or a member of the engine passed by reference, its
own `available` included): if `0 <= allocation[p][r] + req[r] <= max_need[p][r]` for
every `r`, then `allocate_resources(p, req)` returns a state in which
`0 <= allocation[q][r] <= max_need[q][r]` still holds for all `(q,r)`. -/
theorem allocate_within_max_need (s : Engine) (hs : s.Shaped) (hinv : WithinMaxNeed s)
    (p : Nat) (hp : p < s.num_processes) (req : VecRef)
    (_hlen : (req.deref s).length = s.num_resources)
    (hfit : ∀ r < s.num_resources, 0 ≤ rd2 s.allocated p r + rd (req.deref s) r ∧
      rd2 s.allocated p r + rd (req.deref s) r ≤ rd2 s.max_need p r) :
    ∃ s1, allocate_resources s p req = Except.ok s1 ∧ WithinMaxNeed s1 := by
  by_cases hne : req = VecRef.available
  · subst hne
    obtain ⟨s1, h, _, ⟨h1, h2, h3, _⟩, _, hm⟩ := allocate_resources_available_spec s hs p
    refine ⟨s1, h, ?_⟩
    intro q hq r hr
    rw [h2] at hq
    rw [h1] at hr
    rw [hm, h3]
    exact hinv q hq r hr
  · obtain ⟨s1, h, _, ⟨h1, h2, h3, _⟩, _, hb⟩ := allocate_resources_spec s hs p hp req hne
    refine ⟨s1, h, ?_⟩
    intro q hq r hr
    rw [h2] at hq
    rw [h1] at hr
    rw [hb q r hr, h3]
    by_cases hqp : q = p
    · subst hqp
      rw [if_pos rfl]
      exact hfit r hr
    · rw [if_neg hqp]
      exact hinv q hq r hr

/-- Witness for the amended C5: the request `(2)` of the process whose maximum need is
`2`. -/
theorem allocate_within_max_need_witness :
    ∃ s1, allocate_resources (unit_engine 10 0 2) 0 (VecRef.vector [2]) = Except.ok s1 ∧
      WithinMaxNeed s1 :=
  allocate_within_max_need (unit_engine 10 0 2) (by decide) (by decide) 0 (by decide)
    (VecRef.vector [2]) (by decide) (by decide)

/-! ## The scan of can_complete -/

theorem can_allocate_iff (s : Engine) (A : List (List Int)) (w : List Int) (i : Nat) :
    can_allocate s A w i = true ↔
      ∀ j < s.num_resources, rd2 s.max_need i j - rd2 A i j ≤ rd w j := by
  simp only [can_allocate, List.all_eq_true, List.mem_range, Bool.not_eq_true',
    decide_eq_false_iff_not, not_lt, gt_iff_lt]

theorem reclaim_fold_spec (A : List (List Int)) (i : Nat) (w : List Int) (n : Nat) :
    let w1 := (List.range n).foldl (fun w j => wr w j (rd w j + rd2 A i j)) w
    w1.length = w.length ∧
    ∀ r, rd w1 r = if r < n ∧ r < w.length then rd w r + rd2 A i r else rd w r := by
  induction n with
  | zero => simp
  | succ n ih =>
    simp only [List.range_succ, List.foldl_append, List.foldl_cons, List.foldl_nil]
    obtain ⟨hl, hr⟩ := ih
    refine ⟨by rw [length_wr]; exact hl, fun r => ?_⟩
    rw [rd_wr, hr, hr, hl]
    by_cases hnr : n = r
    · subst hnr
      by_cases hlen : n < w.length
      · simp [hlen]
      · simp [hlen]
    · by_cases hlt : r < n
      · have : r < n + 1 := by omega
        simp [hnr, hlt, this]
      · have : ¬ r < n + 1 := by omega
        simp [hnr, hlt, this]

theorem reclaim_spec (s : Engine) (A : List (List Int)) (w : List Int) (i : Nat)
    (hw : w.length = s.num_resources) :
    (reclaim s A w i).length = s.num_resources ∧
    ∀ r < s.num_resources, rd (reclaim s A w i) r = rd w r + rd2 A i r := by
  obtain ⟨hl, hr⟩ := reclaim_fold_spec A i w s.num_resources
  refine ⟨by unfold reclaim; rw [hl, hw], fun r hlt => ?_⟩
  unfold reclaim
  rw [hr, if_pos ⟨hlt, by rw [hw]; exact hlt⟩]

/-- A safe order stays safe when a process that can be satisfied now is appended. -/
theorem safeOrder_snoc (R : Nat) (need A : Nat → Nat → Int) (W : Nat → Int)
    (order : List Nat) (q : Nat) (h : SafeOrder R need A W order)
    (hq : ∀ r < R, need q r - A q r ≤ W r + (order.map (fun e => A e r)).sum) :
    SafeOrder R need A W (order ++ [q]) := by
  intro earlier x later hsplit r hr
  rcases List.eq_nil_or_concat later with hnil | ⟨later1, y, hcat⟩
  · subst hnil
    have h2 : order ++ [q] = earlier ++ [x] := hsplit
    obtain ⟨h3, h4⟩ := List.append_inj' h2 rfl
    have hx : q = x := by simpa using h4
    subst hx
    subst h3
    exact hq r hr
  · subst hcat
    have h2 : order ++ [q] = (earlier ++ x :: later1) ++ [y] := by
      rw [hsplit]; simp
    obtain ⟨h3, _⟩ := List.append_inj' h2 rfl
    exact h earlier x later1 h3 r hr

theorem safeOrder_nil (R : Nat) (need A : Nat → Nat → Int) (W : Nat → Int) :
    SafeOrder R need A W [] := by
  intro earlier x later hsplit
  exact absurd hsplit (by simp)

theorem getD_set_bool (l : List Bool) (i q : Nat) (hi : i < l.length) :
    (l.set i true).getD q false = if q = i then true else l.getD q false := by
  simp only [List.getD_eq_getElem?_getD, List.getElem?_set]
  by_cases hqi : q = i
  · subst hqi; simp [hi]
  · have : ¬ i = q := fun h => hqi h.symm
    simp [hqi, this]

/-- One step of the scan keeps the invariant. -/
theorem scan_step_inv (s : Engine) (A : List (List Int)) (W0 : List Int) (st : Scan)
    (order : List Nat) (i : Nat) (hi : i < s.num_processes) (h : ScanInv s A W0 st order) :
    ∃ order1, ScanInv s A W0 (scan_step s A st i) order1 := by
  obtain ⟨hnd, hmem, hcount, hflen, hwlen, hwork, hsafe⟩ := h
  unfold scan_step
  by_cases hfin : st.finished.getD i false = true
  · simp only [hfin, Bool.not_true, Bool.false_eq_true, if_false]
    exact ⟨order, hnd, hmem, hcount, hflen, hwlen, hwork, hsafe⟩
  · have hfin2 : st.finished.getD i false = false := by simpa using hfin
    simp only [hfin2, Bool.not_false, if_true]
    by_cases hcan : can_allocate s A st.work i = true
    · simp only [hcan, if_true]
      obtain ⟨hrl, hrv⟩ := reclaim_spec s A st.work i hwlen
      have hnot : i ∉ order := fun hin => hfin ((hmem i).mp hin)
      refine ⟨order ++ [i], ?_, ?_, ?_, ?_, hrl, ?_, ?_⟩
      · exact List.Nodup.append hnd (List.nodup_singleton i) (by simpa using hnot)
      · intro q
        rw [getD_set_bool _ _ _ (by rw [hflen]; exact hi)]
        by_cases hqi : q = i
        · subst hqi; simp
        · simp [hqi, hmem q]
      · simp [hcount]
      · simp [hflen]
      · intro r hr
        rw [hrv r hr, hwork r hr]
        simp only [List.map_append, List.sum_append, List.map_cons, List.map_nil, List.sum_cons,
          List.sum_nil, add_zero]
        ring
      · apply safeOrder_snoc _ _ _ _ _ _ hsafe
        intro r hr
        rw [← hwork r hr]
        exact (can_allocate_iff s A st.work i).mp hcan r hr
    · simp only [hcan, if_false]
      exact ⟨order, hnd, hmem, hcount, hflen, hwlen, hwork, hsafe⟩

theorem scan_fold_inv (s : Engine) (A : List (List Int)) (W0 : List Int) (l : List Nat)
    (hl : ∀ i ∈ l, i < s.num_processes) (st : Scan) (order : List Nat)
    (h : ScanInv s A W0 st order) :
    ∃ order1, ScanInv s A W0 (l.foldl (scan_step s A) st) order1 := by
  induction l generalizing st order with
  | nil => exact ⟨order, h⟩
  | cons i l ih =>
    simp only [List.foldl_cons]
    obtain ⟨order1, h1⟩ := scan_step_inv s A W0 st order i (hl i (List.mem_cons_self _ _)) h
    exact ih (fun j hj => hl j (List.mem_cons_of_mem _ hj)) _ order1 h1

theorem scan_pass_inv (s : Engine) (A : List (List Int)) (W0 : List Int) (st : Scan)
    (order : List Nat) (h : ScanInv s A W0 st order) :
    ∃ order1, ScanInv s A W0 (scan_pass s A st) order1 := by
  unfold scan_pass
  exact scan_fold_inv s A W0 _ (fun i hi => List.mem_range.mp hi) _ order h

theorem scan_step_found (s : Engine) (A : List (List Int)) (st : Scan) (i : Nat)
    (h : st.found = true) : (scan_step s A st i).found = true := by
  unfold scan_step
  split_ifs <;> simp [h]

theorem scan_fold_found (s : Engine) (A : List (List Int)) (l : List Nat) (st : Scan)
    (h : st.found = true) : (l.foldl (scan_step s A) st).found = true := by
  induction l generalizing st with
  | nil => exact h
  | cons i l ih => exact ih _ (scan_step_found s A st i h)

/-- A scan that ends with `found` still false has changed nothing and has met no
unfinished process that could be satisfied. -/
theorem scan_fold_quiet (s : Engine) (A : List (List Int)) (l : List Nat) (st : Scan)
    (h : (l.foldl (scan_step s A) st).found = false) :
    l.foldl (scan_step s A) st = st ∧
    ∀ i ∈ l, st.finished.getD i false = false → can_allocate s A st.work i = false := by
  induction l generalizing st with
  | nil => exact ⟨rfl, fun i hi => absurd hi (List.not_mem_nil i)⟩
  | cons i l ih =>
    simp only [List.foldl_cons] at h ⊢
    have hstep : scan_step s A st i = st ∧
        (st.finished.getD i false = false → can_allocate s A st.work i = false) := by
      by_cases hfin : st.finished.getD i false = true
      · refine ⟨by simp only [scan_step, hfin, Bool.not_true, Bool.false_eq_true, if_false],
          fun hc => ?_⟩
        rw [hfin] at hc; exact absurd hc (by simp)
      · have hfin2 : st.finished.getD i false = false := by simpa using hfin
        by_cases hcan : can_allocate s A st.work i = true
        · exfalso
          have hf : (scan_step s A st i).found = true := by
            simp only [scan_step, hfin2, hcan, Bool.not_false, if_true]
          have := scan_fold_found s A l _ hf
          rw [h] at this
          exact absurd this (by simp)
        · have hcan2 : can_allocate s A st.work i = false := by simpa using hcan
          exact ⟨by simp only [scan_step, hfin2, hcan2, Bool.not_false, if_true,
            Bool.false_eq_true, if_false], fun _ => hcan2⟩
    rw [hstep.1] at h ⊢
    obtain ⟨h1, h2⟩ := ih st h
    refine ⟨h1, fun j hj => ?_⟩
    rcases List.mem_cons.mp hj with hji | hjl
    · subst hji; exact hstep.2
    · exact h2 j hjl

/-- What the `while` loop of `can_complete` returns: the invariant holds, and if some
process is left unfinished then no unfinished process can be satisfied. -/
theorem scan_loop_spec (s : Engine) (A : List (List Int)) (W0 : List Int) (fuel : Nat)
    (st st1 : Scan) (order : List Nat) (h : ScanInv s A W0 st order)
    (hrun : scan_loop s A fuel st = some st1) :
    ∃ order1, ScanInv s A W0 st1 order1 ∧
      (st1.count < s.num_processes → ∀ i < s.num_processes,
        st1.finished.getD i false = false → can_allocate s A st1.work i = false) := by
  induction fuel generalizing st order with
  | zero =>
    unfold scan_loop at hrun
    by_cases hc : st.count < s.num_processes
    · rw [if_pos hc] at hrun; exact absurd hrun (by simp)
    · rw [if_neg hc] at hrun
      simp only [Option.some.injEq] at hrun
      subst hrun
      exact ⟨order, h, fun hlt => absurd hlt hc⟩
  | succ fuel ih =>
    unfold scan_loop at hrun
    by_cases hc : st.count < s.num_processes
    · rw [if_pos hc] at hrun
      simp only at hrun
      obtain ⟨order1, hinv1⟩ := scan_pass_inv s A W0 st order h
      by_cases hf : (scan_pass s A st).found = true
      · simp only [hf, Bool.not_true, Bool.false_eq_true, if_false] at hrun
        exact ih _ order1 hinv1 hrun
      · have hf2 : (scan_pass s A st).found = false := by simpa using hf
        simp only [hf2, Bool.not_false, if_true, Option.some.injEq] at hrun
        subst hrun
        refine ⟨order1, hinv1, fun _ i hi hfin => ?_⟩
        have hq := scan_fold_quiet s A (List.range s.num_processes) { st with found := false }
          (by unfold scan_pass at hf2; exact hf2)
        have heq : scan_pass s A st = { st with found := false } := hq.1
        rw [heq] at hfin ⊢
        exact hq.2 i (List.mem_range.mpr hi) hfin
    · rw [if_neg hc] at hrun
      simp only [Option.some.injEq] at hrun
      subst hrun
      exact ⟨order, h, fun hlt => absurd hlt hc⟩

/-- The first element of a list that fails a property, with everything before it. -/
theorem first_failing {α : Type} (Q : α → Prop) (l : List α) (h : ∃ x ∈ l, ¬ Q x) :
    ∃ earlier q later, l = earlier ++ q :: later ∧ (∀ e ∈ earlier, Q e) ∧ ¬ Q q := by
  induction l with
  | nil => obtain ⟨x, hx, _⟩ := h; exact absurd hx (List.not_mem_nil x)
  | cons a l ih =>
    by_cases ha : Q a
    · obtain ⟨x, hx, hqx⟩ := h
      rcases List.mem_cons.mp hx with hxa | hxl
      · subst hxa; exact absurd ha hqx
      · obtain ⟨earlier, q, later, hsplit, hall, hq⟩ := ih ⟨x, hxl, hqx⟩
        refine ⟨a :: earlier, q, later, by rw [hsplit]; rfl, ?_, hq⟩
        intro e he
        rcases List.mem_cons.mp he with hea | hel
        · subst hea; exact ha
        · exact hall e hel
    · exact ⟨[], a, l, rfl, fun e he => absurd he (List.not_mem_nil e), ha⟩

/-- A sum of non-negative terms over a duplicate-free list grows with the list. -/
theorem sum_le_sum_of_subset (f : Nat → Int) (l1 l2 : List Nat) (h1 : l1.Nodup)
    (h2 : l2.Nodup) (hsub : ∀ x ∈ l1, x ∈ l2) (hnn : ∀ x ∈ l2, 0 ≤ f x) :
    (l1.map f).sum ≤ (l2.map f).sum := by
  rw [← List.sum_toFinset f h1, ← List.sum_toFinset f h2]
  apply Finset.sum_le_sum_of_subset_of_nonneg
  · intro x hx
    exact List.mem_toFinset.mpr (hsub x (List.mem_toFinset.mp hx))
  · intro x hx _
    exact hnn x (List.mem_toFinset.mp hx)

theorem getD_replicate_false (n q : Nat) : (List.replicate n false).getD q false = false := by
  simp only [List.getD_eq_getElem?_getD, List.getElem?_replicate]
  split_ifs <;> rfl

theorem scanInv_init (s : Engine) (A : List (List Int)) (W0 : List Int)
    (hW : W0.length = s.num_resources) :
    ScanInv s A W0
      { work := W0, finished := List.replicate s.num_processes false, count := 0, found := false }
      [] := by
  refine ⟨List.nodup_nil, fun q => ?_, rfl, List.length_replicate _ _, hW, fun r _ => ?_,
    safeOrder_nil _ _ _ _⟩
  · simp only [getD_replicate_false]
    simp
  · simp

theorem scanInv_lt (s : Engine) (A : List (List Int)) (W0 : List Int) (st : Scan)
    (order : List Nat) (h : ScanInv s A W0 st order) : ∀ q ∈ order, q < s.num_processes := by
  intro q hq
  obtain ⟨_, hmem, _, hflen, _⟩ := h
  have hfin := (hmem q).mp hq
  by_contra hge
  rw [List.getD_eq_default _ _ (by rw [hflen]; omega)] at hfin
  exact absurd hfin (by simp)

/-- The call `can_complete` decides the existence of a safe order: with a work vector of `R`
entries and non-negative holdings it returns true iff some ordering of all `P`
processes is a safe order; it always returns. -/
theorem can_complete_iff (s : Engine) (A : List (List Int)) (W0 : List Int) (p : Nat)
    (hW : W0.length = s.num_resources)
    (hnn : ∀ q < s.num_processes, ∀ r < s.num_resources, 0 ≤ rd2 A q r) :
    can_complete s p W0 A = some true ↔
      ∃ order : List Nat, order.Perm (List.range s.num_processes) ∧
        SafeOrder s.num_resources (rd2 s.max_need) (rd2 A) (rd W0) order := by
  obtain ⟨st1, hrun⟩ := scan_loop_returns s A s.num_processes
    { work := W0, finished := List.replicate s.num_processes false, count := 0, found := false }
    (by simp)
  obtain ⟨order1, hinv, hstuck⟩ := scan_loop_spec s A W0 _ _ st1 [] (scanInv_init s A W0 hW) hrun
  have hlt := scanInv_lt s A W0 st1 order1 hinv
  obtain ⟨hnd, hmem, hcount, _, _, hwork, hsafe⟩ := hinv
  have hsubperm : order1.Subperm (List.range s.num_processes) :=
    List.subperm_of_subset hnd (fun q hq => List.mem_range.mpr (hlt q hq))
  have hval : can_complete s p W0 A = some (decide (st1.count = s.num_processes)) := by
    unfold can_complete; rw [hrun]; rfl
  rw [hval]
  simp only [Option.some.injEq, decide_eq_true_eq]
  constructor
  · intro hfull
    refine ⟨order1, ?_, hsafe⟩
    apply hsubperm.perm_of_length_le
    rw [List.length_range, ← hcount, hfull]
  · rintro ⟨ord, hperm, hord⟩
    by_contra hne
    have hle : order1.length ≤ s.num_processes := by
      have := hsubperm.length_le
      rwa [List.length_range] at this
    have hcl : st1.count < s.num_processes := by omega
    have hordnd : ord.Nodup := hperm.nodup_iff.mpr (List.nodup_range _)
    have hmiss : ∃ x ∈ ord, ¬ x ∈ order1 := by
      by_contra hall
      push_neg at hall
      have h1 : ord.Subperm order1 := List.subperm_of_subset hordnd hall
      have h2 := h1.length_le
      rw [hperm.length_eq, List.length_range] at h2
      omega
    obtain ⟨earlier, q, later, hsplit, hearlier, hq⟩ := first_failing (fun x => x ∈ order1) ord hmiss
    have hqlt : q < s.num_processes := by
      have : q ∈ ord := by rw [hsplit]; simp
      exact List.mem_range.mp (hperm.subset this)
    have hqfin : st1.finished.getD q false = false := by
      cases hb : st1.finished.getD q false
      · rfl
      · exact absurd ((hmem q).mpr hb) hq
    have hend : earlier.Nodup := by
      have hsub : earlier.Sublist ord := by rw [hsplit]; exact List.sublist_append_left _ _
      exact hordnd.sublist hsub
    have hcan : can_allocate s A st1.work q = true := by
      rw [can_allocate_iff]
      intro r hr
      have h1 := hord earlier q later hsplit r hr
      have h2 := sum_le_sum_of_subset (fun e => rd2 A e r) earlier order1 hend hnd hearlier
        (fun x hx => hnn x (hlt x hx) r hr)
      rw [hwork r hr]
      linarith
    have := hstuck hcl q hqlt hqfin
    rw [hcan] at this
    exact absurd this (by simp)

/-! ## is_safe_state -/

theorem simulate_allocation_append (p : Nat) (req : List Int) (l1 l2 : List Nat)
    (st : List Int × List (List Int)) :
    simulate_allocation p req (l1 ++ l2) st =
      (simulate_allocation p req l1 st).bind (simulate_allocation p req l2) := by
  induction l1 generalizing st with
  | nil => rfl
  | cons i l1 ih =>
    obtain ⟨w, a⟩ := st
    simp only [List.cons_append, simulate_allocation]
    split_ifs
    · rfl
    · exact ih _

/-- The simulation loop of `is_safe_state` performs the updates of `allocate_resources`
on its copies, unless some `req[r]` exceeds `available[r]`. -/
theorem simulate_allocation_range (s : Engine) (p : Nat) (req : List Int) (n : Nat) :
    simulate_allocation p req (List.range n) (s.available, s.allocated) =
      if ∀ r < n, rd req r ≤ rd s.available r then
        some (((List.range n).foldl (allocate_value_step p req) s).available,
          ((List.range n).foldl (allocate_value_step p req) s).allocated)
      else none := by
  induction n with
  | zero => simp [simulate_allocation]
  | succ n ih =>
    rw [List.range_succ, simulate_allocation_append, ih]
    obtain ⟨_, _, ha, _⟩ := allocate_fold_spec p req s n
    by_cases hall : ∀ r < n, rd req r ≤ rd s.available r
    · rw [if_pos hall]
      simp only [Option.some_bind, simulate_allocation, List.foldl_append, List.foldl_cons,
        List.foldl_nil]
      have hn : rd ((List.range n).foldl (allocate_value_step p req) s).available n = rd s.available n := by
        rw [ha n]; simp
      rw [hn]
      by_cases hlast : rd req n ≤ rd s.available n
      · have hall2 : ∀ r < n + 1, rd req r ≤ rd s.available r := by
          intro r hr
          rcases Nat.lt_succ_iff_lt_or_eq.mp hr with h | h
          · exact hall r h
          · subst h; exact hlast
        rw [if_neg (by omega), if_pos hall2]
        simp only [allocate_value_step, hn]
      · have hall2 : ¬ ∀ r < n + 1, rd req r ≤ rd s.available r :=
          fun h => hlast (h n (Nat.lt_succ_self n))
        rw [if_pos (by omega), if_neg hall2]
    · have hall2 : ¬ ∀ r < n + 1, rd req r ≤ rd s.available r :=
        fun h => hall (fun r hr => h r (Nat.lt_succ_of_lt hr))
      rw [if_neg hall, if_neg hall2]
      rfl

theorem is_safe_state_eq (s : Engine) (p : Nat) (req : List Int) :
    is_safe_state s p req =
      if ∀ r < s.num_resources, rd req r ≤ rd s.available r then
        can_complete s p ((List.range s.num_resources).foldl (allocate_value_step p req) s).available
          ((List.range s.num_resources).foldl (allocate_value_step p req) s).allocated
      else some false := by
  unfold is_safe_state
  rw [simulate_allocation_range]
  split_ifs <;> rfl

/-- A safe order only looks at the entries `r < R`. -/
theorem safeOrder_congr (R : Nat) (need A B : Nat → Nat → Int) (W V : Nat → Int)
    (order : List Nat) (hA : ∀ q r, r < R → A q r = B q r) (hW : ∀ r < R, W r = V r)
    (h : SafeOrder R need A W order) : SafeOrder R need B V order := by
  intro earlier q later hsplit r hr
  have h1 := h earlier q later hsplit r hr
  have hsum : earlier.map (fun e => A e r) = earlier.map (fun e => B e r) :=
    List.map_congr_left (fun e _ => hA e r hr)
  rw [← hA q r hr, ← hW r hr, ← hsum]
  exact h1

/-- The call `is_safe_state` against the safe-state definition, for shaped non-negative states. -/
theorem is_safe_state_iff (s : Engine) (hs : s.Shaped)
    (halloc : ∀ q < s.num_processes, ∀ r < s.num_resources, 0 ≤ rd2 s.allocated q r)
    (p : Nat) (hp : p < s.num_processes) (req : List Int)
    (hreq : ∀ r < s.num_resources, 0 ≤ rd req r) :
    is_safe_state s p req = some true ↔
      (∀ r < s.num_resources, rd req r ≤ rd s.available r) ∧ SafeAfterGrant s p req := by
  rw [is_safe_state_eq]
  obtain ⟨hsh, ⟨_, _, hmax, _⟩, ha, hb⟩ := allocate_loop_shaped s hs p hp req
  have hA : ∀ q r, r < s.num_resources →
      rd2 ((List.range s.num_resources).foldl (allocate_value_step p req) s).allocated q r =
        grant_alloc s p req q r := fun q r hr => hb q r hr
  have hW : ∀ r < s.num_resources,
      rd ((List.range s.num_resources).foldl (allocate_value_step p req) s).available r =
        grant_work s req r := fun r hr => ha r hr
  by_cases hfit : ∀ r < s.num_resources, rd req r ≤ rd s.available r
  · rw [if_pos hfit]
    have hlen : ((List.range s.num_resources).foldl (allocate_value_step p req) s).available.length =
        s.num_resources := by
      have := hsh.1
      obtain ⟨⟨h1, _⟩, _⟩ := allocate_fold_spec p req s s.num_resources
      rw [this, h1]
    have hnn : ∀ q < s.num_processes, ∀ r < s.num_resources,
        0 ≤ rd2 ((List.range s.num_resources).foldl (allocate_value_step p req) s).allocated q r := by
      intro q hq r hr
      rw [hb q r hr]
      have h1 := halloc q hq r hr
      have h2 := hreq r hr
      split_ifs
      · omega
      · exact h1
    rw [can_complete_iff s _ _ p hlen hnn]
    constructor
    · rintro ⟨order, hperm, hsafe⟩
      exact ⟨hfit, order, hperm, safeOrder_congr _ _ _ _ _ _ _ hA hW hsafe⟩
    · rintro ⟨_, order, hperm, hsafe⟩
      exact ⟨order, hperm, safeOrder_congr _ _ _ _ _ _ _
        (fun q r hr => (hA q r hr).symm) (fun r hr => (hW r hr).symm) hsafe⟩
  · rw [if_neg hfit]
    simp only [Option.some.injEq, Bool.false_eq_true, false_iff, not_and]
    intro h
    exact absurd h hfit

/-- Claim C1, Banker's test correctness: on an engine of the constructed shape whose
allocation entries are all non-negative, with `p` in `[0,P)` and a non-negative request
vector `req` of length `R`, `is_safe_state(p, req)` returns, and it returns true if and
only if `req[r] <= available[r]` for every `r` and, in the state obtained by simulating
the grant (`W = available - req`, `A` = allocation with `req` added to row `p`), some
ordering of all `P` processes has every process `q` in turn satisfy
`max_need[q][r] - A[q][r] <= W[r] +` (the `A` rows of the processes earlier in the
ordering, summed) for every `r`. -/
theorem bankers_test_correct (s : Engine) (hs : s.Shaped)
    (halloc : ∀ q < s.num_processes, ∀ r < s.num_resources, 0 ≤ rd2 s.allocated q r)
    (p : Nat) (hp : p < s.num_processes) (req : List Int)
    (_hlen : req.length = s.num_resources) (hreq : ∀ r < s.num_resources, 0 ≤ rd req r) :
    (∃ b, is_safe_state s p req = some b) ∧
    (is_safe_state s p req = some true ↔
      (∀ r < s.num_resources, rd req r ≤ rd s.available r) ∧
      ∃ order : List Nat, order.Perm (List.range s.num_processes) ∧
        ∀ earlier q later, order = earlier ++ q :: later → ∀ r < s.num_resources,
          rd2 s.max_need q r - grant_alloc s p req q r ≤
            grant_work s req r + (earlier.map (fun e => grant_alloc s p req e r)).sum) :=
  ⟨is_safe_state_returns s p req, is_safe_state_iff s hs halloc p hp req hreq⟩

/-- Witness for C1, scenario 1 of the engine of `main`: the request `(1,0,2)` of
process 0 is within `available = (10,5,7)`, `is_safe_state` returns true, and a safe
ordering of the five processes exists. -/
theorem bankers_test_correct_witness :
    is_safe_state (main_engine empty_net) 0 [1, 0, 2] = some true ∧
    ∃ order : List Nat, order.Perm (List.range 5) ∧
      ∀ earlier q later, order = earlier ++ q :: later → ∀ r < 3,
        rd2 (main_engine empty_net).max_need q r - grant_alloc (main_engine empty_net) 0 [1, 0, 2] q r ≤
          grant_work (main_engine empty_net) [1, 0, 2] r +
            (earlier.map (fun e => grant_alloc (main_engine empty_net) 0 [1, 0, 2] e r)).sum :=
  ⟨by decide,
    ((bankers_test_correct (main_engine empty_net) (by decide) (by decide) 0 (by decide)
      [1, 0, 2] (by decide) (by decide)).2.mp (by decide)).2⟩

/-! ## Monotonicity of the safe-state test -/

/-- Lowering one term of a sum over a duplicate-free list lowers the sum by as much, if
the term occurs. -/
theorem sum_lower_one (a : Nat → Int) (d : Int) (p : Nat) (l : List Nat) (hl : l.Nodup) :
    (l.map (fun e => if e = p then a e - d else a e)).sum =
      (l.map a).sum - (if p ∈ l then d else 0) := by
  induction l with
  | nil => simp
  | cons x l ih =>
    obtain ⟨hx, hnd⟩ := List.nodup_cons.mp hl
    simp only [List.map_cons, List.sum_cons, ih hnd, List.mem_cons]
    by_cases hxp : x = p
    · subst hxp
      simp [hx]
      ring
    · have hpx : ¬ p = x := fun h => hxp h.symm
      simp only [hxp, hpx, if_false, false_or]
      ring

/-- A safe order after granting `req` is a safe order after granting a smaller request. -/
theorem safeAfterGrant_mono (s : Engine) (p : Nat) (req req1 : List Int)
    (hle : ∀ r < s.num_resources, rd req1 r ≤ rd req r) (h : SafeAfterGrant s p req) :
    SafeAfterGrant s p req1 := by
  obtain ⟨order, hperm, hsafe⟩ := h
  refine ⟨order, hperm, ?_⟩
  have hnd : order.Nodup := hperm.nodup_iff.mpr (List.nodup_range _)
  intro earlier q later hsplit r hr
  have h1 := hsafe earlier q later hsplit r hr
  have hd := hle r hr
  have hend : earlier.Nodup := by
    have hsub : earlier.Sublist order := by rw [hsplit]; exact List.sublist_append_left _ _
    exact hnd.sublist hsub
  have hq : q ∉ earlier := by
    rw [hsplit] at hnd
    have := List.nodup_append.mp hnd
    intro hin
    exact this.2.2 hin (List.mem_cons_self _ _)
  have hsum : (earlier.map (fun e => grant_alloc s p req1 e r)).sum =
      (earlier.map (fun e => grant_alloc s p req e r)).sum -
        (if p ∈ earlier then rd req r - rd req1 r else 0) := by
    rw [← sum_lower_one (fun e => grant_alloc s p req e r) (rd req r - rd req1 r) p earlier hend]
    congr 1
    apply List.map_congr_left
    intro e _
    unfold grant_alloc
    split_ifs <;> ring
  rw [hsum]
  unfold grant_work grant_alloc at h1 ⊢
  by_cases hqp : q = p
  · subst hqp
    rw [if_neg hq]
    simp only [if_true] at h1 ⊢
    linarith
  · simp only [hqp, if_false] at h1 ⊢
    split_ifs <;> linarith

/-- Claim C3, safe-state monotonicity: on an engine of the constructed shape with non-negative
allocation entries, with `p` in `[0,P)` and non-negative request vectors `req` and
`req1` of length `R` such that `req1[r] <= req[r]` for every `r`, if
`is_safe_state(p, req)` returns true then `is_safe_state(p, req1)` returns true. -/
theorem safe_state_monotone (s : Engine) (hs : s.Shaped)
    (halloc : ∀ q < s.num_processes, ∀ r < s.num_resources, 0 ≤ rd2 s.allocated q r)
    (p : Nat) (hp : p < s.num_processes) (req req1 : List Int)
    (_hlen : req.length = s.num_resources) (_hlen1 : req1.length = s.num_resources)
    (hreq : ∀ r < s.num_resources, 0 ≤ rd req r)
    (hreq1 : ∀ r < s.num_resources, 0 ≤ rd req1 r)
    (hle : ∀ r < s.num_resources, rd req1 r ≤ rd req r)
    (hsafe : is_safe_state s p req = some true) :
    is_safe_state s p req1 = some true := by
  obtain ⟨hfit, hord⟩ := (is_safe_state_iff s hs halloc p hp req hreq).mp hsafe
  refine (is_safe_state_iff s hs halloc p hp req1 hreq1).mpr ⟨?_, ?_⟩
  · intro r hr
    exact le_trans (hle r hr) (hfit r hr)
  · exact safeAfterGrant_mono s p req req1 hle hord

/-- Witness for C3 on the engine of `main`: `(1,0,2)` is safe for process 0, hence so is
the smaller request `(1,0,1)`. -/
theorem safe_state_monotone_witness :
    is_safe_state (main_engine empty_net) 0 [1, 0, 2] = some true ∧
    is_safe_state (main_engine empty_net) 0 [1, 0, 1] = some true :=
  ⟨by decide,
    safe_state_monotone (main_engine empty_net) (by decide) (by decide) 0 (by decide)
      [1, 0, 2] [1, 0, 1] (by decide) (by decide) (by decide) (by decide) (by decide)
      (by decide)⟩

/-! ## detect_cycles: the stateful search computes `emitted` -/

theorem pathInv_lt (P : Nat) (st : Dfs) (h : PathInv P st) : ∀ q ∈ st.path, q < P := by
  intro q hq
  obtain ⟨hlen, _, hmem⟩ := h
  have hv := (hmem q).mpr hq
  by_contra hge
  rw [List.getD_eq_default _ _ (by rw [hlen]; omega)] at hv
  exact absurd hv (by simp)

/-- A path that misses a vertex of `[0,P)` has fewer than `P` vertices. -/
theorem pathInv_length_lt (P : Nat) (st : Dfs) (h : PathInv P st) (node : Nat)
    (hn : node < P) (hnot : node ∉ st.path) : st.path.length < P := by
  have hnd : (node :: st.path).Nodup := List.nodup_cons.mpr ⟨hnot, h.2.1⟩
  have hsub : (node :: st.path).Subperm (List.range P) := by
    apply List.subperm_of_subset hnd
    intro x hx
    rcases List.mem_cons.mp hx with hxn | hxp
    · subst hxn; exact List.mem_range.mpr hn
    · exact List.mem_range.mpr (pathInv_lt P st h x hxp)
  have := hsub.length_le
  simp only [List.length_cons, List.length_range] at this
  omega

theorem dropWhile_ne_nil_of_mem (l : List Nat) (x : Nat) (h : x ∈ l) :
    l.dropWhile (fun v => v != x) ≠ [] := by
  intro hnil
  have := (List.dropWhile_eq_nil_iff.mp hnil) x h
  simp at this

theorem record_cycle_spec (st : Dfs) (next : Nat) (h : next ∈ st.path) :
    record_cycle st next =
      { st with cycles := st.cycles ++ [st.path.dropWhile (fun v => v != next)] } := by
  unfold record_cycle
  have hne := dropWhile_ne_nil_of_mem st.path next h
  have hemp : (st.path.dropWhile (fun v => v != next)).isEmpty = false := by
    cases hc : st.path.dropWhile (fun v => v != next) with
    | nil => exact absurd hc hne
    | cons a l => rfl
  simp only [hemp, Bool.not_false, if_true]

/-- The edge loop of `dfs`, given what the recursive call does on unvisited vertices. -/
theorem dfs_edges_spec (P : Nat) (call : Nat → Dfs → Option Dfs) (em : Nat → List (List Nat))
    (path1 : List Nat)
    (hcall : ∀ next st, PathInv P st → st.path = path1 → next < P → next ∉ path1 →
      call next st = some { st with cycles := st.cycles ++ em next })
    (l : List Nat) (hl : ∀ x ∈ l, x < P) (st : Dfs) (hinv : PathInv P st)
    (hpath : st.path = path1) :
    l.foldl (dfs_edge call) (some st) =
      some { st with cycles := st.cycles ++ l.flatMap (edge_cycles em path1) } := by
  induction l generalizing st with
  | nil => simp
  | cons next rest ih =>
    simp only [List.foldl_cons, List.flatMap_cons]
    have hrest : ∀ x ∈ rest, x < P := fun x hx => hl x (List.mem_cons_of_mem _ hx)
    by_cases hv : st.visited.getD next false = true
    · have hin : next ∈ st.path := (hinv.2.2 next).mp hv
      have hstep : dfs_edge call (some st) next = some (record_cycle st next) := by
        simp only [dfs_edge, hv, Bool.not_true, Bool.false_eq_true, if_false]
      rw [hstep, record_cycle_spec st next hin,
        ih hrest { st with cycles := st.cycles ++ [st.path.dropWhile (fun v => v != next)] }
          hinv hpath]
      have hec : edge_cycles em path1 next = [path1.dropWhile (fun v => v != next)] := by
        unfold edge_cycles; rw [if_pos (hpath ▸ hin)]
      simp only [hec, hpath, List.append_assoc]
    · have hv2 : st.visited.getD next false = false := by simpa using hv
      have hnin : next ∉ path1 := by
        rw [← hpath]; intro hin; exact hv ((hinv.2.2 next).mpr hin)
      have hstep : dfs_edge call (some st) next = call next st := by
        simp only [dfs_edge, hv2, Bool.not_false, if_true]
      rw [hstep, hcall next st hinv hpath (hl next (List.mem_cons_self _ _)) hnin,
        ih hrest { st with cycles := st.cycles ++ em next } hinv hpath]
      have hec : edge_cycles em path1 next = em next := by
        unfold edge_cycles; rw [if_neg hnin]
      simp only [hec, List.append_assoc]

theorem set_false_of_getD (l : List Bool) (i : Nat) (h : l.getD i false = false) :
    l.set i false = l := by
  apply List.ext_getElem?
  intro j
  rw [List.getElem?_set]
  by_cases hij : i = j
  · subst hij
    by_cases hi : i < l.length
    · rw [List.getD_eq_getElem _ _ hi] at h
      simp [hi, List.getElem?_eq_getElem hi, h]
    · have : l[i]? = none := by simp; omega
      simp [hi, this]
  · simp [hij]

/-- Entering `node` keeps the invariant. -/
theorem pathInv_push (P : Nat) (st : Dfs) (h : PathInv P st) (node : Nat) (hn : node < P)
    (hnot : node ∉ st.path) :
    PathInv P { st with visited := st.visited.set node true, path := st.path ++ [node] } := by
  obtain ⟨hlen, hnd, hmem⟩ := h
  refine ⟨by simp [hlen], ?_, fun q => ?_⟩
  · exact List.Nodup.append hnd (List.nodup_singleton node) (by simpa using hnot)
  · simp only [List.mem_append, List.mem_singleton]
    rw [getD_set_bool _ _ _ (by rw [hlen]; exact hn)]
    by_cases hq : q = node
    · simp [hq]
    · rw [if_neg hq, hmem q]
      simp [hq]

/-- A call `dfs(node)` on an unvisited vertex returns the captured variables as they
were, with the cycles `emitted` appended. -/
theorem dfs_spec (rag : Nat → List Nat) (P : Nat) (hrange : EdgesInRange rag P) (fuel : Nat) :
    ∀ (node : Nat) (st : Dfs), PathInv P st → node < P → node ∉ st.path →
      P ≤ fuel + st.path.length →
      dfs rag fuel node st =
        some { st with cycles := st.cycles ++ emitted rag fuel node st.path } := by
  induction fuel with
  | zero =>
    intro node st hinv hn hnot hfuel
    have := pathInv_length_lt P st hinv node hn hnot
    omega
  | succ fuel ih =>
    intro node st hinv hn hnot hfuel
    have hinv1 := pathInv_push P st hinv node hn hnot
    have hedges := dfs_edges_spec P (fun next st2 => dfs rag fuel next st2)
      (fun next => emitted rag fuel next (st.path ++ [node])) (st.path ++ [node])
      (fun next st2 hi2 hp2 hlt hnin => by
        have := ih next st2 hi2 hlt (by rw [hp2]; exact hnin)
          (by rw [hp2]; simp only [List.length_append, List.length_singleton]; omega)
        show dfs rag fuel next st2 =
          some { st2 with cycles := st2.cycles ++ emitted rag fuel next (st.path ++ [node]) }
        rw [this, hp2])
      (rag node) (fun x hx => (hrange node x hx).2) _ hinv1 rfl
    simp only [dfs, hedges, emitted]
    have hv : st.visited.getD node false = false := by
      cases hb : st.visited.getD node false
      · rfl
      · exact absurd ((hinv.2.2 node).mp hb) hnot
    simp only [List.dropLast_concat, List.set_set, set_false_of_getD _ _ hv]

theorem pathInv_init (P : Nat) :
    PathInv P { visited := List.replicate P false, path := [], cycles := [] } := by
  refine ⟨List.length_replicate _ _, List.nodup_nil, fun q => ?_⟩
  simp only [getD_replicate_false]
  simp

theorem dfs_roots_spec (s : Engine) (hrange : EdgesInRange s.rag s.num_processes)
    (l : List Nat) (hl : ∀ x ∈ l, x < s.num_processes) (st : Dfs)
    (hinv : PathInv s.num_processes st) (hpath : st.path = []) :
    l.foldl (dfs_root s) (some st) = some { st with
      cycles := st.cycles ++ l.flatMap (fun i => emitted s.rag s.num_processes i []) } := by
  induction l generalizing st with
  | nil => simp
  | cons i rest ih =>
    simp only [List.foldl_cons, List.flatMap_cons]
    have hnot : i ∉ st.path := by rw [hpath]; exact List.not_mem_nil i
    have hv : st.visited.getD i false = false := by
      cases hb : st.visited.getD i false
      · rfl
      · exact absurd ((hinv.2.2 i).mp hb) hnot
    have hstep : dfs_root s (some st) i = dfs s.rag s.num_processes i st := by
      simp only [dfs_root, hv, Bool.not_false, if_true]
    rw [hstep, dfs_spec s.rag s.num_processes hrange s.num_processes i st hinv
      (hl i (List.mem_cons_self _ _)) hnot (Nat.le_add_right _ _),
      ih (fun x hx => hl x (List.mem_cons_of_mem _ hx))
        { st with cycles := st.cycles ++ emitted s.rag s.num_processes i st.path } hinv hpath]
    simp only [hpath, List.append_assoc]

/-- The call `detect_cycles` returns the cycles `emitted` from the roots `0 .. P-1`, in order. -/
theorem detect_cycles_eq (s : Engine) (hrange : EdgesInRange s.rag s.num_processes) :
    detect_cycles s =
      some ((List.range s.num_processes).flatMap
        (fun i => emitted s.rag s.num_processes i [])) := by
  unfold detect_cycles
  rw [dfs_roots_spec s hrange _ (fun x hx => List.mem_range.mp hx) _
    (pathInv_init s.num_processes) rfl]
  simp

/-! ## detect_cycles: what is emitted -/

/-- Along a path of the graph every vertex reaches the last one. -/
theorem chain_reaches_last (R : Nat → Nat → Prop) (l : List Nat) (b x : Nat)
    (hc : List.Chain' R (l ++ [b])) (hx : x ∈ l ++ [b]) : Relation.ReflTransGen R x b := by
  induction l generalizing x with
  | nil =>
    have : x = b := by simpa using hx
    subst this
    exact Relation.ReflTransGen.refl
  | cons a l ih =>
    rw [List.cons_append, List.chain'_cons'] at hc
    obtain ⟨hhead, htail⟩ := hc
    rcases List.mem_cons.mp hx with hxa | hxl
    · subst hxa
      cases hl : l ++ [b] with
      | nil => exact absurd hl (by simp)
      | cons y rest =>
        have hy : y ∈ l ++ [b] := by rw [hl]; exact List.mem_cons_self _ _
        have hxy : R x y := hhead y (by rw [hl]; rfl)
        exact Relation.ReflTransGen.head hxy (ih y htail hy)
    · exact ih x htail hxl

/-- Whatever `dfs` emits witnesses a cycle of the graph. -/
theorem emitted_sound (rag : Nat → List Nat) (fuel : Nat) :
    ∀ node path, List.Chain' (Edge rag) (path ++ [node]) →
      emitted rag fuel node path ≠ [] → HasCycle rag := by
  induction fuel with
  | zero => intro node path _ h; exact absurd rfl h
  | succ fuel ih =>
    intro node path hchain hne
    have hex : ∃ next ∈ rag node,
        edge_cycles (fun next => emitted rag fuel next (path ++ [node])) (path ++ [node]) next
          ≠ [] := by
      by_contra hall
      push_neg at hall
      exact hne (List.flatMap_eq_nil_iff.mpr hall)
    obtain ⟨next, hnext, hcyc⟩ := hex
    by_cases hin : next ∈ path ++ [node]
    · exact ⟨next, Relation.TransGen.tail' (chain_reaches_last _ path node next hchain hin) hnext⟩
    · unfold edge_cycles at hcyc
      rw [if_neg hin] at hcyc
      apply ih next (path ++ [node]) _ hcyc
      rw [List.chain'_append]
      refine ⟨hchain, List.chain'_singleton next, ?_⟩
      intro x hx y hy
      have hx2 : node = x := by simpa using hx
      have hy2 : next = y := by simpa using hy
      subst hx2; subst hy2
      exact hnext

/-- A duplicate-free list over `[0,P)` that misses a vertex of `[0,P)` is shorter than
`P`. -/
theorem nodup_length_lt (P : Nat) (l : List Nat) (hnd : l.Nodup) (hlt : ∀ x ∈ l, x < P)
    (node : Nat) (hn : node < P) (hnot : node ∉ l) : l.length < P := by
  have hnd2 : (node :: l).Nodup := List.nodup_cons.mpr ⟨hnot, hnd⟩
  have hsub : (node :: l).Subperm (List.range P) := by
    apply List.subperm_of_subset hnd2
    intro x hx
    rcases List.mem_cons.mp hx with hxn | hxp
    · subst hxn; exact List.mem_range.mpr hn
    · exact List.mem_range.mpr (hlt x hxp)
  have := hsub.length_le
  simp only [List.length_cons, List.length_range] at this
  omega

/-- If `dfs(u)` emits nothing, then the search reaches every `w` that `u` reaches, on a
path that extends the one of `u`, and emits nothing there either. -/
theorem emitted_nil_reach (rag : Nat → List Nat) (P : Nat) (hrange : EdgesInRange rag P)
    (u w : Nat) (hreach : Relation.ReflTransGen (Edge rag) u w) (fuel : Nat) (path : List Nat)
    (hnd : path.Nodup) (hlt : ∀ x ∈ path, x < P) (hu : u < P) (hnot : u ∉ path)
    (hfuel : P ≤ fuel + path.length) (hnil : emitted rag fuel u path = []) :
    ∃ fuel1 path1, path1.Nodup ∧ (∀ x ∈ path1, x < P) ∧ w < P ∧ w ∉ path1 ∧
      P ≤ fuel1 + path1.length ∧ (∀ x ∈ path ++ [u], x ∈ path1 ++ [w]) ∧
      emitted rag fuel1 w path1 = [] := by
  induction hreach with
  | refl => exact ⟨fuel, path, hnd, hlt, hu, hnot, hfuel, fun x hx => hx, hnil⟩
  | @tail b c _ hedge ih =>
    obtain ⟨fuel1, path1, hnd1, hlt1, hb, hnot1, hfuel1, hsub1, hnil1⟩ := ih
    have hlen := nodup_length_lt P path1 hnd1 hlt1 b hb hnot1
    obtain ⟨f, hf⟩ : ∃ f, fuel1 = f + 1 := ⟨fuel1 - 1, by omega⟩
    subst hf
    simp only [emitted] at hnil1
    have hc := List.flatMap_eq_nil_iff.mp hnil1 c hedge
    unfold edge_cycles at hc
    by_cases hin : c ∈ path1 ++ [b]
    · rw [if_pos hin] at hc
      exact absurd hc (by simp)
    · rw [if_neg hin] at hc
      refine ⟨f, path1 ++ [b], ?_, ?_, (hrange b c hedge).2, hin, ?_, ?_, hc⟩
      · exact List.Nodup.append hnd1 (List.nodup_singleton b) (by simpa using hnot1)
      · intro x hx
        rcases List.mem_append.mp hx with h | h
        · exact hlt1 x h
        · have : x = b := by simpa using h
          subst this; exact hb
      · simp only [List.length_append, List.length_singleton]; omega
      · intro x hx
        exact List.mem_append_left _ (hsub1 x hx)

/-- From a vertex on a cycle `dfs` emits at least one cycle. -/
theorem emitted_complete (rag : Nat → List Nat) (P : Nat) (hrange : EdgesInRange rag P)
    (v : Nat) (hcyc : Relation.TransGen (Edge rag) v v) :
    v < P ∧ emitted rag P v [] ≠ [] := by
  obtain ⟨u, hreach, hedge⟩ := Relation.TransGen.tail'_iff.mp hcyc
  have hv : v < P := (hrange u v hedge).2
  refine ⟨hv, fun hnil => ?_⟩
  obtain ⟨fuel1, path1, hnd1, hlt1, hu, hnot1, hfuel1, hsub1, hnil1⟩ :=
    emitted_nil_reach rag P hrange v u hreach P [] List.nodup_nil
      (fun x hx => absurd hx (List.not_mem_nil x)) hv (List.not_mem_nil v)
      (Nat.le_add_right _ _) hnil
  have hlen := nodup_length_lt P path1 hnd1 hlt1 u hu hnot1
  obtain ⟨f, hf⟩ : ∃ f, fuel1 = f + 1 := ⟨fuel1 - 1, by omega⟩
  subst hf
  simp only [emitted] at hnil1
  have hc := List.flatMap_eq_nil_iff.mp hnil1 v hedge
  unfold edge_cycles at hc
  rw [if_pos (hsub1 v (by simp))] at hc
  exact absurd hc (by simp)

/-- Claim C2, cycle detection correctness: for every wait-for graph whose edge endpoints all
lie in `[0,P)`, `detect_cycles` returns, and the list it returns is non-empty if and only
if the graph contains a directed cycle, a self-loop `p -> p` counting as a cycle of
length 1. -/
theorem detect_cycles_correct (s : Engine) (hrange : EdgesInRange s.rag s.num_processes) :
    ∃ cycles, detect_cycles s = some cycles ∧ (cycles ≠ [] ↔ HasCycle s.rag) := by
  refine ⟨_, detect_cycles_eq s hrange, ?_⟩
  constructor
  · intro hne
    have hex : ∃ i ∈ List.range s.num_processes, emitted s.rag s.num_processes i [] ≠ [] := by
      by_contra hall
      push_neg at hall
      exact hne (List.flatMap_eq_nil_iff.mpr hall)
    obtain ⟨i, _, hi⟩ := hex
    exact emitted_sound s.rag s.num_processes i [] (List.chain'_singleton i) hi
  · rintro ⟨v, hv⟩ hnil
    obtain ⟨hlt, hne⟩ := emitted_complete s.rag s.num_processes hrange v hv
    exact hne (List.flatMap_eq_nil_iff.mp hnil v (List.mem_range.mpr hlt))

theorem ring_engine_in_range : EdgesInRange ring_engine.rag ring_engine.num_processes := by
  intro a b h
  have hP : ring_engine.num_processes = 5 := rfl
  rw [hP]
  by_cases h0 : a = 0
  · subst h0
    have : ring_engine.rag 0 = [1] := by decide
    rw [this] at h
    simp at h; omega
  · by_cases h1 : a = 1
    · subst h1
      have : ring_engine.rag 1 = [2] := by decide
      rw [this] at h
      simp at h; omega
    · by_cases h2 : a = 2
      · subst h2
        have : ring_engine.rag 2 = [0] := by decide
        rw [this] at h
        simp at h; omega
      · have : ring_engine.rag a = [] := by
          simp [ring_engine, update_rag, main_engine, h0, h1, h2]
        rw [this] at h
        exact absurd h (List.not_mem_nil b)

/-- Witness for C2: with the edges `0 -> 1`, `1 -> 2`, `2 -> 0` `detect_cycles` returns
three cycles, and the graph has a cycle. -/
theorem detect_cycles_correct_witness :
    detect_cycles ring_engine = some [[0, 1, 2], [1, 2, 0], [2, 0, 1]] ∧
    HasCycle ring_engine.rag := by
  have hrun : detect_cycles ring_engine = some [[0, 1, 2], [1, 2, 0], [2, 0, 1]] := by decide
  obtain ⟨cycles, h, hiff⟩ := detect_cycles_correct ring_engine ring_engine_in_range
  rw [hrun] at h
  simp only [Option.some.injEq] at h
  subst h
  exact ⟨hrun, hiff.mp (by simp)⟩

/-! ## Risk prediction reads the state only -/

/-- The state-passing call of `predict_deadlock_risk` gives the prediction and the engine
it was given. -/
theorem predict_deadlock_risk_call_eq (exp : Rat → Rat) (s : Engine) (p : Nat)
    (req : List Int) :
    predict_deadlock_risk_call exp s p req = (s.risk_model.predict exp (features s), s) := rfl

/-- Claim C14, the risk score is a function of the state only: for every engine state and
risk model, `predict_deadlock_risk(p, req)` equals `predict_deadlock_risk(p1, req1)` for
all process ids and request vectors; two engine states with the same `allocated`,
`available` and model parameters get the same value; and the call hands the engine
state back unchanged. -/
theorem risk_depends_on_state_only (exp : Rat → Rat) (s : Engine) (p p1 : Nat)
    (req req1 : List Int) :
    predict_deadlock_risk exp s p req = predict_deadlock_risk exp s p1 req1 ∧
    (∀ s1 : Engine, s1.allocated = s.allocated → s1.available = s.available →
      s1.risk_model = s.risk_model →
      predict_deadlock_risk exp s1 p req = predict_deadlock_risk exp s p req) ∧
    (predict_deadlock_risk_call exp s p req).1 = predict_deadlock_risk exp s p req ∧
    (predict_deadlock_risk_call exp s p req).2 = s := by
  refine ⟨rfl, ?_, rfl, rfl⟩
  intro s1 h1 h2 h3
  simp only [predict_deadlock_risk, features, h1, h2, h3]

/-- Witness for C14: on the engine of `main`, with a network of `3 * 5 + 3` inputs, after
`set_max_need` and `update_rag` (which touch neither `allocated`, `available` nor the
model) the risk of process 3 with request `(9,9,9)` is the risk of process 0 with request
`(1,0,2)` before them. -/
theorem risk_depends_on_state_only_witness :
    predict_deadlock_risk (fun _ => 1)
        (update_rag (set_max_need (main_engine (zero_net 18)) []) 0 1) 3 [9, 9, 9] =
      predict_deadlock_risk (fun _ => 1) (main_engine (zero_net 18)) 0 [1, 0, 2] :=
  ((risk_depends_on_state_only (fun _ => 1) (main_engine (zero_net 18)) 3 0 [9, 9, 9]
    [1, 0, 2]).2.1 (update_rag (set_max_need (main_engine (zero_net 18)) []) 0 1)
      rfl rfl rfl).trans
    (risk_depends_on_state_only (fun _ => 1) (main_engine (zero_net 18)) 3 0 [9, 9, 9]
      [1, 0, 2]).1

/-! ## Wait-Die -/

/-- With both timestamps present `ml_augmented_wait_die` returns
`should_wait && (risk < 0.7)` and the engine it was given. -/
theorem wait_die_eval (exp : Rat → Rat) (s : Engine) (requester holder : Nat)
    (ts : Nat → Option Rat) (tr th : Rat) (hr : ts requester = some tr)
    (hh : ts holder = some th) :
    ml_augmented_wait_die exp s requester holder ts =
      (Except.ok (decide (tr < th) && decide (s.risk_model.predict exp (features s) < 7 / 10)),
        s) := by
  simp only [ml_augmented_wait_die, timestamp_at, hr, hh, predict_deadlock_risk_call_eq]

/-- With a timestamp missing `ml_augmented_wait_die` throws `std::out_of_range` and
leaves the engine as it was. -/
theorem wait_die_throws (exp : Rat → Rat) (s : Engine) (requester holder : Nat)
    (ts : Nat → Option Rat) (h : ts requester = none ∨ ts holder = none) :
    ml_augmented_wait_die exp s requester holder ts =
      (Except.error Exception.out_of_range, s) := by
  cases hr : ts requester with
  | none => simp only [ml_augmented_wait_die, timestamp_at, hr]
  | some tr =>
    cases hh : ts holder with
    | none => simp only [ml_augmented_wait_die, timestamp_at, hr, hh]
    | some th =>
      rcases h with h | h
      · rw [hr] at h; exact absurd h (by simp)
      · rw [hh] at h; exact absurd h (by simp)

/-- Claim C11, Wait-Die decision rule: for every engine state, risk model and timestamp
map containing both ids, `ml_augmented_wait_die(requester, holder, ts)` returns a
boolean, which is true if and only if `ts[requester] < ts[holder]` and the prediction of
the risk model on the feature vector of the state is strictly less than 0.7; with the
timestamps `0:0.0, 1:1.0, 2:2.0` the call with requester 1 and holder 0 returns false
whatever the model, and the call with requester 0 and holder 1 returns true exactly when
the risk is below 0.7. -/
theorem wait_die_decision_rule (exp : Rat → Rat) (s : Engine) :
    (∀ (requester holder : Nat) (ts : Nat → Option Rat) (tr th : Rat),
      ts requester = some tr → ts holder = some th →
      (∃ b, (ml_augmented_wait_die exp s requester holder ts).1 = Except.ok b) ∧
      ((ml_augmented_wait_die exp s requester holder ts).1 = Except.ok true ↔
        tr < th ∧ s.risk_model.predict exp (features s) < 7 / 10)) ∧
    (ml_augmented_wait_die exp s 1 0 scenario_timestamps).1 = Except.ok false ∧
    ((ml_augmented_wait_die exp s 0 1 scenario_timestamps).1 = Except.ok true ↔
      s.risk_model.predict exp (features s) < 7 / 10) := by
  refine ⟨?_, ?_, ?_⟩
  · intro requester holder ts tr th hr hh
    rw [wait_die_eval exp s requester holder ts tr th hr hh]
    refine ⟨⟨_, rfl⟩, ?_⟩
    simp only [Except.ok.injEq, Bool.and_eq_true, decide_eq_true_eq]
  · rw [wait_die_eval exp s 1 0 scenario_timestamps 1 0 (by simp [scenario_timestamps])
      (by simp [scenario_timestamps])]
    simp
  · rw [wait_die_eval exp s 0 1 scenario_timestamps 0 1 (by simp [scenario_timestamps])
      (by simp [scenario_timestamps])]
    simp

/-- Witness for C11: on the engine of `main`, with a network of `3 * 5 + 3` inputs, and
timestamps `0:0.0, 1:1.0, 2:2.0`, requester 2 and holder 1 are both in the map, and the
call returns a boolean. -/
theorem wait_die_decision_rule_witness :
    ∃ b, (ml_augmented_wait_die (fun _ => 1) (main_engine (zero_net 18)) 2 1
      scenario_timestamps).1 = Except.ok b :=
  ((wait_die_decision_rule (fun _ => 1) (main_engine (zero_net 18))).1 2 1 scenario_timestamps 2 1
    (by simp [scenario_timestamps]) (by simp [scenario_timestamps])).1

/-- Claim C12, a missing timestamp is an error: `ml_augmented_wait_die(requester, holder,
ts)` leaves with an exception (`std::out_of_range`, which no handler catches) instead of
returning a boolean if and only if the requester id or the holder id is absent from the
timestamp map, and in that case the engine state is unchanged. -/
theorem wait_die_missing_timestamp (exp : Rat → Rat) (s : Engine) (requester holder : Nat)
    (ts : Nat → Option Rat) :
    ((∃ e, (ml_augmented_wait_die exp s requester holder ts).1 = Except.error e) ↔
      (ts requester = none ∨ ts holder = none)) ∧
    ((∃ e, (ml_augmented_wait_die exp s requester holder ts).1 = Except.error e) →
      (ml_augmented_wait_die exp s requester holder ts).2 = s) := by
  by_cases h : ts requester = none ∨ ts holder = none
  · rw [wait_die_throws exp s requester holder ts h]
    exact ⟨⟨fun _ => h, fun _ => ⟨_, rfl⟩⟩, fun _ => rfl⟩
  · push_neg at h
    obtain ⟨tr, hr⟩ := Option.ne_none_iff_exists'.mp h.1
    obtain ⟨th, hh⟩ := Option.ne_none_iff_exists'.mp h.2
    rw [wait_die_eval exp s requester holder ts tr th hr hh]
    refine ⟨⟨?_, ?_⟩, fun _ => rfl⟩
    · rintro ⟨e, he⟩
      exact absurd he (by simp)
    · intro hnone
      rcases hnone with h1 | h1
      · rw [hr] at h1; exact absurd h1 (by simp)
      · rw [hh] at h1; exact absurd h1 (by simp)

/-- Witness for C12: process 7 has no timestamp in `0:0.0, 1:1.0, 2:2.0`; the call
with requester 7 throws and gives the engine back as it was. -/
theorem wait_die_missing_timestamp_witness :
    (∃ e, (ml_augmented_wait_die (fun _ => 1) (main_engine unit_net) 7 0
      scenario_timestamps).1 = Except.error e) ∧
    (ml_augmented_wait_die (fun _ => 1) (main_engine unit_net) 7 0 scenario_timestamps).2 =
      main_engine unit_net :=
  ⟨(wait_die_missing_timestamp (fun _ => 1) (main_engine unit_net) 7 0
      scenario_timestamps).1.mpr (Or.inl (by simp [scenario_timestamps])),
    (wait_die_missing_timestamp (fun _ => 1) (main_engine unit_net) 7 0
      scenario_timestamps).2 ((wait_die_missing_timestamp (fun _ => 1) (main_engine unit_net)
        7 0 scenario_timestamps).1.mpr (Or.inl (by simp [scenario_timestamps])))⟩

/-! ## Concrete scenario 2 -/

/-- The safe-state test never looks at the risk model. -/
theorem is_safe_state_main_engine (net : SimpleNeuralNetwork) (p : Nat) (req : List Int) :
    is_safe_state (main_engine net) p req = is_safe_state (main_engine empty_net) p req := rfl

/-- Claim C15 as stated fails: in the state of scenario 2 (`R = 3`, `P = 5`, available
`(10,5,7)`, the five `max_need` rows, zero allocation) `is_safe_state(0, (10,5,7))` does
not return false; it returns true. -/
theorem scenario_two_not_false :
    is_safe_state (main_engine empty_net) 0 [10, 5, 7] = some true ∧
    ¬ is_safe_state (main_engine empty_net) 0 [10, 5, 7] = some false :=
  ⟨by decide, by decide⟩

/-- Claim C15, amended: in the state with `R = 3`, `P = 5`, available `(10,5,7)`,
`max_need` rows `(7,5,3)`, `(3,2,2)`, `(9,0,2)`, `(2,2,2)`, `(4,3,3)` and all-zero
allocation, whatever the risk model, `is_safe_state(0, (10,5,7))` returns true: the
request fits `available`, and after the simulated grant process 0 holds more than its
maximum need, so it finishes first and gives everything back. -/
theorem scenario_two_is_safe (net : SimpleNeuralNetwork) :
    is_safe_state (main_engine net) 0 [10, 5, 7] = some true :=
  (is_safe_state_main_engine net 0 [10, 5, 7]).trans (by decide)

/-! ## Degenerate dimensions -/

/-- With no resources every unfinished process can be satisfied. -/
theorem can_allocate_no_resources (s : Engine) (hR : s.num_resources = 0)
    (A : List (List Int)) (w : List Int) (i : Nat) : can_allocate s A w i = true := by
  simp [can_allocate, hR]

theorem reclaim_no_resources (s : Engine) (hR : s.num_resources = 0)
    (A : List (List Int)) (w : List Int) (i : Nat) : reclaim s A w i = w := by
  simp [reclaim, hR]

/-- With no resources the first `n` steps of the first scan finish processes `0 .. n-1`. -/
theorem scan_fold_no_resources (s : Engine) (hR : s.num_resources = 0) (A : List (List Int))
    (w : List Int) (n : Nat) (hn : n ≤ s.num_processes) :
    let st := (List.range n).foldl (scan_step s A)
      { work := w, finished := List.replicate s.num_processes false, count := 0, found := false }
    st.count = n ∧ st.finished.length = s.num_processes ∧
      (∀ i, n ≤ i → st.finished.getD i false = false) ∧ (0 < n → st.found = true) ∧
      st.work = w := by
  induction n with
  | zero =>
    refine ⟨rfl, List.length_replicate _ _, fun i _ => getD_replicate_false _ i, ?_, rfl⟩
    intro h; exact absurd h (Nat.lt_irrefl 0)
  | succ n ih =>
    obtain ⟨hc, hl, hf, _, hw⟩ := ih (Nat.le_of_succ_le hn)
    simp only [List.range_succ, List.foldl_append, List.foldl_cons, List.foldl_nil]
    have hfn := hf n (le_refl n)
    simp only [scan_step, hfn, Bool.not_false, if_true, can_allocate_no_resources s hR,
      reclaim_no_resources s hR]
    refine ⟨by rw [hc], by rw [List.length_set]; exact hl, fun i hi => ?_, by simp, hw⟩
    rw [getD_set_bool _ _ _ (by rw [hl]; omega), if_neg (by omega)]
    exact hf i (by omega)

/-- With no resources `can_complete` returns true. -/
theorem can_complete_no_resources (s : Engine) (hR : s.num_resources = 0) (p : Nat)
    (w : List Int) (A : List (List Int)) : can_complete s p w A = some true := by
  obtain ⟨hc, _, _, hfound, _⟩ := scan_fold_no_resources s hR A w s.num_processes (le_refl _)
  unfold can_complete
  by_cases hP : 0 < s.num_processes
  · have hpass : scan_pass s A
        { work := w, finished := List.replicate s.num_processes false, count := 0,
          found := false } =
        (List.range s.num_processes).foldl (scan_step s A)
          { work := w, finished := List.replicate s.num_processes false, count := 0,
            found := false } := rfl
    have hnot : ¬ ((List.range s.num_processes).foldl (scan_step s A)
        { work := w, finished := List.replicate s.num_processes false, count := 0,
          found := false }).count < s.num_processes := by
      rw [hc]; exact Nat.lt_irrefl _
    have hloop : ∀ fuel, scan_loop s A (fuel + 1)
        { work := w, finished := List.replicate s.num_processes false, count := 0,
          found := false } =
        some ((List.range s.num_processes).foldl (scan_step s A)
          { work := w, finished := List.replicate s.num_processes false, count := 0,
            found := false }) := by
      intro fuel
      unfold scan_loop
      rw [if_pos hP]
      simp only [hpass, hfound hP, Bool.not_true, Bool.false_eq_true, if_false]
      unfold scan_loop
      rw [if_neg hnot]
    obtain ⟨f, hf⟩ : ∃ f, s.num_processes = f + 1 := ⟨s.num_processes - 1, by omega⟩
    have hfuel : scan_loop s A s.num_processes
        { work := w, finished := List.replicate s.num_processes false, count := 0,
          found := false } =
        scan_loop s A (f + 1)
          { work := w, finished := List.replicate s.num_processes false, count := 0,
            found := false } := by
      rw [← hf]
    rw [hfuel, hloop f]
    simp [hc]
  · have hP0 : s.num_processes = 0 := by omega
    unfold scan_loop
    simp [hP0]

/-- Claim C17 as stated fails: on the engine constructed with `R = 1` and `P = 0`
(available `(0)`), `is_safe_state(0, (1))` returns false, because the request exceeds
`available`. -/
theorem no_processes_not_always_safe :
    (construct 1 0 empty_net).num_processes = 0 ∧
    [(1 : Int)].length = (construct 1 0 empty_net).num_resources ∧
    is_safe_state (construct 1 0 empty_net) 0 [1] = some false :=
  ⟨rfl, rfl, by decide⟩

/-- Claim C17, amended: for an engine with `R = 0` (any `P`), `is_safe_state` returns
true for every process id argument and every request vector, whatever the contents of
`available`. -/
theorem no_resources_always_safe (s : Engine) (hR : s.num_resources = 0) (p : Nat)
    (req : List Int) : is_safe_state s p req = some true := by
  rw [is_safe_state_eq, if_pos (by intro r hr; rw [hR] at hr; exact absurd hr (Nat.not_lt_zero r))]
  exact can_complete_no_resources s hR p _ _

/-- Witness for the amended C17: the engine constructed with `R = 0` and `P = 4`, whose
`available` was then set to `(5)`. -/
theorem no_resources_always_safe_witness :
    is_safe_state (set_available (construct 0 4 empty_net) [5]) 2 [] = some true :=
  no_resources_always_safe (set_available (construct 0 4 empty_net) [5]) rfl 2 []

/-! ## Concrete scenario 3 -/

/-- Roots from index 3 on that contribute nothing can be dropped. -/
theorem flatMap_range_three (f : Nat → List (List Nat)) (n : Nat)
    (hrest : ∀ i, 3 ≤ i → f i = []) :
    (List.range (n + 3)).flatMap f = f 0 ++ (f 1 ++ f 2) := by
  induction n with
  | zero => simp [List.range_succ]
  | succ n ih =>
    rw [show n + 1 + 3 = (n + 3) + 1 from by omega, List.range_succ, List.flatMap_append, ih]
    simp [hrest (n + 3) (by omega)]

/-- The three edges inserted into an empty graph give the successor sets `0: (1)`,
`1: (2)`, `2: (0)` and nothing else. -/
theorem ring_rag (s0 : Engine) (hempty : ∀ n, s0.rag n = []) :
    let s := update_rag (update_rag (update_rag s0 0 1) 1 2) 2 0
    s.rag 0 = [1] ∧ s.rag 1 = [2] ∧ s.rag 2 = [0] ∧ (∀ n, 3 ≤ n → s.rag n = []) ∧
      s.num_processes = s0.num_processes := by
  refine ⟨?_, ?_, ?_, ?_, rfl⟩
  · simp [update_rag, hempty, set_insert]
  · simp [update_rag, hempty, set_insert]
  · simp [update_rag, hempty, set_insert]
  · intro n hn
    have h0 : n ≠ 0 := by omega
    have h1 : n ≠ 1 := by omega
    have h2 : n ≠ 2 := by omega
    simp [update_rag, hempty, h0, h1, h2]

/-- On a graph with exactly the edges `0 -> 1`, `1 -> 2`, `2 -> 0` and at least three
processes `detect_cycles` returns the cycle once from each of its vertices. -/
theorem detect_cycles_ring (s : Engine) (hP : 3 ≤ s.num_processes) (h0 : s.rag 0 = [1])
    (h1 : s.rag 1 = [2]) (h2 : s.rag 2 = [0]) (hrest : ∀ n, 3 ≤ n → s.rag n = []) :
    detect_cycles s = some [[0, 1, 2], [1, 2, 0], [2, 0, 1]] := by
  have hrange : EdgesInRange s.rag s.num_processes := by
    intro a b hab
    by_cases ha0 : a = 0
    · subst ha0; rw [h0] at hab; simp at hab; omega
    · by_cases ha1 : a = 1
      · subst ha1; rw [h1] at hab; simp at hab; omega
      · by_cases ha2 : a = 2
        · subst ha2; rw [h2] at hab; simp at hab; omega
        · rw [hrest a (by omega)] at hab
          exact absurd hab (List.not_mem_nil b)
  obtain ⟨n, hn⟩ : ∃ n, s.num_processes = n + 3 := ⟨s.num_processes - 3, by omega⟩
  rw [detect_cycles_eq s hrange, hn]
  rw [flatMap_range_three _ n (fun i hi => by simp [emitted, hrest i hi])]
  simp [emitted, edge_cycles, h0, h1, h2]

/-- Claim C16, concrete scenario 3: on an engine with `P >= 3` whose wait-for graph,
empty before, received the edges `0 -> 1`, `1 -> 2`, `2 -> 0` through `update_rag`,
`detect_cycles` returns a non-empty list, and every cycle in it has the vertex set
`0, 1, 2` exactly. -/
theorem ring_scenario (s0 : Engine) (hP : 3 ≤ s0.num_processes)
    (hempty : ∀ n, s0.rag n = []) :
    ∃ cycles, detect_cycles (update_rag (update_rag (update_rag s0 0 1) 1 2) 2 0) =
        some cycles ∧ cycles ≠ [] ∧
      ∀ c ∈ cycles, ∀ v, v ∈ c ↔ (v = 0 ∨ v = 1 ∨ v = 2) := by
  obtain ⟨h0, h1, h2, hrest, hnum⟩ := ring_rag s0 hempty
  refine ⟨_, detect_cycles_ring _ (by rw [hnum]; exact hP) h0 h1 h2 hrest, by simp, ?_⟩
  intro c hc v
  simp only [List.mem_cons, List.mem_singleton, List.not_mem_nil, or_false] at hc
  rcases hc with hc | hc | hc <;> subst hc <;> simp <;> omega

/-- Witness for C16: the engine of `main` (`P = 5`, empty graph) after the three calls
of `update_rag` that `main` makes. -/
theorem ring_scenario_witness :
    ∃ cycles, detect_cycles ring_engine = some cycles ∧ cycles ≠ [] ∧
      ∀ c ∈ cycles, ∀ v, v ∈ c ↔ (v = 0 ∨ v = 1 ∨ v = 2) :=
  ring_scenario (main_engine empty_net) (by decide) (fun _ => rfl)

/-! ## The feature vector -/

theorem foldl_append_eq_flatMap {α β : Type} (g : α → List β) (l : List α) (init : List β) :
    l.foldl (fun f row => f ++ g row) init = init ++ l.flatMap g := by
  induction l generalizing init with
  | nil => simp
  | cons a l ih => simp [ih]

theorem flatMap_eq_flatMap_range {α β : Type} (g : α → List β) (d : α) (l : List α) :
    l.flatMap g = (List.range l.length).flatMap (fun q => g (l.getD q d)) := by
  induction l with
  | nil => rfl
  | cons a l ih =>
    rw [List.length_cons, List.range_succ_eq_map, List.flatMap_cons, List.flatMap_cons,
      List.flatMap_map, ih]
    rfl

/-- The feature vector reads `allocated` row by row, then `available`. -/
theorem features_eq_row_major (s : Engine) (hlen : s.allocated.length = s.num_processes) :
    features s = row_major_features s := by
  unfold features row_major_features
  rw [foldl_append_eq_flatMap, List.nil_append,
    flatMap_eq_flatMap_range (fun row : List Int => row.map (fun (x : Int) => (x : Rat))) []
      s.allocated,
    hlen]

theorem length_flatMap_range {β : Type} (h : Nat → List β) (R n : Nat)
    (hrow : ∀ q < n, (h q).length = R) : ((List.range n).flatMap h).length = n * R := by
  induction n with
  | zero => simp
  | succ n ih =>
    rw [List.range_succ, List.flatMap_append, List.length_append,
      ih (fun q hq => hrow q (Nat.lt_succ_of_lt hq))]
    simp [hrow n (Nat.lt_succ_self n), Nat.succ_mul]

/-- On an engine of the right shape the feature vector has `R * P + R` entries. -/
theorem features_length (s : Engine) (hs : FeatureShaped s) :
    (features s).length = s.num_resources * s.num_processes + s.num_resources := by
  obtain ⟨ha, hb, hc⟩ := hs
  rw [features_eq_row_major s hb]
  unfold row_major_features
  rw [List.length_append, List.length_map, ha,
    length_flatMap_range _ s.num_resources s.num_processes
      (fun q hq => by rw [List.length_map]; exact hc q hq),
    Nat.mul_comm]

theorem featureShaped_construct (R P : Nat) (net : SimpleNeuralNetwork) :
    FeatureShaped (construct R P net) := by
  refine ⟨List.length_replicate _ _, List.length_replicate _ _, fun q hq => ?_⟩
  have hq2 : q < (construct R P net).allocated.length := by
    rw [show (construct R P net).allocated.length = P from List.length_replicate _ _]
    exact hq
  rw [List.getD_eq_getElem _ _ hq2]
  simp [construct]

/-- The loop of `allocate_resources` keeps the lengths the feature vector depends on,
whatever the vector argument is bound to. -/
theorem featureShaped_allocate_fold (p : Nat) (v : VecRef) (s : Engine)
    (hs : FeatureShaped s) :
    FeatureShaped ((List.range s.num_resources).foldl (allocate_step p v) s) ∧
    ((List.range s.num_resources).foldl (allocate_step p v) s).num_resources =
      s.num_resources ∧
    ((List.range s.num_resources).foldl (allocate_step p v) s).num_processes =
      s.num_processes := by
  obtain ⟨⟨h1, h2, _⟩, l1, l2, l3⟩ := allocate_fold_frame p v (List.range s.num_resources) s
  obtain ⟨ha, hb, hc⟩ := hs
  refine ⟨⟨?_, ?_, ?_⟩, h1, h2⟩
  · rw [l1, h1]; exact ha
  · rw [l2, h2]; exact hb
  · intro q hq; rw [l3, h1]; rw [h2] at hq; exact hc q hq

/-- The loop of `release_resources` keeps the lengths the feature vector depends on. -/
theorem featureShaped_release_fold (p : Nat) (v : VecRef) (s : Engine)
    (hs : FeatureShaped s) :
    FeatureShaped ((List.range s.num_resources).foldl (release_step p v) s) ∧
    ((List.range s.num_resources).foldl (release_step p v) s).num_resources =
      s.num_resources ∧
    ((List.range s.num_resources).foldl (release_step p v) s).num_processes =
      s.num_processes := by
  obtain ⟨⟨h1, h2, _⟩, l1, l2, l3⟩ := release_fold_frame p v (List.range s.num_resources) s
  obtain ⟨ha, hb, hc⟩ := hs
  refine ⟨⟨?_, ?_, ?_⟩, h1, h2⟩
  · rw [l1, h1]; exact ha
  · rw [l2, h2]; exact hb
  · intro q hq; rw [l3, h1]; rw [h2] at hq; exact hc q hq

/-- Every public operation keeps the shape of the feature vector, provided
`set_available` passes `R` entries. -/
theorem featureShaped_op (exp : Rat → Rat) (s : Engine) (hs : FeatureShaped s) (op : Op)
    (hop : op.WellFormed s.num_resources s.num_processes) :
    ∃ s1, op.run exp s = Except.ok s1 ∧ FeatureShaped s1 ∧
      s1.num_resources = s.num_resources ∧ s1.num_processes = s.num_processes := by
  cases op with
  | set_available v =>
    refine ⟨_, rfl, ⟨?_, hs.2.1, hs.2.2⟩, rfl, rfl⟩
    exact hop
  | set_max_need m => exact ⟨_, rfl, hs, rfl, rfl⟩
  | allocate_resources p v =>
    obtain ⟨h, h1, h2⟩ := featureShaped_allocate_fold p v s hs
    exact ⟨_, rfl, h, h1, h2⟩
  | release_resources p v =>
    obtain ⟨h, h1, h2⟩ := featureShaped_release_fold p v s hs
    exact ⟨_, rfl, h, h1, h2⟩
  | update_rag p q => exact ⟨_, rfl, hs, rfl, rfl⟩
  | add_training_example f b => exact ⟨_, rfl, hs, rfl, rfl⟩
  | train_risk_model =>
    refine ⟨_, rfl, ?_⟩
    unfold train_risk_model
    split_ifs
    · exact ⟨hs, rfl, rfl⟩
    · exact ⟨hs, rfl, rfl⟩

theorem featureShaped_run_ops (exp : Rat → Rat) (ops : List Op) (s : Engine)
    (hs : FeatureShaped s)
    (hops : ∀ op ∈ ops, op.WellFormed s.num_resources s.num_processes) :
    ∃ s1, run_ops exp s ops = Except.ok s1 ∧ FeatureShaped s1 ∧
      s1.num_resources = s.num_resources ∧ s1.num_processes = s.num_processes := by
  induction ops generalizing s with
  | nil => exact ⟨s, rfl, hs, rfl, rfl⟩
  | cons op rest ih =>
    obtain ⟨s1, hrun, hs1, h1, h2⟩ := featureShaped_op exp s hs op (hops op (List.mem_cons_self _ _))
    obtain ⟨s2, hrun2, hs2, h12, h22⟩ := ih s1 hs1 (fun op2 hop2 => by
      rw [h1, h2]; exact hops op2 (List.mem_cons_of_mem _ hop2))
    refine ⟨s2, ?_, hs2, h12.trans h1, h22.trans h2⟩
    simp only [run_ops, hrun]
    exact hrun2

/-- Claim C13 as stated fails: from `construct(1, 1)` the single public call
`set_available((1, 2))` leads to a state whose feature vector has 3 entries, not
`R * P + R = 2`. -/
theorem feature_length_breaks_after_set_available :
    ∃ s, run_ops (fun _ => 1) (construct 1 1 unit_net) [Op.set_available [1, 2]] =
        Except.ok s ∧ s.num_resources = 1 ∧ s.num_processes = 1 ∧
      features s = [0, 1, 2] ∧
      (features s).length ≠ s.num_resources * s.num_processes + s.num_resources :=
  ⟨_, rfl, rfl, rfl, by decide, by decide⟩

/-- Claim C13, amended: in every engine state reached from `construct(R, P)` by a
sequence of well-formed calls of the public operations (`set_available` with a vector of
`R` entries; `allocate_resources` and `release_resources` with a process in `[0,P)` and a
vector of `R` entries, which may be a separate vector or the engine's own `available` or
allocation row passed by reference; `add_training_example` with `R * P + R` features;
`set_max_need`, `update_rag` and `train_risk_model` unrestricted), the feature vector built by
`predict_deadlock_risk` is the row-major concatenation of allocation rows `0 .. P-1`
followed by `available`, and has exactly `R * P + R` entries. -/
theorem feature_vector_shape (exp : Rat → Rat) (R P : Nat) (net : SimpleNeuralNetwork)
    (ops : List Op) (hops : ∀ op ∈ ops, op.WellFormed R P) :
    ∃ s, run_ops exp (construct R P net) ops = Except.ok s ∧
      features s = row_major_features s ∧ (features s).length = R * P + R := by
  obtain ⟨s, hrun, hs, h1, h2⟩ :=
    featureShaped_run_ops exp ops (construct R P net) (featureShaped_construct R P net) hops
  refine ⟨s, hrun, features_eq_row_major s hs.2.1, ?_⟩
  rw [features_length s hs, h1, h2]
  rfl

/-- Witness for the amended C13: from `construct(1, 1)`, set `available` to `(4)`,
allocate `(1)` to process 0, release the engine's own `available` from it, record a
training example and train. -/
theorem feature_vector_shape_witness :
    ∃ s, run_ops (fun _ => 1) (construct 1 1 unit_net)
        [Op.set_available [4], Op.allocate_resources 0 (VecRef.vector [1]),
          Op.release_resources 0 VecRef.available,
          Op.add_training_example [0, 4] false, Op.train_risk_model] = Except.ok s ∧
      features s = row_major_features s ∧ (features s).length = 1 * 1 + 1 :=
  feature_vector_shape (fun _ => 1) 1 1 unit_net
    [Op.set_available [4], Op.allocate_resources 0 (VecRef.vector [1]),
      Op.release_resources 0 VecRef.available,
      Op.add_training_example [0, 4] false, Op.train_risk_model]
    (by
      intro op hop
      simp only [List.mem_cons, List.mem_singleton, List.not_mem_nil, or_false] at hop
      rcases hop with h | h | h | h | h <;> subst h <;> simp [Op.WellFormed, VecRef.WellFormed])

/-! ## Saving and loading -/

/-- The call `load_model` returns the engine it was given, whatever the file holds. -/
theorem load_model_eq (s : Engine) (files : Files) (path : String) :
    load_model s files path = s := by
  unfold load_model
  split <;> rfl

/-- Claim C18, the code at the failing input: after `E.save_model(path)` the file exists
and is empty and `E` is as before; `E1.load_model(path)` then returns `E1` as it was, so
its risk model still has its own initial parameters and not those of `E`. -/
theorem load_model_ignores_saved_model (E E1 : Engine) (files : Files) (path : String) :
    (save_model E files path).1 = E ∧
    (save_model E files path).2 path = some [] ∧
    load_model E1 (save_model E files path).2 path = E1 ∧
    (load_model E1 (save_model E files path).2 path).risk_model = E1.risk_model := by
  have hfile : (save_model E files path).2 path = some [] := by simp [save_model]
  refine ⟨rfl, hfile, load_model_eq _ _ _, ?_⟩
  rw [load_model_eq]

/-- The risk of a constructed engine with one resource and one process under the
zero-weight network with output bias `-1` is `sigmoid(-1)`. -/
theorem construct_unit_net_risk (exp : Rat → Rat) :
    (construct 1 1 unit_net).risk_model.predict exp (features (construct 1 1 unit_net)) =
      1 / (1 + exp 1) := by
  simp [SimpleNeuralNetwork.predict, hidden_unit, unit_net, features, construct, sigmoid, rdD,
    rdD2, List.range_succ, List.replicate]

/-- The same under the all-zero network is `sigmoid(0)`. -/
theorem construct_zero_net_risk (exp : Rat → Rat) :
    (construct 1 1 (zero_net 2)).risk_model.predict exp
      (features (construct 1 1 (zero_net 2))) = 1 / (1 + exp 0) := by
  simp [SimpleNeuralNetwork.predict, hidden_unit, zero_net, features, construct, sigmoid, rdD,
    rdD2, List.range_succ, List.replicate]

/-- After save and load the receiver predicts with its own parameters: for any `exp` that
separates 0 and 1, the engine that loaded and the engine that saved disagree on the
feature vector `(0, 0)`. -/
theorem save_load_predictions_differ (exp : Rat → Rat) (hexp : exp 0 ≠ exp 1)
    (files : Files) (path : String) :
    (load_model (construct 1 1 (zero_net 2))
        (save_model (construct 1 1 unit_net) files path).2 path).risk_model.predict exp
        (features (construct 1 1 unit_net)) ≠
      (construct 1 1 unit_net).risk_model.predict exp (features (construct 1 1 unit_net)) := by
  rw [load_model_eq]
  have hf : features (construct 1 1 unit_net) = features (construct 1 1 (zero_net 2)) := rfl
  rw [construct_unit_net_risk, hf, construct_zero_net_risk]
  intro h
  have h2 : (1 + exp 0)⁻¹ = (1 + exp 1)⁻¹ := by simpa [one_div] using h
  have h3 := inv_injective h2
  exact hexp (by linarith)

/-! ## The risk score in exact arithmetic -/

/-- In exact arithmetic, with a positive `exp`, `sigmoid` lies strictly between 0 and 1.
(The source computes in doubles, where `1.0 + exp(-x)` rounds; this says nothing about
the rounded value.) -/
theorem sigmoid_exact_range (exp : Rat → Rat) (hexp : ∀ x, 0 < exp x) (x : Rat) :
    0 < sigmoid exp x ∧ sigmoid exp x < 1 := by
  have h := hexp (-x)
  unfold sigmoid
  constructor
  · apply div_pos one_pos; linarith
  · rw [div_lt_one (by linarith)]; linarith

/-! ## The training loop -/

theorem bankers_check_returns (exp : Rat → Rat) (s : Engine) (p : Nat) (req : List Int) :
    ∃ b, ml_augmented_bankers_check exp s p req = some b := by
  obtain ⟨b, hb⟩ := is_safe_state_returns s p req
  refine ⟨b && decide (predict_deadlock_risk exp s p req < 1 / 2), ?_⟩
  simp only [ml_augmented_bankers_check, hb]

/-- The call `allocate_resources` returns, and leaves the graph, the number of processes
and the history alone. -/
theorem allocate_keeps_graph (s : Engine) (p : Nat) (v : VecRef) :
    ∃ s1, allocate_resources s p v = Except.ok s1 ∧ s1.rag = s.rag ∧
      s1.num_processes = s.num_processes ∧ s1.history = s.history := by
  obtain ⟨⟨_, h2, _, _, h5, h6⟩, _⟩ := allocate_fold_frame p v (List.range s.num_resources) s
  exact ⟨_, rfl, h5, h2, h6⟩

theorem release_keeps_graph (s : Engine) (p : Nat) (v : VecRef) :
    ∃ s1, release_resources s p v = Except.ok s1 ∧ s1.rag = s.rag ∧
      s1.num_processes = s.num_processes ∧ s1.history = s.history := by
  obtain ⟨⟨_, h2, _, _, h5, h6⟩, _⟩ := release_fold_frame p v (List.range s.num_resources) s
  exact ⟨_, rfl, h5, h2, h6⟩

/-- One step of a scenario returns an engine with the same graph, number of processes
and history. -/
theorem scenario_step_ok (exp : Rat → Rat) (n : Nat) (s : Engine) (g : Rng) (i : Nat) :
    ∃ s1 g1, scenario_step exp n (some (Except.ok (s, g))) i = some (Except.ok (s1, g1)) ∧
      s1.rag = s.rag ∧ s1.num_processes = s.num_processes ∧ s1.history = s.history := by
  obtain ⟨b, hb⟩ := bankers_check_returns exp s (g.next.1 % n)
    (generate_random_request s 5 g.next.2).1
  have hgrant : ∃ s1, (if b then allocate_resources s (g.next.1 % n)
      (VecRef.vector (generate_random_request s 5 g.next.2).1) else Except.ok s) =
        Except.ok s1 ∧
      s1.rag = s.rag ∧ s1.num_processes = s.num_processes ∧ s1.history = s.history := by
    cases b
    · exact ⟨s, rfl, rfl, rfl, rfl⟩
    · exact allocate_keeps_graph s _ _
  obtain ⟨s1, hs1, h1, h2, h3⟩ := hgrant
  simp only [scenario_step, hb, hs1]
  split_ifs
  · obtain ⟨s2, hs2, k1, k2, k3⟩ := release_keeps_graph s1 (g.next.1 % n)
      (VecRef.vector
        (generate_random_request s1 3 (generate_random_request s 5 g.next.2).2.next.2).1)
    simp only [hs2]
    exact ⟨_, _, rfl, k1.trans h1, k2.trans h2, k3.trans h3⟩
  · exact ⟨_, _, rfl, h1, h2, h3⟩

theorem scenario_fold_ok (exp : Rat → Rat) (n : Nat) (l : List Nat) (s : Engine) (g : Rng) :
    ∃ s1 g1, l.foldl (scenario_step exp n) (some (Except.ok (s, g))) =
        some (Except.ok (s1, g1)) ∧
      s1.rag = s.rag ∧ s1.num_processes = s.num_processes ∧ s1.history = s.history := by
  induction l generalizing s g with
  | nil => exact ⟨s, g, rfl, rfl, rfl, rfl⟩
  | cons i l ih =>
    obtain ⟨s1, g1, hstep, h1, h2, h3⟩ := scenario_step_ok exp n s g i
    obtain ⟨s2, g2, hrest, k1, k2, k3⟩ := ih s1 g1
    refine ⟨s2, g2, ?_, k1.trans h1, k2.trans h2, k3.trans h3⟩
    simp only [List.foldl_cons, hstep]
    exact hrest

/-- A scenario on a graph with in-range edges returns a label, an engine with the same
graph, number of processes and history, and a generator. -/
theorem simulate_scenario_ok (exp : Rat → Rat) (s : Engine) (g : Rng)
    (hrange : EdgesInRange s.rag s.num_processes) :
    ∃ b s1 g1, simulate_scenario exp s g = some (Except.ok (b, s1, g1)) ∧
      s1.rag = s.rag ∧ s1.num_processes = s.num_processes ∧ s1.history = s.history := by
  obtain ⟨s1, g1, hfold, h1, h2, h3⟩ :=
    scenario_fold_ok exp s.allocated.length (List.range s.allocated.length) s g
  have hr1 : EdgesInRange s1.rag s1.num_processes := by rw [h1, h2]; exact hrange
  simp only [simulate_scenario, hfold, detect_cycles_eq s1 hr1]
  exact ⟨_, _, _, rfl, h1, h2, h3⟩

theorem accuracy_fold_ok (exp : Rat → Rat) (s : Engine) (l : List Nat) (c : Nat) (g : Rng) :
    ∃ c1 g1, l.foldl (accuracy_probe exp s) (some (c, g)) = some (c1, g1) := by
  induction l generalizing c g with
  | nil => exact ⟨c, g, rfl⟩
  | cons i l ih =>
    obtain ⟨b, hb⟩ := bankers_check_returns exp s (g.next.1 % s.allocated.length)
      (generate_random_request s 5 g.next.2).1
    simp only [List.foldl_cons, accuracy_probe, hb]
    exact ih _ _

theorem calculate_accuracy_ok (exp : Rat → Rat) (s : Engine) (g : Rng) :
    ∃ a g1, calculate_accuracy exp s g = some (a, g1) := by
  obtain ⟨c1, g1, h⟩ := accuracy_fold_ok exp s (List.range 100) 0 g
  unfold calculate_accuracy
  rw [h]
  exact ⟨_, _, rfl⟩

theorem train_risk_model_keeps_graph (exp : Rat → Rat) (s : Engine) :
    (train_risk_model exp s).rag = s.rag ∧
    (train_risk_model exp s).num_processes = s.num_processes ∧
    (train_risk_model exp s).history = s.history := by
  unfold train_risk_model
  split_ifs <;> exact ⟨rfl, rfl, rfl⟩

theorem checkpoint_file_zero : checkpoint_file 0 = "model_checkpoint_0.dat" := by decide

/-- One iteration of the loop with `scenarios_count = 0`: it returns, the counter is still
0, the history has one example more, and the iteration has called both
`save_checkpoint(0)` and `train_risk_model`. -/
theorem train_iteration_stuck (exp : Rat → Rat) (t : Trainer)
    (hrange : EdgesInRange t.prevention.rag t.prevention.num_processes)
    (h0 : t.scenarios_count = 0) :
    ∃ t1, train_iteration exp t = some (Except.ok t1) ∧ t1.scenarios_count = 0 ∧
      EdgesInRange t1.prevention.rag t1.prevention.num_processes ∧
      t1.prevention.history.length = t.prevention.history.length + 1 ∧
      t1.loop_calls = t.loop_calls ++
        [TrainerCall.save_checkpoint 0 "model_checkpoint_0.dat",
          TrainerCall.train_risk_model] := by
  obtain ⟨b, s1, g1, hsim, h1, h2, h3⟩ := simulate_scenario_ok exp t.prevention t.rng hrange
  obtain ⟨a, g2, hacc⟩ := calculate_accuracy_ok exp
    (train_risk_model exp (add_training_example s1 (features t.prevention) b)) g1
  obtain ⟨k1, k2, k3⟩ := train_risk_model_keeps_graph exp
    (add_training_example s1 (features t.prevention) b)
  simp only [train_iteration, hsim, h0, CHECKPOINT_INTERVAL, Nat.zero_mod, if_true,
    save_checkpoint, save_model, hacc, checkpoint_file_zero]
  refine ⟨_, rfl, rfl, ?_, ?_, ?_⟩
  · show EdgesInRange (train_risk_model exp _).rag (train_risk_model exp _).num_processes
    rw [k1, k2]
    show EdgesInRange s1.rag s1.num_processes
    rw [h1, h2]; exact hrange
  · show (train_risk_model exp _).history.length = _
    rw [k3]
    show (s1.history ++ [_]).length = _
    rw [h3]; simp
  · simp

/-- The loop with `scenarios_count = 0` at its start: after `n` iterations the counter is
still 0 and every iteration has checkpointed and trained. -/
theorem train_loop_stuck (exp : Rat → Rat) (n : Nat) (t : Trainer)
    (hrange : EdgesInRange t.prevention.rag t.prevention.num_processes)
    (h0 : t.scenarios_count = 0) :
    ∃ t1, train_loop exp n t = some (Except.ok t1) ∧ t1.scenarios_count = 0 ∧
      t1.prevention.history.length = t.prevention.history.length + n ∧
      t1.loop_calls = t.loop_calls ++ stuck_calls n := by
  induction n generalizing t with
  | zero => exact ⟨t, rfl, h0, rfl, by simp [stuck_calls]⟩
  | succ n ih =>
    obtain ⟨t1, hit, hc1, hr1, hh1, hl1⟩ := train_iteration_stuck exp t hrange h0
    obtain ⟨t2, hloop, hc2, hh2, hl2⟩ := ih t1 hr1 hc1
    refine ⟨t2, ?_, hc2, ?_, ?_⟩
    · simp only [train_loop, hit]
      exact hloop
    · rw [hh2, hh1]; omega
    · rw [hl2, hl1]
      simp [stuck_calls]

/-- Claim C20, the code at the failing input: `train_continuously` sets
`scenarios_count = 0` and no statement of the loop changes it.  On an engine of the
constructed shape with at least one process whose graph has in-range edges, whatever the
generator returns, a run of `n` iterations returns with
the counter still 0 although `n` scenarios were completed (`n` examples were added to
the history), and every iteration, not only those at multiples of 1000 and 10000, has
called `save_checkpoint`, always for the file `model_checkpoint_0.dat`, and
`train_risk_model`. -/
theorem train_continuously_counter_stuck (exp : Rat → Rat) (prevention : Engine) (rng : Rng)
    (files : Files) (n : Nat) (_hs : prevention.Shaped) (_hP : 0 < prevention.num_processes)
    (hrange : EdgesInRange prevention.rag prevention.num_processes) :
    ∃ t, train_continuously exp prevention rng files n = some (Except.ok t) ∧
      t.scenarios_count = 0 ∧
      t.prevention.history.length = prevention.history.length + n ∧
      t.loop_calls = stuck_calls n := by
  obtain ⟨t1, hloop, hc, hh, hl⟩ := train_loop_stuck exp n
    { prevention := prevention, rng := rng, files := files, scenarios_count := 0,
      loop_calls := [] } hrange rfl
  simp only [train_continuously, hloop, save_model]
  refine ⟨_, rfl, hc, ?_, ?_⟩
  · show (train_risk_model exp t1.prevention).history.length = _
    rw [(train_risk_model_keeps_graph exp t1.prevention).2.2, hh]
  · show t1.loop_calls = _
    rw [hl]; rfl

/-- Witness for C20: `train_main` stopped after two iterations.  One scenario is complete
when the second iteration runs, yet that iteration checkpoints to
`model_checkpoint_0.dat` and trains, and the counter ends at 0 with two examples in the
history. -/
theorem train_continuously_counter_stuck_witness :
    ∃ t, train_continuously (fun _ => 1) train_main_trainer.prevention train_main_trainer.rng
        train_main_trainer.files 2 = some (Except.ok t) ∧
      t.scenarios_count = 0 ∧ t.prevention.history.length = 2 ∧
      t.loop_calls =
        [TrainerCall.save_checkpoint 0 "model_checkpoint_0.dat", TrainerCall.train_risk_model,
          TrainerCall.save_checkpoint 0 "model_checkpoint_0.dat",
          TrainerCall.train_risk_model] :=
  train_continuously_counter_stuck (fun _ => 1) train_main_trainer.prevention
    train_main_trainer.rng train_main_trainer.files 2 (by decide) (by decide)
    (fun _ b h => absurd h (List.not_mem_nil b))

/-! ## Policy-gated allocation -/

/-- A request that `is_safe_state` accepts fits into `available`. -/
theorem is_safe_state_fits (s : Engine) (p : Nat) (req : List Int)
    (h : is_safe_state s p req = some true) :
    ∀ r < s.num_resources, rd req r ≤ rd s.available r := by
  by_contra hfit
  rw [is_safe_state_eq, if_neg hfit] at h
  exact absurd h (by simp)

/-- A request that the Banker decision approves is accepted by `is_safe_state`. -/
theorem bankers_check_true_safe (exp : Rat → Rat) (s : Engine) (p : Nat) (req : List Int)
    (h : ml_augmented_bankers_check exp s p req = some true) :
    is_safe_state s p req = some true := by
  obtain ⟨b, hb⟩ := is_safe_state_returns s p req
  simp only [ml_augmented_bankers_check, hb, Option.some.injEq, Bool.and_eq_true] at h
  rw [hb, h.1]

/-- Claim C25, policy-gated allocation keeps the free inventory non-negative: on an
engine of the constructed shape, with `p` in `[0,P)` and `req` of length `R` (a separate
vector or a member of the engine passed by reference, its own `available` included), if
`is_safe_state(p, req)` returns true (hence whenever `ml_augmented_bankers_check(p, req)`
returns true) then `req[r] <= available[r]` for every `r`, and `allocate_resources(p, req)`
returns a state in which every `available[r]` is `>= 0`; and `is_safe_state` itself hands
the engine back with `available`, `allocation` and `max_need` unchanged. -/
theorem gated_allocation_nonnegative (s : Engine) (hs : s.Shaped) (p : Nat)
    (hp : p < s.num_processes) (req : VecRef)
    (_hlen : (req.deref s).length = s.num_resources) :
    (is_safe_state s p (req.deref s) = some true →
      (∀ r < s.num_resources, rd (req.deref s) r ≤ rd s.available r) ∧
      ∃ s1, allocate_resources s p req = Except.ok s1 ∧
        ∀ r < s.num_resources, 0 ≤ rd s1.available r) ∧
    (∀ exp : Rat → Rat, ml_augmented_bankers_check exp s p (req.deref s) = some true →
      is_safe_state s p (req.deref s) = some true) ∧
    ((is_safe_state_call s p (req.deref s)).1 = is_safe_state s p (req.deref s) ∧
      (is_safe_state_call s p (req.deref s)).2.available = s.available ∧
      (is_safe_state_call s p (req.deref s)).2.allocated = s.allocated ∧
      (is_safe_state_call s p (req.deref s)).2.max_need = s.max_need ∧
      (is_safe_state_call s p (req.deref s)).2 = s) := by
  refine ⟨fun hsafe => ?_, fun exp h => bankers_check_true_safe exp s p (req.deref s) h,
    rfl, rfl, rfl, rfl, rfl⟩
  have hfit := is_safe_state_fits s p (req.deref s) hsafe
  obtain ⟨s1, h, ha⟩ := allocate_resources_available s hs p hp req
  refine ⟨hfit, s1, h, fun r hr => ?_⟩
  rw [ha r hr]
  have := hfit r hr
  omega

/-- Witness for C25 on the engine of `main`: the request `(1,0,2)` of process 0 is
accepted, fits `available = (10,5,7)`, and after the allocation `available` is
non-negative. -/
theorem gated_allocation_nonnegative_witness :
    is_safe_state (main_engine empty_net) 0 [1, 0, 2] = some true ∧
    (∀ r < 3, rd [1, 0, 2] r ≤ rd (main_engine empty_net).available r) ∧
    ∃ s1, allocate_resources (main_engine empty_net) 0 (VecRef.vector [1, 0, 2]) =
        Except.ok s1 ∧
      ∀ r < 3, 0 ≤ rd s1.available r :=
  ⟨by decide,
    (gated_allocation_nonnegative (main_engine empty_net) (by decide) 0 (by decide)
      (VecRef.vector [1, 0, 2]) (by decide)).1 (by decide)⟩

/-! ## Every reported cycle is genuine -/

/-- The suffix that `std::find` starts at a vertex of the path begins with that vertex. -/
theorem dropWhile_head_of_mem (l : List Nat) (x : Nat) (h : x ∈ l) :
    ∃ rest, l.dropWhile (fun v => v != x) = x :: rest := by
  induction l with
  | nil => exact absurd h (List.not_mem_nil x)
  | cons a l ih =>
    by_cases hax : a = x
    · subst hax
      exact ⟨l, by simp [List.dropWhile]⟩
    · have hx : x ∈ l := by
        rcases List.mem_cons.mp h with h1 | h1
        · exact absurd h1.symm hax
        · exact h1
      obtain ⟨rest, hrest⟩ := ih hx
      refine ⟨rest, ?_⟩
      rw [List.dropWhile_cons_of_pos (by simpa using hax)]
      exact hrest

/-- The back edge `node -> next` closes the part of the path from `next` on into a
cycle of the graph. -/
theorem suffix_cycle_genuine (rag : Nat → List Nat) (path : List Nat) (node next : Nat)
    (hchain : List.Chain' (Edge rag) (path ++ [node])) (hnd : (path ++ [node]).Nodup)
    (hin : next ∈ path ++ [node]) (hedge : Edge rag node next) :
    GenuineCycle rag ((path ++ [node]).dropWhile (fun v => v != next)) := by
  have hsuf := List.dropWhile_suffix (l := path ++ [node]) (fun v => v != next)
  have hne := dropWhile_ne_nil_of_mem (path ++ [node]) next hin
  refine ⟨hne, hnd.sublist hsuf.sublist, hchain.suffix hsuf, ?_⟩
  intro a ha b hb
  obtain ⟨rest, hrest⟩ := dropWhile_head_of_mem (path ++ [node]) next hin
  obtain ⟨t, ht⟩ := hsuf
  have hlast : ((path ++ [node]).dropWhile (fun v => v != next)).getLast? = some node := by
    have h1 : (t ++ (path ++ [node]).dropWhile (fun v => v != next)).getLast? =
        ((path ++ [node]).dropWhile (fun v => v != next)).getLast? :=
      List.getLast?_append_of_ne_nil _ hne
    rw [← h1, ht]
    simp
  rw [hlast] at ha
  rw [hrest] at hb
  have ha2 : node = a := by simpa using ha
  have hb2 : next = b := by simpa using hb
  subst ha2; subst hb2
  exact hedge

/-- Everything `dfs` emits from a duplicate-free path of the graph is a cycle of the
graph. -/
theorem emitted_genuine (rag : Nat → List Nat) (fuel : Nat) :
    ∀ node path, List.Chain' (Edge rag) (path ++ [node]) → (path ++ [node]).Nodup →
      ∀ c ∈ emitted rag fuel node path, GenuineCycle rag c := by
  induction fuel with
  | zero => intro node path _ _ c hc; exact absurd hc (List.not_mem_nil c)
  | succ fuel ih =>
    intro node path hchain hnd c hc
    simp only [emitted, List.mem_flatMap] at hc
    obtain ⟨next, hnext, hcn⟩ := hc
    unfold edge_cycles at hcn
    by_cases hin : next ∈ path ++ [node]
    · rw [if_pos hin] at hcn
      have hceq : c = (path ++ [node]).dropWhile (fun v => v != next) := by simpa using hcn
      rw [hceq]
      exact suffix_cycle_genuine rag path node next hchain hnd hin hnext
    · rw [if_neg hin] at hcn
      apply ih next (path ++ [node]) _ _ c hcn
      · rw [List.chain'_append]
        refine ⟨hchain, List.chain'_singleton next, ?_⟩
        intro x hx y hy
        have hx2 : node = x := by simpa using hx
        have hy2 : next = y := by simpa using hy
        subst hx2; subst hy2
        exact hnext
      · exact List.Nodup.append hnd (List.nodup_singleton next) (by simpa using hin)

/-- Claim C24, every reported cycle is genuine: for every wait-for graph whose edge
endpoints all lie in `[0,P)`, `detect_cycles` returns, and each sequence in its output is
non-empty, has pairwise distinct vertices, has an edge of the graph from each vertex to
the next one, and has the closing edge from its last vertex to its first. -/
theorem reported_cycles_genuine (s : Engine) (hrange : EdgesInRange s.rag s.num_processes) :
    ∃ cycles, detect_cycles s = some cycles ∧
      ∀ c ∈ cycles, c ≠ [] ∧ c.Nodup ∧ List.Chain' (Edge s.rag) c ∧
        ∀ a ∈ c.getLast?, ∀ b ∈ c.head?, Edge s.rag a b := by
  refine ⟨_, detect_cycles_eq s hrange, ?_⟩
  intro c hc
  obtain ⟨i, _, hci⟩ := List.mem_flatMap.mp hc
  exact emitted_genuine s.rag s.num_processes i [] (List.chain'_singleton i)
    (List.nodup_singleton i) c hci

/-- Witness for C24: the three cycles reported for the edges `0 -> 1`, `1 -> 2`,
`2 -> 0` are genuine. -/
theorem reported_cycles_genuine_witness :
    ∃ cycles, detect_cycles ring_engine = some cycles ∧
      ∀ c ∈ cycles, c ≠ [] ∧ c.Nodup ∧ List.Chain' (Edge ring_engine.rag) c ∧
        ∀ a ∈ c.getLast?, ∀ b ∈ c.head?, Edge ring_engine.rag a b :=
  reported_cycles_genuine ring_engine ring_engine_in_range

/-! ## The accuracy metric -/

theorem length_generated_probes (s : Engine) (n : Nat) (g : Rng) :
    (generated_probes s n g).length = n := by
  induction n generalizing g with
  | zero => rfl
  | succ n ih => simp [generated_probes, ih]

/-- The probe loop counts the probes on which `ml_augmented_bankers_check` equals the
risk verdict. -/
theorem accuracy_fold_count (exp : Rat → Rat) (s : Engine) (l : List Nat) (c : Nat)
    (g : Rng) :
    ∃ g1, l.foldl (accuracy_probe exp s) (some (c, g)) =
      some (c + ((generated_probes s l.length g).filter (policy_agrees exp s)).length, g1) := by
  induction l generalizing c g with
  | nil => exact ⟨g, by simp [generated_probes]⟩
  | cons i l ih =>
    obtain ⟨b, hb⟩ := bankers_check_returns exp s (draw_probe s g).1.1 (draw_probe s g).1.2
    have hb2 : ml_augmented_bankers_check exp s (g.next.1 % s.allocated.length)
        (generate_random_request s 5 g.next.2).1 = some b := hb
    simp only [List.foldl_cons, accuracy_probe, hb2, List.length_cons, generated_probes,
      List.filter_cons]
    obtain ⟨g1, hg1⟩ := ih
      (if decide (predict_deadlock_risk exp s (g.next.1 % s.allocated.length)
          (generate_random_request s 5 g.next.2).1 < 1 / 2) = b then c + 1 else c)
      (generate_random_request s 5 g.next.2).2
    refine ⟨g1, ?_⟩
    rw [show (draw_probe s g).2 = (generate_random_request s 5 g.next.2).2 from rfl] 
    rw [hg1]
    have hagree : policy_agrees exp s (draw_probe s g).1 =
        decide (decide (predict_deadlock_risk exp s (g.next.1 % s.allocated.length)
          (generate_random_request s 5 g.next.2).1 < 1 / 2) = b) := by
      show decide (ml_augmented_bankers_check exp s (g.next.1 % s.allocated.length)
          (generate_random_request s 5 g.next.2).1 =
        some (decide (predict_deadlock_risk exp s (g.next.1 % s.allocated.length)
          (generate_random_request s 5 g.next.2).1 < 1 / 2))) = _
      rw [hb2]
      generalize decide (predict_deadlock_risk exp s (g.next.1 % s.allocated.length)
          (generate_random_request s 5 g.next.2).1 < 1 / 2) = m
      cases b <;> cases m <;> decide
    rw [hagree]
    by_cases heq : decide (predict_deadlock_risk exp s (g.next.1 % s.allocated.length)
        (generate_random_request s 5 g.next.2).1 < 1 / 2) = b
    · simp only [heq, if_true, decide_True, List.length_cons]
      congr 2
      omega
    · simp only [heq, if_false, decide_False, Bool.false_eq_true]

/-- What `calculate_accuracy` returns: 100 times the number of the 100 generated probes
on which `ml_augmented_bankers_check` equals the risk verdict, divided by 100. -/
theorem calculate_accuracy_eq (exp : Rat → Rat) (s : Engine) (g : Rng) :
    ∃ g1, calculate_accuracy exp s g =
      some ((((generated_probes s 100 g).filter (policy_agrees exp s)).length : Rat) * 100 / 100,
        g1) := by
  obtain ⟨g1, h⟩ := accuracy_fold_count exp s (List.range 100) 0 g
  refine ⟨g1, ?_⟩
  unfold calculate_accuracy
  rw [h]
  simp only [List.length_range, Nat.zero_add]

/-- When the risk is not below 0.5 the source counts every probe as an agreement,
whatever `is_safe_state` says about it. -/
theorem policy_agrees_of_high_risk (exp : Rat → Rat) (s : Engine) (probe : Nat × List Int)
    (hrisk : ¬ predict_deadlock_risk exp s probe.1 probe.2 < 1 / 2) :
    policy_agrees exp s probe = true := by
  obtain ⟨b, hb⟩ := is_safe_state_returns s probe.1 probe.2
  simp only [policy_agrees, ml_augmented_bankers_check, hb, hrisk, decide_False,
    Bool.and_false, decide_True]

/-- When the risk is not below 0.5 `calculate_accuracy` returns 100. -/
theorem calculate_accuracy_high_risk (exp : Rat → Rat) (s : Engine) (g : Rng)
    (hrisk : ∀ p req, ¬ predict_deadlock_risk exp s p req < 1 / 2) :
    ∃ g1, calculate_accuracy exp s g = some (100, g1) := by
  obtain ⟨g1, h⟩ := calculate_accuracy_eq exp s g
  refine ⟨g1, ?_⟩
  rw [h]
  have hall : (generated_probes s 100 g).filter (policy_agrees exp s) =
      generated_probes s 100 g :=
    List.filter_eq_self.mpr
      (fun probe _ => policy_agrees_of_high_risk exp s probe (hrisk probe.1 probe.2))
  rw [hall, length_generated_probes]
  norm_num

theorem zero_net_risk_half (exp : Rat → Rat) (hexp : exp 0 = 1) (p : Nat) (req : List Int) :
    predict_deadlock_risk exp (construct 1 1 (zero_net 2)) p req = 1 / 2 := by
  unfold predict_deadlock_risk
  rw [construct_zero_net_risk, hexp]
  norm_num

/-- On the one-resource, one-process engine a generator that returns only 0 draws the
probe `(0, (0))` and goes on returning only 0. -/
theorem draw_probe_zero (g : Rng) (hg : ∀ i, g.draws i = 0) :
    (draw_probe (construct 1 1 (zero_net 2)) g).1 = (0, [0]) ∧
    ∀ i, (draw_probe (construct 1 1 (zero_net 2)) g).2.draws i = 0 := by
  constructor
  · simp [draw_probe, generate_random_request, Rng.next, construct, hg, List.range_succ]
  · intro i
    simp [draw_probe, generate_random_request, Rng.next, construct, hg, List.range_succ]

theorem generated_probes_zero (n : Nat) (g : Rng) (hg : ∀ i, g.draws i = 0) :
    generated_probes (construct 1 1 (zero_net 2)) n g = List.replicate n (0, [0]) := by
  induction n generalizing g with
  | zero => rfl
  | succ n ih =>
    obtain ⟨h1, h2⟩ := draw_probe_zero g hg
    simp only [generated_probes, h1, ih _ h2, List.replicate_succ]

theorem zero_rng_probes :
    generated_probes (construct 1 1 (zero_net 2)) 100 zero_rng = List.replicate 100 (0, [0]) :=
  generated_probes_zero 100 zero_rng (fun _ => rfl)

/-- Claim C21, the code at the failing input: on the engine constructed with
`(R, P) = (1, 1)` whose network has all parameters zero (risk `sigmoid(0) = 0.5`, for any
`exp` with `exp 0 = 1`) and a generator that returns 0, each of the 100 probes is
`(0, (0))`, `is_safe_state` is true on it and the risk is not below 0.5, so no probe is
an agreement of the Banker predicate with the risk verdict; yet `calculate_accuracy`
returns 100, because it compares the verdict with `ml_augmented_bankers_check`. -/
theorem accuracy_counts_high_risk_as_agreement (exp : Rat → Rat) (hexp : exp 0 = 1) :
    (∀ probe ∈ generated_probes (construct 1 1 (zero_net 2)) 100 zero_rng,
      is_safe_state (construct 1 1 (zero_net 2)) probe.1 probe.2 = some true ∧
      ¬ predict_deadlock_risk exp (construct 1 1 (zero_net 2)) probe.1 probe.2 < 1 / 2) ∧
    ((generated_probes (construct 1 1 (zero_net 2)) 100 zero_rng).filter
      (banker_agrees exp (construct 1 1 (zero_net 2)))).length = 0 ∧
    ∃ g1, calculate_accuracy exp (construct 1 1 (zero_net 2)) zero_rng = some (100, g1) := by
  have hrisk : ∀ p req,
      ¬ predict_deadlock_risk exp (construct 1 1 (zero_net 2)) p req < 1 / 2 := by
    intro p req
    rw [zero_net_risk_half exp hexp]
    exact lt_irrefl _
  have hsafe : ∀ probe ∈ generated_probes (construct 1 1 (zero_net 2)) 100 zero_rng,
      is_safe_state (construct 1 1 (zero_net 2)) probe.1 probe.2 = some true := by
    intro probe hmem
    rw [zero_rng_probes] at hmem
    rw [List.eq_of_mem_replicate hmem]
    decide
  refine ⟨fun probe hmem => ⟨hsafe probe hmem, hrisk probe.1 probe.2⟩, ?_,
    calculate_accuracy_high_risk exp _ zero_rng hrisk⟩
  rw [List.length_eq_zero, List.filter_eq_nil_iff]
  intro probe hmem
  unfold banker_agrees
  rw [hsafe probe hmem, decide_eq_false (hrisk probe.1 probe.2)]
  decide

/-- Witness for C21, with a function that is 1 at 0 in the place of `exp`. -/
theorem accuracy_counts_high_risk_as_agreement_witness :
    ((generated_probes (construct 1 1 (zero_net 2)) 100 zero_rng).filter
      (banker_agrees (fun _ => 1) (construct 1 1 (zero_net 2)))).length = 0 ∧
    ∃ g1, calculate_accuracy (fun _ => 1) (construct 1 1 (zero_net 2)) zero_rng =
      some (100, g1) :=
  (accuracy_counts_high_risk_as_agreement (fun _ => 1) rfl).2

/-! ## Scan order -/

/-- Claim C22 as stated fails: on the engine with one resource, three processes,
`available = (0)`, allocation `(-5)`, `(1)`, `(0)` and `max_need` `(-4)`, `(1)`, `(1)`
(matrices of shape `P x R`, `available` of length `R`), for process 0 and the request
`(0)`, `is_safe_state` returns true while the specified restarting procedure returns
false: after process 1 the source goes on to process 2, the procedure restarts at
process 0, whose negative holding lowers the free units below what process 2 needs. -/
theorem scan_order_differs_with_negative_holding :
    negative_holding_engine.Shaped ∧ 0 < negative_holding_engine.num_processes ∧
    [(0 : Int)].length = negative_holding_engine.num_resources ∧
    is_safe_state negative_holding_engine 0 [0] = some true ∧
    spec_is_safe negative_holding_engine 0 [0] = some false :=
  ⟨by decide, by decide, by decide, by decide, by decide⟩

theorem spec_grant_eq (p : Nat) (req : List Int) (l : List Nat)
    (WA : List Int × List (List Int)) :
    spec_grant p req l WA = simulate_allocation p req l WA := by
  induction l generalizing WA with
  | nil => rfl
  | cons r rest ih =>
    obtain ⟨W, A⟩ := WA
    simp only [spec_grant, simulate_allocation]
    split_ifs
    · rfl
    · exact ih _

theorem spec_feasible_iff (s : Engine) (A : List (List Int)) (W : List Int) (q : Nat) :
    spec_feasible s A W q = true ↔
      ∀ r < s.num_resources, rd2 s.max_need q r - rd2 A q r ≤ rd W r := by
  simp only [spec_feasible, List.all_eq_true, List.mem_range, decide_eq_true_eq]

theorem spec_feasible_eq (s : Engine) (A : List (List Int)) (W : List Int) (q : Nat) :
    spec_feasible s A W q = can_allocate s A W q := by
  rw [Bool.eq_iff_iff, spec_feasible_iff, can_allocate_iff]

theorem spec_add_row_spec (s : Engine) (A : List (List Int)) (W : List Int) (q : Nat) :
    (spec_add_row s A W q).length = s.num_resources ∧
    ∀ r < s.num_resources, rd (spec_add_row s A W q) r = rd W r + rd2 A q r := by
  refine ⟨by simp [spec_add_row], fun r hr => ?_⟩
  simp only [spec_add_row, rd, List.getD_eq_getElem?_getD, List.getElem?_map,
    List.getElem?_range hr, Option.map_some', Option.getD_some]

/-- Finishing a process that passes the test keeps the invariant of the scan, with the
process appended to the finishing order. -/
theorem spec_step_inv (s : Engine) (A : List (List Int)) (W0 W : List Int)
    (finished : List Bool) (order : List Nat) (q : Nat) (hq : q < s.num_processes)
    (hfin : finished.getD q false = false) (hfeas : spec_feasible s A W q = true)
    (h : ScanInv s A W0
      { work := W, finished := finished, count := order.length, found := false } order) :
    ScanInv s A W0
      { work := spec_add_row s A W q, finished := finished.set q true,
        count := (order ++ [q]).length, found := false } (order ++ [q]) := by
  obtain ⟨hnd, hmem, _, hflen, _, hwork, hsafe⟩ := h
  obtain ⟨hal, hav⟩ := spec_add_row_spec s A W q
  have hnot : q ∉ order := by
    intro hin
    have := (hmem q).mp hin
    rw [hfin] at this
    exact absurd this (by simp)
  refine ⟨?_, ?_, rfl, ?_, hal, ?_, ?_⟩
  · exact List.Nodup.append hnd (List.nodup_singleton q) (by simpa using hnot)
  · intro x
    show x ∈ order ++ [q] ↔ (finished.set q true).getD x false = true
    rw [getD_set_bool _ _ _ (by rw [hflen]; exact hq)]
    by_cases hxq : x = q
    · subst hxq; simp
    · simp [hxq, hmem x]
  · show (finished.set q true).length = s.num_processes
    simp [hflen]
  · intro r hr
    show rd (spec_add_row s A W q) r = _
    rw [hav r hr, hwork r hr]
    simp only [List.map_append, List.sum_append, List.map_cons, List.map_nil, List.sum_cons,
      List.sum_nil, add_zero]
    ring
  · apply safeOrder_snoc _ _ _ _ _ _ hsafe
    intro r hr
    rw [← hwork r hr]
    exact (spec_feasible_iff s A W q).mp hfeas r hr

/-- The restarting scan returns within its fuel, with the invariant, at a point where a
full scan finds nothing. -/
theorem spec_scan_spec (s : Engine) (A : List (List Int)) (W0 : List Int) (fuel : Nat) :
    ∀ (W : List Int) (finished : List Bool) (order : List Nat),
      ScanInv s A W0
        { work := W, finished := finished, count := order.length, found := false } order →
      s.num_processes + 1 ≤ fuel + order.length →
      ∃ W1 finished1 order1, spec_scan s A fuel W finished = some finished1 ∧
        ScanInv s A W0
          { work := W1, finished := finished1, count := order1.length, found := false }
          order1 ∧
        spec_first_feasible s A W1 finished1 = none := by
  induction fuel with
  | zero =>
    intro W finished order hinv hfuel
    have hlt := scanInv_lt s A W0 _ order hinv
    have hsub : order.Subperm (List.range s.num_processes) :=
      List.subperm_of_subset hinv.1 (fun q hq => List.mem_range.mpr (hlt q hq))
    have := hsub.length_le
    rw [List.length_range] at this
    omega
  | succ fuel ih =>
    intro W finished order hinv hfuel
    cases hfind : spec_first_feasible s A W finished with
    | none =>
      exact ⟨W, finished, order, by simp only [spec_scan, hfind], hinv, hfind⟩
    | some q =>
      have hq : q < s.num_processes := List.mem_range.mp (List.mem_of_find?_eq_some hfind)
      have hprop := List.find?_some hfind
      simp only [Bool.and_eq_true, Bool.not_eq_true'] at hprop
      have hstep := spec_step_inv s A W0 W finished order q hq hprop.1 hprop.2 hinv
      obtain ⟨W1, finished1, order1, hrun, hinv1, hnone⟩ :=
        ih _ _ _ hstep (by simp only [List.length_append, List.length_singleton]; omega)
      exact ⟨W1, finished1, order1, by simp only [spec_scan, hfind]; exact hrun, hinv1, hnone⟩

/-- With non-negative holdings, a scan that is stuck although a safe order of all
processes exists has finished every process. -/
theorem stuck_all_finished (s : Engine) (A : List (List Int)) (W0 : List Int) (st : Scan)
    (order1 : List Nat) (hinv : ScanInv s A W0 st order1)
    (hnn : ∀ q < s.num_processes, ∀ r < s.num_resources, 0 ≤ rd2 A q r)
    (hstuck : ∀ i < s.num_processes, st.finished.getD i false = false →
      can_allocate s A st.work i = false)
    (ord : List Nat) (hperm : ord.Perm (List.range s.num_processes))
    (hord : SafeOrder s.num_resources (rd2 s.max_need) (rd2 A) (rd W0) ord) :
    ∀ q < s.num_processes, q ∈ order1 := by
  have hlt := scanInv_lt s A W0 st order1 hinv
  obtain ⟨hnd, hmem, _, _, _, hwork, _⟩ := hinv
  by_contra hne
  push_neg at hne
  obtain ⟨x, hx, hxnot⟩ := hne
  have hordnd : ord.Nodup := hperm.nodup_iff.mpr (List.nodup_range _)
  have hmiss : ∃ y ∈ ord, ¬ y ∈ order1 :=
    ⟨x, hperm.symm.subset (List.mem_range.mpr hx), hxnot⟩
  obtain ⟨earlier, q, later, hsplit, hearlier, hq⟩ :=
    first_failing (fun y => y ∈ order1) ord hmiss
  have hqlt : q < s.num_processes := by
    have : q ∈ ord := by rw [hsplit]; simp
    exact List.mem_range.mp (hperm.subset this)
  have hqfin : st.finished.getD q false = false := by
    cases hb : st.finished.getD q false
    · rfl
    · exact absurd ((hmem q).mpr hb) hq
  have hend : earlier.Nodup := by
    have hsub : earlier.Sublist ord := by rw [hsplit]; exact List.sublist_append_left _ _
    exact hordnd.sublist hsub
  have hcan : can_allocate s A st.work q = true := by
    rw [can_allocate_iff]
    intro r hr
    have h1 := hord earlier q later hsplit r hr
    have h2 := sum_le_sum_of_subset (fun e => rd2 A e r) earlier order1 hend hnd hearlier
      (fun y hy => hnn y (hlt y hy) r hr)
    rw [hwork r hr]
    linarith
  have := hstuck q hqlt hqfin
  rw [hcan] at this
  exact absurd this (by simp)

/-- The restarting scan decides the existence of a safe order, like `can_complete`. -/
theorem spec_scan_iff (s : Engine) (A : List (List Int)) (W0 : List Int)
    (hW : W0.length = s.num_resources)
    (hnn : ∀ q < s.num_processes, ∀ r < s.num_resources, 0 ≤ rd2 A q r) :
    ∃ finished1, spec_scan s A (s.num_processes + 1) W0
        (List.replicate s.num_processes false) = some finished1 ∧
      ((List.range s.num_processes).all (fun q => finished1.getD q false) = true ↔
        ∃ order : List Nat, order.Perm (List.range s.num_processes) ∧
          SafeOrder s.num_resources (rd2 s.max_need) (rd2 A) (rd W0) order) := by
  obtain ⟨W1, finished1, order1, hrun, hinv1, hnone⟩ :=
    spec_scan_spec s A W0 (s.num_processes + 1) W0 (List.replicate s.num_processes false) []
      (scanInv_init s A W0 hW) (by simp)
  refine ⟨finished1, hrun, ?_⟩
  have hlt := scanInv_lt s A W0 _ order1 hinv1
  have hmem : ∀ q, q ∈ order1 ↔ finished1.getD q false = true := hinv1.2.1
  have hstuck : ∀ i < s.num_processes, finished1.getD i false = false →
      can_allocate s A W1 i = false := by
    intro i hi hfin
    have := (List.find?_eq_none.mp hnone) i (List.mem_range.mpr hi)
    rw [hfin] at this
    rw [← spec_feasible_eq]
    simpa using this
  rw [List.all_eq_true]
  constructor
  · intro hall
    refine ⟨order1, ?_, hinv1.2.2.2.2.2.2⟩
    rw [List.perm_ext_iff_of_nodup hinv1.1 (List.nodup_range _)]
    intro a
    constructor
    · intro ha; exact List.mem_range.mpr (hlt a ha)
    · intro ha; exact (hmem a).mpr (hall a ha)
  · rintro ⟨ord, hperm, hord⟩ q hq
    have hin := stuck_all_finished s A W0 _ order1 hinv1 hnn hstuck ord hperm hord q
      (List.mem_range.mp hq)
    exact (hmem q).mp hin

/-- The specified procedure against the safe-state definition, for shaped non-negative
states: it returns, and returns true iff the request fits and a safe order exists. -/
theorem spec_is_safe_iff (s : Engine) (hs : s.Shaped)
    (halloc : ∀ q < s.num_processes, ∀ r < s.num_resources, 0 ≤ rd2 s.allocated q r)
    (p : Nat) (hp : p < s.num_processes) (req : List Int)
    (hreq : ∀ r < s.num_resources, 0 ≤ rd req r) :
    ∃ b, spec_is_safe s p req = some b ∧
      (b = true ↔
        (∀ r < s.num_resources, rd req r ≤ rd s.available r) ∧ SafeAfterGrant s p req) := by
  unfold spec_is_safe
  rw [spec_grant_eq, simulate_allocation_range]
  obtain ⟨hsh, _, ha, hb⟩ := allocate_loop_shaped s hs p hp req
  by_cases hfit : ∀ r < s.num_resources, rd req r ≤ rd s.available r
  · rw [if_pos hfit]
    have hlen : ((List.range s.num_resources).foldl (allocate_value_step p req) s).available.length =
        s.num_resources := by
      have := hsh.1
      obtain ⟨⟨h1, _⟩, _⟩ := allocate_fold_spec p req s s.num_resources
      rw [this, h1]
    have hnn : ∀ q < s.num_processes, ∀ r < s.num_resources,
        0 ≤ rd2 ((List.range s.num_resources).foldl (allocate_value_step p req) s).allocated q r := by
      intro q hq r hr
      rw [hb q r hr]
      have h1 := halloc q hq r hr
      have h2 := hreq r hr
      split_ifs
      · omega
      · exact h1
    obtain ⟨finished1, hrun, hiff⟩ := spec_scan_iff s _ _ hlen hnn
    simp only [hrun, Option.map_some']
    refine ⟨_, rfl, ?_⟩
    rw [hiff]
    constructor
    · rintro ⟨order, hperm, hsafe⟩
      exact ⟨hfit, order, hperm, safeOrder_congr _ _ _ _ _ _ _
        (fun q r hr => hb q r hr) (fun r hr => ha r hr) hsafe⟩
    · rintro ⟨_, order, hperm, hsafe⟩
      exact ⟨order, hperm, safeOrder_congr _ _ _ _ _ _ _
        (fun q r hr => (hb q r hr).symm) (fun r hr => (ha r hr).symm) hsafe⟩
  · rw [if_neg hfit]
    refine ⟨false, rfl, ?_⟩
    simp only [Bool.false_eq_true, false_iff, not_and]
    intro h
    exact absurd h hfit

/-- Claim C22, amended: for every engine state of the constructed shape (matrices of
shape `P x R`, `available` of length `R`) whose allocation entries are all non-negative,
process id `p` in `[0,P)` and non-negative request vector `req` of length `R`, the
boolean `is_safe_state(p, req)` returns, whose `can_complete` finishes every feasible
unfinished process within one ascending pass before rescanning, equals the boolean of
the specified procedure, which after finishing the first feasible unfinished process in
ascending id order restarts the scan from the lowest id and stops when a full scan finds
none. -/
theorem scan_order_equivalence (s : Engine) (hs : s.Shaped)
    (halloc : ∀ q < s.num_processes, ∀ r < s.num_resources, 0 ≤ rd2 s.allocated q r)
    (p : Nat) (hp : p < s.num_processes) (req : List Int)
    (_hlen : req.length = s.num_resources) (hreq : ∀ r < s.num_resources, 0 ≤ rd req r) :
    (∃ b, is_safe_state s p req = some b) ∧ spec_is_safe s p req = is_safe_state s p req := by
  obtain ⟨b, hb⟩ := is_safe_state_returns s p req
  obtain ⟨b1, hb1, hiff1⟩ := spec_is_safe_iff s hs halloc p hp req hreq
  have hiff := is_safe_state_iff s hs halloc p hp req hreq
  refine ⟨⟨b, hb⟩, ?_⟩
  rw [hb1, hb]
  rw [hb] at hiff
  have hbb : b1 = true ↔ b = true := by
    rw [hiff1, ← hiff]
    simp
  congr 1
  cases b <;> cases b1 <;> simp_all

/-- Witness for the amended C22 on the engine of `main`: both procedures accept the
request `(1,0,2)` of process 0. -/
theorem scan_order_equivalence_witness :
    spec_is_safe (main_engine empty_net) 0 [1, 0, 2] = some true ∧
    is_safe_state (main_engine empty_net) 0 [1, 0, 2] = some true := by
  have h := (scan_order_equivalence (main_engine empty_net) (by decide) (by decide) 0
    (by decide) [1, 0, 2] (by decide) (by decide)).2
  have h2 : is_safe_state (main_engine empty_net) 0 [1, 0, 2] = some true := by decide
  exact ⟨h.trans h2, h2⟩

/-! ## Termination of the cycle detector -/

theorem dfs_edge_traced_erase (call : Nat → Dfs → Option Dfs)
    (callT : Nat → DfsTrace → Option DfsTrace)
    (hcall : ∀ next t, (callT next t).map (fun t1 => t1.st) = call next t.st)
    (acc : Option DfsTrace) (next : Nat) :
    (dfs_edge_traced callT acc next).map (fun t1 => t1.st) =
      dfs_edge call (acc.map (fun t1 => t1.st)) next := by
  cases acc with
  | none => rfl
  | some t =>
    simp only [dfs_edge_traced, dfs_edge, Option.map_some']
    split_ifs
    · exact hcall next t
    · rfl

theorem dfs_edges_traced_erase (call : Nat → Dfs → Option Dfs)
    (callT : Nat → DfsTrace → Option DfsTrace)
    (hcall : ∀ next t, (callT next t).map (fun t1 => t1.st) = call next t.st)
    (l : List Nat) (acc : Option DfsTrace) :
    (l.foldl (dfs_edge_traced callT) acc).map (fun t1 => t1.st) =
      l.foldl (dfs_edge call) (acc.map (fun t1 => t1.st)) := by
  induction l generalizing acc with
  | nil => rfl
  | cons next rest ih =>
    simp only [List.foldl_cons]
    rw [ih, dfs_edge_traced_erase call callT hcall]

/-- Dropping the record from `dfs_traced` gives `dfs`. -/
theorem dfs_traced_erase (rag : Nat → List Nat) (fuel : Nat) :
    ∀ (node : Nat) (t : DfsTrace),
      (dfs_traced rag fuel node t).map (fun t1 => t1.st) = dfs rag fuel node t.st := by
  induction fuel with
  | zero => intro node t; rfl
  | succ fuel ih =>
    intro node t
    have hfold := dfs_edges_traced_erase (fun next st2 => dfs rag fuel next st2)
      (fun next t2 => dfs_traced rag fuel next t2) (fun next t2 => ih next t2) (rag node)
      (some { st := { t.st with visited := t.st.visited.set node true,
                                path := t.st.path ++ [node] }
              calls := t.calls ++ [(node, t.st.path)] })
    simp only [Option.map_some'] at hfold
    simp only [dfs_traced, dfs]
    rw [← hfold]
    cases (rag node).foldl (dfs_edge_traced (fun next t2 => dfs_traced rag fuel next t2))
        (some { st := { t.st with visited := t.st.visited.set node true,
                                  path := t.st.path ++ [node] }
                calls := t.calls ++ [(node, t.st.path)] }) with
    | none => rfl
    | some t3 => rfl

theorem dfs_roots_traced_erase (s : Engine) (l : List Nat) (acc : Option DfsTrace) :
    (l.foldl (dfs_root_traced s) acc).map (fun t1 => t1.st) =
      l.foldl (dfs_root s) (acc.map (fun t1 => t1.st)) := by
  induction l generalizing acc with
  | nil => rfl
  | cons i rest ih =>
    simp only [List.foldl_cons]
    rw [ih]
    congr 1
    cases acc with
    | none => rfl
    | some t =>
      simp only [dfs_root_traced, dfs_root, Option.map_some']
      split_ifs
      · exact dfs_traced_erase s.rag s.num_processes i t
      · rfl

/-- Dropping the record from the recorded run gives `detect_cycles`. -/
theorem detect_cycles_traced_erase (s : Engine) :
    (detect_cycles_traced s).map (fun t => t.st.cycles) = detect_cycles s := by
  have h := dfs_roots_traced_erase s (List.range s.num_processes)
    (some { st := { visited := List.replicate s.num_processes false, path := [], cycles := [] }
            calls := [] })
  simp only [Option.map_some'] at h
  unfold detect_cycles detect_cycles_traced
  rw [← h, Option.map_map]
  rfl

theorem record_cycle_keeps (st : Dfs) (next : Nat) :
    (record_cycle st next).visited = st.visited ∧ (record_cycle st next).path = st.path := by
  unfold record_cycle
  simp only
  split_ifs <;> exact ⟨rfl, rfl⟩

theorem pathInv_congr (P : Nat) (st st1 : Dfs) (hv : st1.visited = st.visited)
    (hp : st1.path = st.path) (h : PathInv P st) : PathInv P st1 := by
  unfold PathInv
  rw [hv, hp]
  exact h

/-- The edge loop on recorded states returns with `visited` and `path` as they were and
only good calls recorded, if the recursive call does so on unvisited vertices. -/
theorem dfs_edges_traced_good (P : Nat) (callT : Nat → DfsTrace → Option DfsTrace)
    (path1 : List Nat)
    (hcall : ∀ next t, PathInv P t.st → t.st.path = path1 → next < P → next ∉ path1 →
      GoodCalls P t.calls →
      ∃ t1, callT next t = some t1 ∧ t1.st.visited = t.st.visited ∧
        t1.st.path = t.st.path ∧ GoodCalls P t1.calls)
    (l : List Nat) (hl : ∀ x ∈ l, x < P) (t : DfsTrace) (hinv : PathInv P t.st)
    (hpath : t.st.path = path1) (hgood : GoodCalls P t.calls) :
    ∃ t1, l.foldl (dfs_edge_traced callT) (some t) = some t1 ∧
      t1.st.visited = t.st.visited ∧ t1.st.path = t.st.path ∧ GoodCalls P t1.calls := by
  induction l generalizing t with
  | nil => exact ⟨t, rfl, rfl, rfl, hgood⟩
  | cons next rest ih =>
    simp only [List.foldl_cons]
    have hrest : ∀ x ∈ rest, x < P := fun x hx => hl x (List.mem_cons_of_mem _ hx)
    by_cases hv : t.st.visited.getD next false = true
    · have hstep : dfs_edge_traced callT (some t) next =
          some { t with st := record_cycle t.st next } := by
        simp only [dfs_edge_traced, hv, Bool.not_true, Bool.false_eq_true, if_false]
      obtain ⟨k1, k2⟩ := record_cycle_keeps t.st next
      obtain ⟨t1, hrun, h1, h2, h3⟩ := ih hrest { t with st := record_cycle t.st next }
        (pathInv_congr P t.st _ k1 k2 hinv) (k2.trans hpath) hgood
      exact ⟨t1, by rw [hstep]; exact hrun, h1.trans k1, h2.trans k2, h3⟩
    · have hv2 : t.st.visited.getD next false = false := by simpa using hv
      have hnin : next ∉ path1 := by
        rw [← hpath]; intro hin; exact hv ((hinv.2.2 next).mpr hin)
      have hstep : dfs_edge_traced callT (some t) next = callT next t := by
        simp only [dfs_edge_traced, hv2, Bool.not_false, if_true]
      obtain ⟨t0, hc, k1, k2, k3⟩ :=
        hcall next t hinv hpath (hl next (List.mem_cons_self _ _)) hnin hgood
      obtain ⟨t1, hrun, h1, h2, h3⟩ := ih hrest t0 (pathInv_congr P t.st _ k1 k2 hinv)
        (k2.trans hpath) k3
      exact ⟨t1, by rw [hstep, hc]; exact hrun, h1.trans k1, h2.trans k2, h3⟩

/-- A call `dfs(node)` on an unvisited vertex returns within the depth budget, and every
call it makes, itself included, is a good call. -/
theorem dfs_traced_good (rag : Nat → List Nat) (P : Nat) (hrange : EdgesInRange rag P)
    (fuel : Nat) :
    ∀ (node : Nat) (t : DfsTrace), PathInv P t.st → node < P → node ∉ t.st.path →
      P ≤ fuel + t.st.path.length → GoodCalls P t.calls →
      ∃ t1, dfs_traced rag fuel node t = some t1 ∧ t1.st.visited = t.st.visited ∧
        t1.st.path = t.st.path ∧ GoodCalls P t1.calls := by
  induction fuel with
  | zero =>
    intro node t hinv hn hnot hfuel _
    have := pathInv_length_lt P t.st hinv node hn hnot
    omega
  | succ fuel ih =>
    intro node t hinv hn hnot hfuel hgood
    have hinv1 := pathInv_push P t.st hinv node hn hnot
    have hlen := pathInv_length_lt P t.st hinv node hn hnot
    have hgood1 : GoodCalls P (t.calls ++ [(node, t.st.path)]) := by
      intro c hc
      rcases List.mem_append.mp hc with h | h
      · exact hgood c h
      · have hceq : c = (node, t.st.path) := by simpa using h
        subst hceq
        refine ⟨hn, hnot, ?_, ?_⟩
        · exact List.Nodup.append hinv.2.1 (List.nodup_singleton node) (by simpa using hnot)
        · simp only [List.length_append, List.length_singleton]; omega
    obtain ⟨t3, hrun, h1, h2, h3⟩ := dfs_edges_traced_good P
      (fun next t2 => dfs_traced rag fuel next t2) (t.st.path ++ [node])
      (fun next t2 hi2 hp2 hlt hnin hg2 =>
        ih next t2 hi2 hlt (by rw [hp2]; exact hnin)
          (by rw [hp2]; simp only [List.length_append, List.length_singleton]; omega) hg2)
      (rag node) (fun x hx => (hrange node x hx).2)
      { st := { t.st with visited := t.st.visited.set node true, path := t.st.path ++ [node] }
        calls := t.calls ++ [(node, t.st.path)] }
      hinv1 rfl hgood1
    have hv : t.st.visited.getD node false = false := by
      cases hb : t.st.visited.getD node false
      · rfl
      · exact absurd ((hinv.2.2 node).mp hb) hnot
    simp only [dfs_traced, hrun]
    refine ⟨_, rfl, ?_, ?_, h3⟩
    · show t3.st.visited.set node false = t.st.visited
      rw [h1]
      show (t.st.visited.set node true).set node false = t.st.visited
      rw [List.set_set, set_false_of_getD _ _ hv]
    · show t3.st.path.dropLast = t.st.path
      rw [h2]
      exact List.dropLast_concat

theorem dfs_roots_traced_good (s : Engine) (hrange : EdgesInRange s.rag s.num_processes)
    (l : List Nat) (hl : ∀ x ∈ l, x < s.num_processes) (t : DfsTrace)
    (hinv : PathInv s.num_processes t.st) (hpath : t.st.path = [])
    (hgood : GoodCalls s.num_processes t.calls) :
    ∃ t1, l.foldl (dfs_root_traced s) (some t) = some t1 ∧
      GoodCalls s.num_processes t1.calls := by
  induction l generalizing t with
  | nil => exact ⟨t, rfl, hgood⟩
  | cons i rest ih =>
    simp only [List.foldl_cons]
    have hnot : i ∉ t.st.path := by rw [hpath]; exact List.not_mem_nil i
    have hv : t.st.visited.getD i false = false := by
      cases hb : t.st.visited.getD i false
      · rfl
      · exact absurd ((hinv.2.2 i).mp hb) hnot
    have hstep : dfs_root_traced s (some t) i = dfs_traced s.rag s.num_processes i t := by
      simp only [dfs_root_traced, hv, Bool.not_false, if_true]
    obtain ⟨t0, hc, k1, k2, k3⟩ := dfs_traced_good s.rag s.num_processes hrange
      s.num_processes i t hinv (hl i (List.mem_cons_self _ _)) hnot (Nat.le_add_right _ _) hgood
    obtain ⟨t1, hrun, h3⟩ := ih (fun x hx => hl x (List.mem_cons_of_mem _ hx)) t0
      (pathInv_congr _ t.st _ k1 k2 hinv) (k2.trans hpath) k3
    exact ⟨t1, by rw [hstep, hc]; exact hrun, h3⟩

/-- Claim C23, cycle detector termination: for every `P` and every wait-for graph whose
edge endpoints all lie in `[0,P)`, `detect_cycles` returns with recursion depth `P` as
budget; in the run with the calls recorded (which gives the same cycles), every call
`dfs(node)`, the re-entries after the on-path flag was reset included, is made on a node
that is not on the current path, so the path with the node added never repeats a vertex
and never has more than `P` vertices, which is the recursion depth at that call. -/
theorem detect_cycles_terminates (s : Engine) (hrange : EdgesInRange s.rag s.num_processes) :
    (∃ cycles, detect_cycles s = some cycles) ∧
    ∃ t, detect_cycles_traced s = some t ∧ detect_cycles s = some t.st.cycles ∧
      ∀ c ∈ t.calls, c.1 < s.num_processes ∧ c.1 ∉ c.2 ∧ (c.2 ++ [c.1]).Nodup ∧
        (c.2 ++ [c.1]).length ≤ s.num_processes := by
  obtain ⟨t, hrun, hgood⟩ := dfs_roots_traced_good s hrange (List.range s.num_processes)
    (fun x hx => List.mem_range.mp hx)
    { st := { visited := List.replicate s.num_processes false, path := [], cycles := [] }
      calls := [] }
    (pathInv_init s.num_processes) rfl (fun c hc => absurd hc (List.not_mem_nil c))
  have hrunT : detect_cycles_traced s = some t := hrun
  have herase := detect_cycles_traced_erase s
  rw [hrunT] at herase
  exact ⟨⟨_, herase.symm⟩, t, hrunT, herase.symm, hgood⟩

/-- Witness for C23: the run on the edges `0 -> 1`, `1 -> 2`, `2 -> 0` makes eleven calls
(three from each root on the ring, vertices being re-entered, and one for each of the two
isolated vertices), each on a node off the current path. -/
theorem detect_cycles_terminates_witness :
    ∃ t, detect_cycles_traced ring_engine = some t ∧
      t.calls = [(0, []), (1, [0]), (2, [0, 1]), (1, []), (2, [1]), (0, [1, 2]),
        (2, []), (0, [2]), (1, [2, 0]), (3, []), (4, [])] ∧
      ∀ c ∈ t.calls, c.1 < 5 ∧ c.1 ∉ c.2 ∧ (c.2 ++ [c.1]).Nodup ∧ (c.2 ++ [c.1]).length ≤ 5 := by
  obtain ⟨t, hrun, _, hgood⟩ := (detect_cycles_terminates ring_engine ring_engine_in_range).2
  refine ⟨t, hrun, ?_, hgood⟩
  have hcalls : (detect_cycles_traced ring_engine).map (fun t => t.calls) =
      some [(0, []), (1, [0]), (2, [0, 1]), (1, []), (2, [1]), (0, [1, 2]),
        (2, []), (0, [2]), (1, [2, 0]), (3, []), (4, [])] := by decide
  rw [hrun] at hcalls
  simpa using hcalls

end Deadlock
